import Mathlib

namespace NorthData

/-- A DOM node: either a text node or an element with a tag name, an attribute
list (name-value pairs) and a list of children.  This models the cloned DOM
subtree the sanitization transform in `getPageContent` operates on
(src/src/scraper.ts, the `page.evaluate` callback). -/
inductive Node where
  | text (s : String)
  | elem (tag : String) (attrs : List (String × String)) (children : List Node)
deriving Repr

/-- Custom induction principle for `Node` giving the hypothesis for every
member of the child list. -/
theorem Node.inductionOn {P : Node → Prop}
    (ht : ∀ s, P (.text s))
    (he : ∀ t a cs, (∀ c ∈ cs, P c) → P (.elem t a cs)) :
    ∀ n, P n := by
  intro n
  induction n using Node.rec
    (motive_2 := fun l => ∀ c ∈ l, P c) with
  | text s => exact ht s
  | elem t a cs ih => exact he t a cs ih
  | nil => rename_i c hc; exact absurd hc (List.not_mem_nil c)
  | cons hd tl ihh iht =>
      rename_i c hc
      rcases List.mem_cons.mp hc with h | h
      · exact h ▸ ihh
      · exact iht c h

/-- Whether `n` is an element with tag `t` (models matching by
`querySelectorAll(t)` for a plain tag-name selector). -/
def isTagB (t : String) : Node → Bool
  | .text _ => false
  | .elem tg _ _ => tg == t

mutual

/-- Remove every descendant element whose tag is `t`, keeping the node the
function is applied to itself (mirrors `sectionClone.querySelectorAll(t)`
followed by `.remove()` on each hit: `querySelectorAll` never returns the
root). -/
def removeTagAll (t : String) : Node → Node
  | .text s => .text s
  | .elem tg as cs => .elem tg as (removeTagList t cs)

/-- `removeTagAll` on a child list: drop children with tag `t` (with their
whole subtree, as `.remove()` does), recurse into the rest. -/
def removeTagList (t : String) : List Node → List Node
  | [] => []
  | c :: cs => (if isTagB t c then [] else [removeTagAll t c]) ++ removeTagList t cs

end

mutual

/-- Strip every attribute whose name satisfies `p` from this element and all
its descendants (`el.removeAttribute(name)` applied throughout a subtree). -/
def stripAttrsFromAll (p : String → Bool) : Node → Node
  | .text s => .text s
  | .elem tg as cs => .elem tg (as.filter fun kv => !(p kv.1)) (stripAttrsList p cs)

/-- `stripAttrsFromAll` mapped over a child list. -/
def stripAttrsList (p : String → Bool) : List Node → List Node
  | [] => []
  | c :: cs => stripAttrsFromAll p c :: stripAttrsList p cs

end

/-- Strip attributes satisfying `p` from every descendant, leaving the root's
own attributes untouched: `querySelectorAll` (used with `[style]`, `[class]`
and `*` in the source) only ever returns descendants of `sectionClone`, so
the root element's attributes are never visited. -/
def stripAttrsDesc (p : String → Bool) : Node → Node
  | .text s => .text s
  | .elem tg as cs => .elem tg as (stripAttrsList p cs)

mutual

/-- `node.textContent`: concatenation of all text-node data in the subtree. -/
def textContent : Node → String
  | .text s => s
  | .elem _ _ cs => textContentList cs

/-- `textContent` over a child list. -/
def textContentList : List Node → String
  | [] => ""
  | c :: cs => textContent c ++ textContentList cs

end

mutual

/-- Process one node in child position for the hyperlink pass
(src/src/scraper.ts lines 334-343): an anchor is replaced by a text node
carrying its `textContent` when that text is non-empty (`if (link.textContent)`
— the empty string is falsy) and removed entirely otherwise; other elements
are recursed into. -/
def replaceLinkNode : Node → List Node
  | .text s => [.text s]
  | .elem tg as cs =>
      if tg = "a" then
        if textContentList cs = "" then [] else [.text (textContentList cs)]
      else [.elem tg as (replaceLinkList cs)]

/-- `replaceLinkNode` over a child list. -/
def replaceLinkList : List Node → List Node
  | [] => []
  | c :: cs => replaceLinkNode c ++ replaceLinkList cs

end

/-- The hyperlink pass applied below a root (`querySelectorAll('a')` never
returns the root itself). -/
def replaceLinksDesc : Node → Node
  | .text s => .text s
  | .elem tg as cs => .elem tg as (replaceLinkList cs)

/-- Attribute names removed by the final attribute pass (src/src/scraper.ts
lines 365-379): every `on*` event-handler attribute
(`attr.name.startsWith('on')`, read off the first two characters) plus the
fixed set `href`, `src`, `id`, `target`, `rel`. -/
def badAttrB (n : String) : Bool :=
  (match n.data with
   | 'o' :: 'n' :: _ => true
   | _ => false) ||
  n == "href" || n == "src" || n == "id" || n == "target" || n == "rel"

/-- The DOM phase of the content sanitization transform of `getPageContent`
(src/src/scraper.ts lines 309-379), pass for pass in source order: remove
`script` elements, remove `style` elements, strip `style` attributes, strip
`class` attributes, replace hyperlinks by their text, remove `img`, `button`,
`form`, `input` and `iframe` elements, and strip event-handler and
`href`/`src`/`id`/`target`/`rel` attributes.  Note the source applies every
pass uniformly to all elements: the comment block at lines 320-324 records
that the svg exemption was deliberately reverted. -/
def cleanTree (root : Node) : Node :=
  stripAttrsDesc badAttrB
    (removeTagAll "iframe"
      (removeTagAll "input"
        (removeTagAll "form"
          (removeTagAll "button"
            (removeTagAll "img"
              (replaceLinksDesc
                (stripAttrsDesc (fun a => a == "class")
                  (stripAttrsDesc (fun a => a == "style")
                    (removeTagAll "style"
                      (removeTagAll "script" root))))))))))

mutual

/-- No element tagged `t` occurs in the subtree rooted at this node (the node
itself included). -/
def noTagSub (t : String) : Node → Bool
  | .text _ => true
  | .elem tg _ cs => !(tg == t) && noTagSubList t cs

/-- `noTagSub` over a child list. -/
def noTagSubList (t : String) : List Node → Bool
  | [] => true
  | c :: cs => noTagSub t c && noTagSubList t cs

end

/-- No element tagged `t` occurs strictly below this node. -/
def noTagDesc (t : String) : Node → Bool
  | .text _ => true
  | .elem _ _ cs => noTagSubList t cs

mutual

/-- No attribute whose name satisfies `p` occurs in the subtree rooted at
this node (the node itself included). -/
def noAttrSub (p : String → Bool) : Node → Bool
  | .text _ => true
  | .elem _ as cs => as.all (fun kv => !(p kv.1)) && noAttrSubList p cs

/-- `noAttrSub` over a child list. -/
def noAttrSubList (p : String → Bool) : List Node → Bool
  | [] => true
  | c :: cs => noAttrSub p c && noAttrSubList p cs

end

/-- No attribute whose name satisfies `p` occurs strictly below this node. -/
def noAttrDesc (p : String → Bool) : Node → Bool
  | .text _ => true
  | .elem _ _ cs => noAttrSubList p cs

theorem noTagSubList_all (t : String) (cs : List Node) :
    noTagSubList t cs = true ↔ ∀ c ∈ cs, noTagSub t c = true := by
  induction cs with
  | nil => simp [noTagSubList]
  | cons c cs ih => simp [noTagSubList, ih]

theorem noAttrSubList_all (p : String → Bool) (cs : List Node) :
    noAttrSubList p cs = true ↔ ∀ c ∈ cs, noAttrSub p c = true := by
  induction cs with
  | nil => simp [noAttrSubList]
  | cons c cs ih => simp [noAttrSubList, ih]

theorem mem_removeTagList {t : String} {cs : List Node} {c' : Node} :
    c' ∈ removeTagList t cs ↔ ∃ c ∈ cs, isTagB t c = false ∧ c' = removeTagAll t c := by
  induction cs with
  | nil => simp [removeTagList]
  | cons c cs ih =>
      by_cases h : isTagB t c
      · simp [removeTagList, h, ih]
      · simp only [removeTagList, if_neg h, List.singleton_append, List.mem_cons, ih]
        constructor
        · rintro (rfl | ⟨c0, hc0, hn, rfl⟩)
          · exact ⟨c, Or.inl rfl, Bool.of_not_eq_true h, rfl⟩
          · exact ⟨c0, Or.inr hc0, hn, rfl⟩
        · rintro ⟨c0, (rfl | hc0), hn, rfl⟩
          · exact Or.inl rfl
          · exact Or.inr ⟨c0, hc0, hn, rfl⟩

theorem mem_stripAttrsList {p : String → Bool} {cs : List Node} {c' : Node} :
    c' ∈ stripAttrsList p cs ↔ ∃ c ∈ cs, c' = stripAttrsFromAll p c := by
  induction cs with
  | nil => simp [stripAttrsList]
  | cons c cs ih => simp [stripAttrsList, ih]

theorem mem_replaceLinkList {cs : List Node} {c' : Node} :
    c' ∈ replaceLinkList cs ↔ ∃ c ∈ cs, c' ∈ replaceLinkNode c := by
  induction cs with
  | nil => simp [replaceLinkList]
  | cons c cs ih => simp [replaceLinkList, ih]

theorem noTagSub_removeTagAll_self (t : String) :
    ∀ n, isTagB t n = false → noTagSub t (removeTagAll t n) = true := by
  intro n
  induction n using Node.inductionOn with
  | ht s => intro _; simp [removeTagAll, noTagSub]
  | he tg a cs ih =>
      intro htag
      simp only [removeTagAll, noTagSub, Bool.and_eq_true]
      refine ⟨?_, ?_⟩
      · simpa [isTagB] using htag
      · rw [noTagSubList_all]
        intro c' hc'
        rw [mem_removeTagList] at hc'
        obtain ⟨c, hc, hn, rfl⟩ := hc'
        exact ih c hc hn

theorem noTagSubList_removeTagList_self (t : String) (cs : List Node) :
    noTagSubList t (removeTagList t cs) = true := by
  rw [noTagSubList_all]
  intro c' hc'
  rw [mem_removeTagList] at hc'
  obtain ⟨c, _, hn, rfl⟩ := hc'
  exact noTagSub_removeTagAll_self t c hn

theorem noTagDesc_removeTagAll_self (t : String) (n : Node) :
    noTagDesc t (removeTagAll t n) = true := by
  cases n with
  | text s => simp [removeTagAll, noTagDesc]
  | elem tg a cs =>
      simp only [removeTagAll, noTagDesc]
      exact noTagSubList_removeTagList_self t cs

theorem noTagSub_removeTagAll (t s : String) :
    ∀ n, noTagSub s n = true → noTagSub s (removeTagAll t n) = true := by
  intro n
  induction n using Node.inductionOn with
  | ht str => intro _; simp [removeTagAll, noTagSub]
  | he tg a cs ih =>
      intro h
      simp only [noTagSub, Bool.and_eq_true, noTagSubList_all] at h
      simp only [removeTagAll, noTagSub, Bool.and_eq_true]
      refine ⟨h.1, ?_⟩
      rw [noTagSubList_all]
      intro c' hc'
      rw [mem_removeTagList] at hc'
      obtain ⟨c, hc, _, rfl⟩ := hc'
      exact ih c hc (h.2 c hc)

theorem noAttrSub_removeTagAll (t : String) (p : String → Bool) :
    ∀ n, noAttrSub p n = true → noAttrSub p (removeTagAll t n) = true := by
  intro n
  induction n using Node.inductionOn with
  | ht str => intro _; simp [removeTagAll, noAttrSub]
  | he tg a cs ih =>
      intro h
      simp only [noAttrSub, Bool.and_eq_true, noAttrSubList_all] at h
      simp only [removeTagAll, noAttrSub, Bool.and_eq_true]
      refine ⟨h.1, ?_⟩
      rw [noAttrSubList_all]
      intro c' hc'
      rw [mem_removeTagList] at hc'
      obtain ⟨c, hc, _, rfl⟩ := hc'
      exact ih c hc (h.2 c hc)

theorem noAttrSub_stripAttrsFromAll_self (p : String → Bool) :
    ∀ n, noAttrSub p (stripAttrsFromAll p n) = true := by
  intro n
  induction n using Node.inductionOn with
  | ht s => simp [stripAttrsFromAll, noAttrSub]
  | he tg a cs ih =>
      simp only [stripAttrsFromAll, noAttrSub, Bool.and_eq_true]
      refine ⟨?_, ?_⟩
      · rw [List.all_eq_true]
        intro kv hkv
        exact (List.mem_filter.mp hkv).2
      · rw [noAttrSubList_all]
        intro c' hc'
        rw [mem_stripAttrsList] at hc'
        obtain ⟨c, hc, rfl⟩ := hc'
        exact ih c hc

theorem noTagSub_stripAttrsFromAll (p : String → Bool) (s : String) :
    ∀ n, noTagSub s n = true → noTagSub s (stripAttrsFromAll p n) = true := by
  intro n
  induction n using Node.inductionOn with
  | ht str => intro _; simp [stripAttrsFromAll, noTagSub]
  | he tg a cs ih =>
      intro h
      simp only [noTagSub, Bool.and_eq_true, noTagSubList_all] at h
      simp only [stripAttrsFromAll, noTagSub, Bool.and_eq_true]
      refine ⟨h.1, ?_⟩
      rw [noTagSubList_all]
      intro c' hc'
      rw [mem_stripAttrsList] at hc'
      obtain ⟨c, hc, rfl⟩ := hc'
      exact ih c hc (h.2 c hc)

theorem noAttrSub_stripAttrsFromAll (p q : String → Bool) :
    ∀ n, noAttrSub q n = true → noAttrSub q (stripAttrsFromAll p n) = true := by
  intro n
  induction n using Node.inductionOn with
  | ht str => intro _; simp [stripAttrsFromAll, noAttrSub]
  | he tg a cs ih =>
      intro h
      simp only [noAttrSub, Bool.and_eq_true, noAttrSubList_all] at h
      simp only [stripAttrsFromAll, noAttrSub, Bool.and_eq_true]
      refine ⟨?_, ?_⟩
      · rw [List.all_eq_true]
        intro kv hkv
        exact (List.all_eq_true.mp h.1) kv (List.mem_filter.mp hkv).1
      · rw [noAttrSubList_all]
        intro c' hc'
        rw [mem_stripAttrsList] at hc'
        obtain ⟨c, hc, rfl⟩ := hc'
        exact ih c hc (h.2 c hc)

theorem noTagSubList_singleton (t : String) (n : Node) :
    noTagSubList t [n] = noTagSub t n := by
  simp [noTagSubList]

theorem noAttrSubList_singleton (p : String → Bool) (n : Node) :
    noAttrSubList p [n] = noAttrSub p n := by
  simp [noAttrSubList]

theorem noTagSubList_replaceLinkNode_self :
    ∀ n, noTagSubList "a" (replaceLinkNode n) = true := by
  intro n
  induction n using Node.inductionOn with
  | ht s => simp [replaceLinkNode, noTagSubList, noTagSub]
  | he tg a cs ih =>
      by_cases htg : tg = "a"
      · simp only [replaceLinkNode, if_pos htg]
        by_cases hempty : textContentList cs = ""
        · simp [if_pos hempty, noTagSubList]
        · simp [if_neg hempty, noTagSubList, noTagSub]
      · simp only [replaceLinkNode, if_neg htg]
        rw [noTagSubList_singleton]
        simp only [noTagSub, Bool.and_eq_true]
        refine ⟨?_, ?_⟩
        · simpa using htg
        · rw [noTagSubList_all]
          intro c' hc'
          rw [mem_replaceLinkList] at hc'
          obtain ⟨c, hc, hc'mem⟩ := hc'
          exact (noTagSubList_all "a" (replaceLinkNode c)).mp (ih c hc) c' hc'mem

theorem noTagSubList_replaceLinkNode (s : String) :
    ∀ n, noTagSub s n = true → noTagSubList s (replaceLinkNode n) = true := by
  intro n
  induction n using Node.inductionOn with
  | ht str => intro _; simp [replaceLinkNode, noTagSubList, noTagSub]
  | he tg a cs ih =>
      intro h
      simp only [noTagSub, Bool.and_eq_true, noTagSubList_all] at h
      by_cases htg : tg = "a"
      · simp only [replaceLinkNode, if_pos htg]
        by_cases hempty : textContentList cs = ""
        · simp [if_pos hempty, noTagSubList]
        · simp [if_neg hempty, noTagSubList, noTagSub]
      · simp only [replaceLinkNode, if_neg htg]
        rw [noTagSubList_singleton]
        simp only [noTagSub, Bool.and_eq_true]
        refine ⟨h.1, ?_⟩
        rw [noTagSubList_all]
        intro c' hc'
        rw [mem_replaceLinkList] at hc'
        obtain ⟨c, hc, hc'mem⟩ := hc'
        exact (noTagSubList_all s (replaceLinkNode c)).mp (ih c hc (h.2 c hc)) c' hc'mem

theorem noAttrSubList_replaceLinkNode (p : String → Bool) :
    ∀ n, noAttrSub p n = true → noAttrSubList p (replaceLinkNode n) = true := by
  intro n
  induction n using Node.inductionOn with
  | ht str => intro _; simp [replaceLinkNode, noAttrSubList, noAttrSub]
  | he tg a cs ih =>
      intro h
      simp only [noAttrSub, Bool.and_eq_true, noAttrSubList_all] at h
      by_cases htg : tg = "a"
      · simp only [replaceLinkNode, if_pos htg]
        by_cases hempty : textContentList cs = ""
        · simp [if_pos hempty, noAttrSubList]
        · simp [if_neg hempty, noAttrSubList, noAttrSub]
      · simp only [replaceLinkNode, if_neg htg]
        rw [noAttrSubList_singleton]
        simp only [noAttrSub, Bool.and_eq_true]
        refine ⟨h.1, ?_⟩
        rw [noAttrSubList_all]
        intro c' hc'
        rw [mem_replaceLinkList] at hc'
        obtain ⟨c, hc, hc'mem⟩ := hc'
        exact (noAttrSubList_all p (replaceLinkNode c)).mp (ih c hc (h.2 c hc)) c' hc'mem

theorem noTagDesc_removeTagAll (t s : String) (n : Node) :
    noTagDesc s n = true → noTagDesc s (removeTagAll t n) = true := by
  cases n with
  | text str => intro _; simp [removeTagAll, noTagDesc]
  | elem tg a cs =>
      intro h
      simp only [noTagDesc, noTagSubList_all] at h
      simp only [removeTagAll, noTagDesc]
      rw [noTagSubList_all]
      intro c' hc'
      rw [mem_removeTagList] at hc'
      obtain ⟨c, hc, _, rfl⟩ := hc'
      exact noTagSub_removeTagAll t s c (h c hc)

theorem noAttrDesc_removeTagAll (t : String) (p : String → Bool) (n : Node) :
    noAttrDesc p n = true → noAttrDesc p (removeTagAll t n) = true := by
  cases n with
  | text str => intro _; simp [removeTagAll, noAttrDesc]
  | elem tg a cs =>
      intro h
      simp only [noAttrDesc, noAttrSubList_all] at h
      simp only [removeTagAll, noAttrDesc]
      rw [noAttrSubList_all]
      intro c' hc'
      rw [mem_removeTagList] at hc'
      obtain ⟨c, hc, _, rfl⟩ := hc'
      exact noAttrSub_removeTagAll t p c (h c hc)

theorem noAttrDesc_stripAttrsDesc_self (p : String → Bool) (n : Node) :
    noAttrDesc p (stripAttrsDesc p n) = true := by
  cases n with
  | text str => simp [stripAttrsDesc, noAttrDesc]
  | elem tg a cs =>
      simp only [stripAttrsDesc, noAttrDesc]
      rw [noAttrSubList_all]
      intro c' hc'
      rw [mem_stripAttrsList] at hc'
      obtain ⟨c, hc, rfl⟩ := hc'
      exact noAttrSub_stripAttrsFromAll_self p c

theorem noTagDesc_stripAttrsDesc (p : String → Bool) (s : String) (n : Node) :
    noTagDesc s n = true → noTagDesc s (stripAttrsDesc p n) = true := by
  cases n with
  | text str => intro _; simp [stripAttrsDesc, noTagDesc]
  | elem tg a cs =>
      intro h
      simp only [noTagDesc, noTagSubList_all] at h
      simp only [stripAttrsDesc, noTagDesc]
      rw [noTagSubList_all]
      intro c' hc'
      rw [mem_stripAttrsList] at hc'
      obtain ⟨c, hc, rfl⟩ := hc'
      exact noTagSub_stripAttrsFromAll p s c (h c hc)

theorem noAttrDesc_stripAttrsDesc (p q : String → Bool) (n : Node) :
    noAttrDesc q n = true → noAttrDesc q (stripAttrsDesc p n) = true := by
  cases n with
  | text str => intro _; simp [stripAttrsDesc, noAttrDesc]
  | elem tg a cs =>
      intro h
      simp only [noAttrDesc, noAttrSubList_all] at h
      simp only [stripAttrsDesc, noAttrDesc]
      rw [noAttrSubList_all]
      intro c' hc'
      rw [mem_stripAttrsList] at hc'
      obtain ⟨c, hc, rfl⟩ := hc'
      exact noAttrSub_stripAttrsFromAll p q c (h c hc)

theorem noTagDesc_replaceLinksDesc_self (n : Node) :
    noTagDesc "a" (replaceLinksDesc n) = true := by
  cases n with
  | text str => simp [replaceLinksDesc, noTagDesc]
  | elem tg a cs =>
      simp only [replaceLinksDesc, noTagDesc]
      rw [noTagSubList_all]
      intro c' hc'
      rw [mem_replaceLinkList] at hc'
      obtain ⟨c, hc, hmem⟩ := hc'
      exact (noTagSubList_all "a" (replaceLinkNode c)).mp
        (noTagSubList_replaceLinkNode_self c) c' hmem

theorem noTagDesc_replaceLinksDesc (s : String) (n : Node) :
    noTagDesc s n = true → noTagDesc s (replaceLinksDesc n) = true := by
  cases n with
  | text str => intro _; simp [replaceLinksDesc, noTagDesc]
  | elem tg a cs =>
      intro h
      simp only [noTagDesc, noTagSubList_all] at h
      simp only [replaceLinksDesc, noTagDesc]
      rw [noTagSubList_all]
      intro c' hc'
      rw [mem_replaceLinkList] at hc'
      obtain ⟨c, hc, hmem⟩ := hc'
      exact (noTagSubList_all s (replaceLinkNode c)).mp
        (noTagSubList_replaceLinkNode s c (h c hc)) c' hmem

theorem noAttrDesc_replaceLinksDesc (p : String → Bool) (n : Node) :
    noAttrDesc p n = true → noAttrDesc p (replaceLinksDesc n) = true := by
  cases n with
  | text str => intro _; simp [replaceLinksDesc, noAttrDesc]
  | elem tg a cs =>
      intro h
      simp only [noAttrDesc, noAttrSubList_all] at h
      simp only [replaceLinksDesc, noAttrDesc]
      rw [noAttrSubList_all]
      intro c' hc'
      rw [mem_replaceLinkList] at hc'
      obtain ⟨c, hc, hmem⟩ := hc'
      exact (noAttrSubList_all p (replaceLinkNode c)).mp
        (noAttrSubList_replaceLinkNode p c (h c hc)) c' hmem

/-- What holds of every descendant of a `cleanTree` output: none of the
removed/replaced element kinds survives below the root, and none of the
stripped attribute names survives below the root. -/
def CleanedTop (n : Node) : Prop :=
  noTagDesc "script" n = true ∧ noTagDesc "style" n = true ∧ noTagDesc "a" n = true ∧
  noTagDesc "img" n = true ∧ noTagDesc "button" n = true ∧ noTagDesc "form" n = true ∧
  noTagDesc "input" n = true ∧ noTagDesc "iframe" n = true ∧
  noAttrDesc (fun a => a == "style") n = true ∧ noAttrDesc (fun a => a == "class") n = true ∧
  noAttrDesc badAttrB n = true

theorem noTagDesc_stripAttrsDesc_removeTag_chain (n : Node) :
    CleanedTop (cleanTree n) := by
  unfold cleanTree
  set n1 := removeTagAll "script" n with hn1
  set n2 := removeTagAll "style" n1 with hn2
  set n3 := stripAttrsDesc (fun a => a == "style") n2 with hn3
  set n4 := stripAttrsDesc (fun a => a == "class") n3 with hn4
  set n5 := replaceLinksDesc n4 with hn5
  set n6 := removeTagAll "img" n5 with hn6
  set n7 := removeTagAll "button" n6 with hn7
  set n8 := removeTagAll "form" n7 with hn8
  set n9 := removeTagAll "input" n8 with hn9
  set n10 := removeTagAll "iframe" n9 with hn10
  have h1 : noTagDesc "script" n10 = true := by
    refine noTagDesc_removeTagAll _ _ _ (noTagDesc_removeTagAll _ _ _
      (noTagDesc_removeTagAll _ _ _ (noTagDesc_removeTagAll _ _ _
        (noTagDesc_removeTagAll _ _ _ (noTagDesc_replaceLinksDesc _ _
          (noTagDesc_stripAttrsDesc _ _ _ (noTagDesc_stripAttrsDesc _ _ _
            (noTagDesc_removeTagAll _ _ _ ?_))))))))
    exact noTagDesc_removeTagAll_self "script" n
  have h2 : noTagDesc "style" n10 = true := by
    refine noTagDesc_removeTagAll _ _ _ (noTagDesc_removeTagAll _ _ _
      (noTagDesc_removeTagAll _ _ _ (noTagDesc_removeTagAll _ _ _
        (noTagDesc_removeTagAll _ _ _ (noTagDesc_replaceLinksDesc _ _
          (noTagDesc_stripAttrsDesc _ _ _ (noTagDesc_stripAttrsDesc _ _ _ ?_)))))))
    exact noTagDesc_removeTagAll_self "style" n1
  have h3 : noTagDesc "a" n10 = true := by
    refine noTagDesc_removeTagAll _ _ _ (noTagDesc_removeTagAll _ _ _
      (noTagDesc_removeTagAll _ _ _ (noTagDesc_removeTagAll _ _ _
        (noTagDesc_removeTagAll _ _ _ ?_))))
    exact noTagDesc_replaceLinksDesc_self n4
  have h4 : noTagDesc "img" n10 = true := by
    refine noTagDesc_removeTagAll _ _ _ (noTagDesc_removeTagAll _ _ _
      (noTagDesc_removeTagAll _ _ _ (noTagDesc_removeTagAll _ _ _ ?_)))
    exact noTagDesc_removeTagAll_self "img" n5
  have h5 : noTagDesc "button" n10 = true := by
    refine noTagDesc_removeTagAll _ _ _ (noTagDesc_removeTagAll _ _ _
      (noTagDesc_removeTagAll _ _ _ ?_))
    exact noTagDesc_removeTagAll_self "button" n6
  have h6 : noTagDesc "form" n10 = true := by
    refine noTagDesc_removeTagAll _ _ _ (noTagDesc_removeTagAll _ _ _ ?_)
    exact noTagDesc_removeTagAll_self "form" n7
  have h7 : noTagDesc "input" n10 = true := by
    refine noTagDesc_removeTagAll _ _ _ ?_
    exact noTagDesc_removeTagAll_self "input" n8
  have h8 : noTagDesc "iframe" n10 = true := noTagDesc_removeTagAll_self "iframe" n9
  have h9 : noAttrDesc (fun a => a == "style") n10 = true := by
    refine noAttrDesc_removeTagAll _ _ _ (noAttrDesc_removeTagAll _ _ _
      (noAttrDesc_removeTagAll _ _ _ (noAttrDesc_removeTagAll _ _ _
        (noAttrDesc_removeTagAll _ _ _ (noAttrDesc_replaceLinksDesc _ _
          (noAttrDesc_stripAttrsDesc _ _ _ ?_))))))
    exact noAttrDesc_stripAttrsDesc_self _ n2
  have h10 : noAttrDesc (fun a => a == "class") n10 = true := by
    refine noAttrDesc_removeTagAll _ _ _ (noAttrDesc_removeTagAll _ _ _
      (noAttrDesc_removeTagAll _ _ _ (noAttrDesc_removeTagAll _ _ _
        (noAttrDesc_removeTagAll _ _ _ (noAttrDesc_replaceLinksDesc _ _ ?_)))))
    exact noAttrDesc_stripAttrsDesc_self _ n3
  exact ⟨noTagDesc_stripAttrsDesc _ _ _ h1, noTagDesc_stripAttrsDesc _ _ _ h2,
    noTagDesc_stripAttrsDesc _ _ _ h3, noTagDesc_stripAttrsDesc _ _ _ h4,
    noTagDesc_stripAttrsDesc _ _ _ h5, noTagDesc_stripAttrsDesc _ _ _ h6,
    noTagDesc_stripAttrsDesc _ _ _ h7, noTagDesc_stripAttrsDesc _ _ _ h8,
    noAttrDesc_stripAttrsDesc _ _ _ h9, noAttrDesc_stripAttrsDesc _ _ _ h10,
    noAttrDesc_stripAttrsDesc_self _ n10⟩

theorem removeTagList_id_aux (t : String) :
    ∀ cs : List Node, (∀ c ∈ cs, noTagSub t c = true → removeTagAll t c = c) →
      noTagSubList t cs = true → removeTagList t cs = cs := by
  intro cs
  induction cs with
  | nil => intro _ _; rfl
  | cons c cs ih =>
      intro hpt h
      simp only [noTagSubList, Bool.and_eq_true] at h
      have htag : isTagB t c = false := by
        cases c with
        | text s => rfl
        | elem tg a cs2 =>
            simp only [noTagSub, Bool.and_eq_true] at h
            simpa [isTagB] using h.1.1
      simp only [removeTagList, htag, Bool.false_eq_true, if_false, List.singleton_append]
      rw [hpt c (List.mem_cons_self c cs) h.1,
        ih (fun c' hc' => hpt c' (List.mem_cons_of_mem c hc')) h.2]

theorem removeTagAll_id (t : String) :
    ∀ n, noTagSub t n = true → removeTagAll t n = n := by
  intro n
  induction n using Node.inductionOn with
  | ht s => intro _; rfl
  | he tg a cs ih =>
      intro h
      simp only [noTagSub, Bool.and_eq_true] at h
      simp only [removeTagAll]
      rw [removeTagList_id_aux t cs ih h.2]

theorem removeTagAll_id_desc (t : String) (n : Node) :
    noTagDesc t n = true → removeTagAll t n = n := by
  cases n with
  | text s => intro _; rfl
  | elem tg a cs =>
      intro h
      simp only [noTagDesc] at h
      simp only [removeTagAll]
      rw [removeTagList_id_aux t cs (fun c _ => removeTagAll_id t c) h]

theorem stripAttrsList_id_aux (p : String → Bool) :
    ∀ cs : List Node, (∀ c ∈ cs, noAttrSub p c = true → stripAttrsFromAll p c = c) →
      noAttrSubList p cs = true → stripAttrsList p cs = cs := by
  intro cs
  induction cs with
  | nil => intro _ _; rfl
  | cons c cs ih =>
      intro hpt h
      simp only [noAttrSubList, Bool.and_eq_true] at h
      simp only [stripAttrsList]
      rw [hpt c (List.mem_cons_self c cs) h.1,
        ih (fun c' hc' => hpt c' (List.mem_cons_of_mem c hc')) h.2]

theorem stripAttrsFromAll_id (p : String → Bool) :
    ∀ n, noAttrSub p n = true → stripAttrsFromAll p n = n := by
  intro n
  induction n using Node.inductionOn with
  | ht s => intro _; rfl
  | he tg a cs ih =>
      intro h
      simp only [noAttrSub, Bool.and_eq_true] at h
      simp only [stripAttrsFromAll]
      rw [List.filter_eq_self.mpr (List.all_eq_true.mp h.1),
        stripAttrsList_id_aux p cs ih h.2]

theorem stripAttrsDesc_id (p : String → Bool) (n : Node) :
    noAttrDesc p n = true → stripAttrsDesc p n = n := by
  cases n with
  | text s => intro _; rfl
  | elem tg a cs =>
      intro h
      simp only [noAttrDesc] at h
      simp only [stripAttrsDesc]
      rw [stripAttrsList_id_aux p cs (fun c _ => stripAttrsFromAll_id p c) h]

theorem replaceLinkList_id_aux :
    ∀ cs : List Node, (∀ c ∈ cs, noTagSub "a" c = true → replaceLinkNode c = [c]) →
      noTagSubList "a" cs = true → replaceLinkList cs = cs := by
  intro cs
  induction cs with
  | nil => intro _ _; rfl
  | cons c cs ih =>
      intro hpt h
      simp only [noTagSubList, Bool.and_eq_true] at h
      simp only [replaceLinkList]
      rw [hpt c (List.mem_cons_self c cs) h.1,
        ih (fun c' hc' => hpt c' (List.mem_cons_of_mem c hc')) h.2]
      rfl

theorem replaceLinkNode_id :
    ∀ n, noTagSub "a" n = true → replaceLinkNode n = [n] := by
  intro n
  induction n using Node.inductionOn with
  | ht s => intro _; rfl
  | he tg a cs ih =>
      intro h
      simp only [noTagSub, Bool.and_eq_true] at h
      have htg : ¬ tg = "a" := by simpa using h.1
      simp only [replaceLinkNode, if_neg htg]
      rw [replaceLinkList_id_aux cs ih h.2]

theorem replaceLinksDesc_id (n : Node) :
    noTagDesc "a" n = true → replaceLinksDesc n = n := by
  cases n with
  | text s => intro _; rfl
  | elem tg a cs =>
      intro h
      simp only [noTagDesc] at h
      simp only [replaceLinksDesc]
      rw [replaceLinkList_id_aux cs (fun c _ => replaceLinkNode_id c) h]

theorem cleanTree_id (n : Node) (h : CleanedTop n) : cleanTree n = n := by
  obtain ⟨h1, h2, h3, h4, h5, h6, h7, h8, h9, h10, h11⟩ := h
  unfold cleanTree
  rw [removeTagAll_id_desc _ _ h1, removeTagAll_id_desc _ _ h2,
    stripAttrsDesc_id _ _ h9, stripAttrsDesc_id _ _ h10,
    replaceLinksDesc_id _ h3, removeTagAll_id_desc _ _ h4,
    removeTagAll_id_desc _ _ h5, removeTagAll_id_desc _ _ h6,
    removeTagAll_id_desc _ _ h7, removeTagAll_id_desc _ _ h8,
    stripAttrsDesc_id _ _ h11]

theorem cleanTree_idem (n : Node) : cleanTree (cleanTree n) = cleanTree n :=
  cleanTree_id (cleanTree n) (noTagDesc_stripAttrsDesc_removeTag_chain n)

/-! ### Sequential task queue

Embedding of the `Queue` class (src/unnamed/part_002, the queue module,
lines 211-271).  Tasks are identified by their submission index.  `pending`
is `this.queue` (the array of not-yet-started tasks), `processing` is the
`processing` flag, and `running` is the multiset of tasks whose `task()`
call has been entered and not yet returned — kept as a list so that mutual
exclusion is a provable invariant rather than a modelling assumption.
`enqueued`, `started` and `settled` are ghost histories of the respective
events, in the order they happened. -/

structure QState where
  pending : List Nat
  running : List Nat
  processing : Bool
  enqueued : List Nat
  started : List Nat
  settled : List Nat
deriving Repr, DecidableEq

/-- The state of a fresh `new Queue()`. -/
def qInit : QState := ⟨[], [], false, [], [], []⟩

/-- One atomic step of the queue.  `enqueue` models `enqueue` pushing
`(task, resolve, reject)`; `start` models the non-early-return path of
`processNext` (guarded by `if (this.processing || this.queue.length === 0)
return`): it shifts the head, sets `processing` and enters the task;
`finish` models the task returning, its promise being settled
(`resolve`/`reject`) and the `finally` block clearing `processing`. -/
inductive QStep : QState → QState → Prop where
  | enqueue (s : QState) :
      QStep s { s with pending := s.pending ++ [s.enqueued.length],
                       enqueued := s.enqueued ++ [s.enqueued.length] }
  | start (s : QState) (t : Nat) (rest : List Nat)
      (hp : s.processing = false) (hq : s.pending = t :: rest) :
      QStep s { s with pending := rest, processing := true,
                       running := s.running ++ [t], started := s.started ++ [t] }
  | finish (s : QState) (t : Nat) (rest : List Nat)
      (hr : s.running = t :: rest) :
      QStep s { s with running := rest, processing := false,
                       settled := s.settled ++ [t] }

/-- States reachable from a fresh queue. -/
inductive QReach : QState → Prop where
  | init : QReach qInit
  | step {s s' : QState} : QReach s → QStep s s' → QReach s'

/-- The queue invariant: `processing` tracks whether a task is in flight,
at most one task is ever in flight, tasks start in submission order
(`started` followed by `pending` is exactly the submission history) and
settle in start order (`settled` followed by `running` is exactly the start
history). -/
def QInv (s : QState) : Prop :=
  (s.processing = true ↔ s.running ≠ []) ∧
  s.running.length ≤ 1 ∧
  s.started = s.settled ++ s.running ∧
  s.enqueued = s.started ++ s.pending

theorem qInv_init : QInv qInit := by
  refine ⟨by simp [qInit], by simp [qInit], by simp [qInit], by simp [qInit]⟩

theorem qInv_step {s s' : QState} (h : QInv s) (hs : QStep s s') : QInv s' := by
  obtain ⟨hflag, hlen, hst, henq⟩ := h
  cases hs with
  | enqueue =>
      refine ⟨hflag, hlen, hst, ?_⟩
      simp only [henq, List.append_assoc]
  | start t rest hp hq =>
      have hrun : s.running = [] := by
        by_contra hne
        exact absurd (hflag.mpr hne) (by simp [hp])
      refine ⟨by simp, by simp [hrun], ?_, ?_⟩
      · simp only [hst, hrun]
        simp
      · simp only [henq, hq, List.append_assoc]
        simp
  | finish t rest hr =>
      have hrest : rest = [] := by
        rw [hr] at hlen
        simp only [List.length_cons] at hlen
        have : rest.length = 0 := by omega
        exact List.eq_nil_of_length_eq_zero this
      subst hrest
      refine ⟨by simp, by simp, ?_, ?_⟩
      · simp only [List.append_nil]
        rw [hst, hr]
      · exact henq

theorem qInv_reach {s : QState} (h : QReach s) : QInv s := by
  induction h with
  | init => exact qInv_init
  | step _ hs ih => exact qInv_step ih hs

/-! ### Session lifecycle state machine

Embedding of the mutable fields of `NorthDataScraper` (src/src/scraper.ts):
`browser` (modelled as a flag: whether the handle is non-null) and
`isLoggedIn`, together with the three methods that mutate them:
`initialize`, `close` and `login`. -/

structure SState where
  browser : Bool
  isLoggedIn : Bool
deriving Repr, DecidableEq

/-- The state of a fresh `new NorthDataScraper()`: `browser = null`,
`isLoggedIn = false`. -/
def sInit : SState := ⟨false, false⟩

/-- `initialize()` (src/src/scraper.ts lines 159-183): early return if a
browser handle exists; otherwise launch.  `launchOk` abstracts whether
`puppeteer.launch` succeeds.  Result: new state and whether an error was
rethrown.  On launch failure the fields are untouched (the assignment to
`this.browser` never ran). -/
def initBrowser (s : SState) (launchOk : Bool) : SState × Bool :=
  if s.browser then (s, false)
  else if launchOk then (⟨true, s.isLoggedIn⟩, false) else (s, true)

/-- `close()` (src/src/scraper.ts lines 188-195): if a browser handle
exists, close it, null the field and clear `isLoggedIn` in the same body;
otherwise do nothing. -/
def closeBrowser (s : SState) : SState :=
  if s.browser then ⟨false, false⟩ else s

/-- Observable actions of the login procedure, in source order
(src/src/scraper.ts lines 200-248). -/
inductive LoginEv where
  | interceptSetup
  | nav (url : String)
  | typeUser
  | typePass
  | submitClick
  | waitNav
deriving Repr, DecidableEq

/-- The actions of a full run of the login procedure that reaches the
post-submit error check. -/
def loginSteps : List LoginEv :=
  [.interceptSetup, .nav "https://www.northdata.de/_login", .typeUser, .typePass,
   .submitClick, .waitNav]

/-- Outcome of a non-short-circuited login run: success, or a failure that
threw after executing `stepsDone` (any step of the procedure may throw, and
the post-submit `.error-message` check throws after all steps ran). -/
inductive LoginOutcome where
  | ok
  | fail (stepsDone : List LoginEv)

/-- `login(page)` (src/src/scraper.ts lines 200-248): early return when
`this.isLoggedIn` (no actions, no state change, no error); otherwise run
the procedure; on success set `isLoggedIn := true`; on any failure the
catch block sets `isLoggedIn := false` and rethrows.  Result: new state,
actions performed, and whether an error propagated. -/
def loginRun (s : SState) : LoginOutcome → SState × List LoginEv × Bool
  | o =>
    if s.isLoggedIn then (s, [], false)
    else match o with
      | .ok => (⟨s.browser, true⟩, loginSteps, false)
      | .fail evs => (⟨s.browser, false⟩, evs, true)

/-- States of the scraper reachable through its mutating methods.  `login`
is only ever invoked on a page freshly created from `this.browser` after
the `if (!this.browser) throw` guard of each operation, hence its
`s.browser = true` premise. -/
inductive SReach : SState → Prop where
  | init : SReach sInit
  | stepInit {s : SState} (launchOk : Bool) :
      SReach s → SReach (initBrowser s launchOk).1
  | stepClose {s : SState} : SReach s → SReach (closeBrowser s)
  | stepLogin {s : SState} (o : LoginOutcome) :
      SReach s → s.browser = true → SReach (loginRun s o).1

theorem sReach_invariant {s : SState} (h : SReach s) :
    s.isLoggedIn = true → s.browser = true := by
  induction h with
  | init => intro hl; cases hl
  | stepInit launchOk _ ih =>
      rename_i s _
      by_cases hb : s.browser
      · have heq : initBrowser s launchOk = (s, false) := by simp [initBrowser, hb]
        rw [heq]
        exact ih
      · by_cases hok : launchOk
        · have heq : initBrowser s launchOk = (⟨true, s.isLoggedIn⟩, false) := by
            simp [initBrowser, hb, hok]
          rw [heq]
          intro _
          rfl
        · have heq : initBrowser s launchOk = (s, true) := by simp [initBrowser, hb, hok]
          rw [heq]
          exact ih
  | stepClose _ ih =>
      rename_i s _
      by_cases hb : s.browser
      · have heq : closeBrowser s = ⟨false, false⟩ := by simp [closeBrowser, hb]
        rw [heq]
        intro hl
        exact absurd hl (by simp)
      · have heq : closeBrowser s = s := by simp [closeBrowser, hb]
        rw [heq]
        exact ih
  | stepLogin o _ hb ih =>
      rename_i s _
      by_cases hlg : s.isLoggedIn
      · have heq : loginRun s o = (s, [], false) := by simp [loginRun, hlg]
        rw [heq]
        intro _
        exact hb
      · cases o with
        | ok =>
            have heq : loginRun s .ok = (⟨s.browser, true⟩, loginSteps, false) := by
              simp [loginRun, hlg]
            rw [heq]
            intro _
            exact hb
        | fail evs =>
            have heq : loginRun s (.fail evs) = (⟨s.browser, false⟩, evs, true) := by
              simp [loginRun, hlg]
            rw [heq]
            intro hl
            exact absurd hl (by simp)

/-! ### Operation-level retry

All four scrape operations (`getPageContent` lines 253-421, `getSuggestions`
lines 426-486, `search` lines 491-575, `getNetworkSvg` lines 580-718 of
src/src/scraper.ts) share the same skeleton: open a page, do the attempt's
work, close the page and return; in the catch block close the page, then —
if `retryCount < config.browser.maxRetries` — tear the browser down
(`this.close()`), relaunch it (`this.initialize()`) and recurse with
`retryCount + 1`, else rethrow the caught error. -/

inductive OpEv where
  | pageOpen
  | attemptRun (k : Nat)
  | pageClose
  | browserReset
  | browserRelaunch
  | retOk
  | raise
deriving Repr, DecidableEq

/-- One scrape operation with its retry loop.  `att k` abstracts the work
of attempt number `k` (everything between `newPage()` and the extraction
result); `maxR` is `config.browser.maxRetries`.  Returns the event trace
and the final outcome. -/
def opRun (maxR : Nat) (att : Nat → Except E A) (k : Nat) : List OpEv × Except E A :=
  match att k with
  | .ok a => ([.pageOpen, .attemptRun k, .pageClose, .retOk], .ok a)
  | .error e =>
      if k < maxR then
        let r := opRun maxR att (k + 1)
        ([.pageOpen, .attemptRun k, .pageClose, .browserReset, .browserRelaunch] ++ r.1, r.2)
      else
        ([.pageOpen, .attemptRun k, .pageClose, .raise], .error e)
termination_by maxR - k

/-- Number of attempts recorded in a trace. -/
def countAttempts (tr : List OpEv) : Nat :=
  tr.countP (fun ev => match ev with | .attemptRun _ => true | _ => false)

theorem opRun_all_fail {E A : Type} (maxR : Nat) (att : Nat → Except E A)
    (es : Nat → E) (hall : ∀ j, att j = .error (es j)) :
    ∀ n k, maxR - k = n → k ≤ maxR → (opRun maxR att k).2 = .error (es maxR) := by
  intro n
  induction n with
  | zero =>
      intro k hnk hk
      have hkm : k = maxR := by omega
      subst hkm
      rw [opRun, hall k]
      simp
  | succ n ih =>
      intro k hnk hk
      have hlt : k < maxR := by omega
      rw [opRun, hall k]
      simp only [hlt, if_true]
      exact ih (k + 1) (by omega) (by omega)

theorem countAttempts_nil : countAttempts [] = 0 := rfl

theorem countAttempts_cons (e : OpEv) (tr : List OpEv) :
    countAttempts (e :: tr) =
      countAttempts tr + (match e with | .attemptRun _ => 1 | _ => 0) := by
  cases e <;> simp [countAttempts, List.countP_cons]

theorem countAttempts_append (tr tr' : List OpEv) :
    countAttempts (tr ++ tr') = countAttempts tr + countAttempts tr' := by
  simp [countAttempts, List.countP_append]

theorem opRun_attempt_bound {E A : Type} (maxR : Nat) (att : Nat → Except E A) :
    ∀ n k, maxR - k = n → k ≤ maxR →
      countAttempts (opRun maxR att k).1 ≤ maxR + 1 - k := by
  intro n
  induction n with
  | zero =>
      intro k hnk hk
      rw [opRun]
      cases hatt : att k with
      | ok a =>
          simp only [countAttempts_cons, countAttempts_nil]
          omega
      | error e =>
          have hnl : ¬ k < maxR := by omega
          simp only [hnl, if_false, countAttempts_cons, countAttempts_nil]
          omega
  | succ n ih =>
      intro k hnk hk
      have hlt : k < maxR := by omega
      rw [opRun]
      cases hatt : att k with
      | ok a =>
          simp only [countAttempts_cons, countAttempts_nil]
          omega
      | error e =>
          simp only [hlt, if_true, countAttempts_append, countAttempts_cons,
            countAttempts_nil]
          have hih := ih (k + 1) (by omega) (by omega)
          omega

/-- `openBalanced b tr = true` says: starting with `b` pages open, the trace
`tr` only ever opens a page when none is open, only closes when one is
open, only returns, raises or tears the browser down when no page is open,
and ends with no page open. -/
def openBalanced : Nat → List OpEv → Bool
  | b, [] => b == 0
  | b, .pageOpen :: rest => (b == 0) && openBalanced (b + 1) rest
  | b, .pageClose :: rest => (b == 1) && openBalanced (b - 1) rest
  | b, .retOk :: rest => (b == 0) && openBalanced b rest
  | b, .raise :: rest => (b == 0) && openBalanced b rest
  | b, .browserReset :: rest => (b == 0) && openBalanced b rest
  | b, .browserRelaunch :: rest => openBalanced b rest
  | b, .attemptRun _ :: rest => openBalanced b rest

theorem opRun_openBalanced {E A : Type} (maxR : Nat) (att : Nat → Except E A) :
    ∀ n k, maxR - k = n → openBalanced 0 (opRun maxR att k).1 = true := by
  intro n
  induction n with
  | zero =>
      intro k hnk
      rw [opRun]
      cases hatt : att k with
      | ok a => simp [openBalanced]
      | error e =>
          have : ¬ k < maxR := by omega
          simp [this, openBalanced]
  | succ n ih =>
      intro k hnk
      have hlt : k < maxR := by omega
      rw [opRun]
      cases hatt : att k with
      | ok a => simp [openBalanced]
      | error e =>
          simp only [hlt, if_true, List.cons_append, List.nil_append]
          simp only [openBalanced, Nat.add_sub_cancel]
          simpa using ih (k + 1) (by omega)

/-! ### Human-paced typing

Embedding of `typeHumanLike` (src/src/scraper.ts lines 60-118).  The random
draw `Math.random()` is modelled as a rational `r` with `0 ≤ r < 1`. -/

/-- The per-keystroke delay computed at lines 80-83:
`Math.floor((Math.random() * (max - min + 1) + min) / 8)`.  Note the
division by 8 is part of the single shared delay computation, before the
code branches on the selector kind. -/
def keystrokeDelay (tmin tmax : ℤ) (r : ℚ) : ℤ :=
  Int.floor ((r * ((tmax : ℚ) - (tmin : ℚ) + 1) + (tmin : ℚ)) / 8)

/-- Observable actions of `typeHumanLike`. -/
inductive TypeEv where
  | clickTarget
  | injectChar (c : Char) (wait : ℤ)
  | typeChar (c : Char) (delay : ℤ)
  | settle (ms : ℤ)
deriving Repr, DecidableEq

/-- Whether the selector is treated as an XPath: `selector.startsWith('/')`
(line 62), i.e. whether its first character is a slash. -/
def isXPathSel (sel : String) : Bool :=
  match sel.data with
  | c :: _ => c == '/'
  | [] => false

/-- `typeHumanLike(page, selector, text)` with one random draw per
character: click the target, then per character either inject the character
and sleep the computed delay (XPath branch) or call
`page.type(selector, char, { delay })` (CSS branch) — both branches use the
same `keystrokeDelay` value — and finally sleep a fixed 50 ms (line 117). -/
def typeHumanLike (sel : String) (txt : List Char) (rs : List ℚ)
    (tmin tmax : ℤ) : List TypeEv :=
  [TypeEv.clickTarget] ++
  (List.zip txt rs).map (fun p =>
    if isXPathSel sel then TypeEv.injectChar p.1 (keystrokeDelay tmin tmax p.2)
    else TypeEv.typeChar p.1 (keystrokeDelay tmin tmax p.2)) ++
  [TypeEv.settle 50]

/-! ### Suggestions JSON extraction

Embedding of the in-page JSON step of `getSuggestions` (src/src/scraper.ts
lines 454-461): `JSON.parse(document.body.textContent || '\x7b\x7d')`
wrapped in try/catch with fallback to the empty object literal. -/

/-- A JSON value, as produced by the in-page `JSON.parse`. -/
inductive JsonVal where
  | null
  | bool (b : Bool)
  | num (q : ℚ)
  | str (s : String)
  | arr (xs : List JsonVal)
  | obj (members : List (String × JsonVal))

/-- The empty JSON object, the catch-branch fallback. -/
def emptyJsonObj : JsonVal := .obj []

/-- The value computed for `jsonContent`.  `parse` abstracts the browser's
`JSON.parse` (returning `none` when it would throw); `bodyText` is
`document.body.textContent` (`none` when the property is null).  The `||`
falls through to the two-character object literal exactly when the text is
null or the empty string. -/
def suggestionsBodyJson (parse : String → Option JsonVal)
    (bodyText : Option String) : JsonVal :=
  let txt := match bodyText with
    | none => "\x7b\x7d"
    | some s => if s = "" then "\x7b\x7d" else s
  match parse txt with
  | some j => j
  | none => emptyJsonObj

/-- The `SuggestionsResult` record built at lines 467-470. -/
structure SuggestionsResultM where
  json : JsonVal
  url : String

/-- The result value `getSuggestions` returns on its success path. -/
def getSuggestionsExtract (parse : String → Option JsonVal)
    (bodyText : Option String) (url : String) : SuggestionsResultM :=
  ⟨suggestionsBodyJson parse bodyText, url⟩

/-! ### Whitespace collapse (string phase of the sanitization transform)

Embedding of the regex chain applied to the serialized markup
(src/src/scraper.ts lines 385-391), one scanner per `replace` call, in
source order.  Strings are processed as character lists; `collapseWs`
composes the six passes. -/

/-- The regex class `\s` restricted to its ASCII members (space, tab,
newline, carriage return, vertical tab, form feed); the transform's inputs
and the idempotence argument do not depend on the Unicode members. -/
def isWsB (c : Char) : Bool :=
  c == ' ' || c == '\t' || c == '\n' || c == '\r' || c == '\x0b' || c == '\x0c'

theorem dropWhileLen {α : Type} (p : α → Bool) (l : List α) :
    (l.dropWhile p).length ≤ l.length := by
  induction l with
  | nil => simp [List.dropWhile]
  | cons c cs ih =>
      by_cases h : p c
      · simp only [List.dropWhile_cons, h, if_true, List.length_cons]
        omega
      · simp [List.dropWhile_cons, h]

/-- `.replace(/\s+/g, ' ')`: every maximal whitespace run becomes one
space. -/
def wsRunsToSpace : List Char → List Char
  | [] => []
  | c :: cs =>
      if isWsB c then ' ' :: wsRunsToSpace (cs.dropWhile isWsB)
      else c :: wsRunsToSpace cs
termination_by l => l.length
decreasing_by
  all_goals simp_wf
  all_goals try omega
  all_goals (have hdwl := dropWhileLen isWsB cs; omega)

/-- `.replace(/>\s+</g, '><')`: a whitespace run between `>` and `<` is
dropped; scanning resumes after the `<`. -/
def tagGapClose : List Char → List Char
  | [] => []
  | c :: cs =>
      match hdc : cs.dropWhile isWsB with
      | d :: r2 =>
          if c = '>' ∧ cs.takeWhile isWsB ≠ [] ∧ d = '<' then '>' :: '<' :: tagGapClose r2
          else c :: tagGapClose cs
      | [] => c :: tagGapClose cs
termination_by l => l.length
decreasing_by
  all_goals simp_wf
  all_goals try omega
  all_goals
    (have h1 := dropWhileLen isWsB cs
     rw [hdc] at h1
     simp at h1
     omega)

/-- `.replace(/^\s+/gm, '')`: remove the maximal whitespace run at the
start of the string and after each newline (the run may itself span
newlines, as `\s` matches them). -/
def lineLeadStrip : Bool → List Char → List Char
  | _, [] => []
  | atStart, c :: cs =>
      if atStart ∧ isWsB c then lineLeadStrip false (cs.dropWhile isWsB)
      else c :: lineLeadStrip (c == '\n') cs
termination_by _ l => l.length
decreasing_by
  all_goals simp_wf
  all_goals try omega
  all_goals (have hdwl := dropWhileLen isWsB cs; omega)

/-- The part of a whitespace run that `/\s+$/gm` keeps: the longest match
prefix ends before the run's last newline (a `$` position), so everything
from that newline on survives; a run without a newline (and not at the end
of the string) is kept whole. -/
def keepFromLastNl (run : List Char) : List Char :=
  if run.contains '\n' then
    '\n' :: (run.reverse.takeWhile (fun c => !(c == '\n'))).reverse
  else run

/-- `.replace(/\s+$/gm, '')`: a whitespace run ending the string is
removed; within any other whitespace run, the part before its last newline
is removed. -/
def lineTrailStrip : List Char → List Char
  | [] => []
  | c :: cs =>
      if isWsB c then
        match hdc : (c :: cs).dropWhile isWsB with
        | [] => []
        | r :: rest' =>
            keepFromLastNl ((c :: cs).takeWhile isWsB) ++ lineTrailStrip (r :: rest')
      else c :: lineTrailStrip cs
termination_by l => l.length
decreasing_by
  all_goals simp_wf
  all_goals try omega
  all_goals
    (rename_i hws
     have h1 := dropWhileLen isWsB cs
     rw [List.dropWhile_cons, if_pos hws] at hdc
     rw [hdc] at h1
     simp at h1
     omega)

/-- `.replace(/\n+/g, '\n')`: collapse newline runs. -/
def nlRunsCollapse : List Char → List Char
  | [] => []
  | c :: cs =>
      if c = '\n' then '\n' :: nlRunsCollapse (cs.dropWhile (fun d => d == '\n'))
      else c :: nlRunsCollapse cs
termination_by l => l.length
decreasing_by
  all_goals simp_wf
  all_goals try omega
  all_goals (have hdwl := dropWhileLen (fun d => d == '\n') cs; omega)

/-- Match a literal character sequence at the head of a list, returning the
remainder. -/
def matchLit : List Char → List Char → Option (List Char)
  | [], l => some l
  | _ :: _, [] => none
  | p :: ps, c :: cs => if p = c then matchLit ps cs else none

/-- The block-level tag names of the final regex, in alternation order:
`div|p|section|table|tr|td|th|ul|ol|li` (`h[1-6]` is handled separately). -/
def blockNames : List (List Char) :=
  [['d','i','v'], ['p'], ['s','e','c','t','i','o','n'], ['t','a','b','l','e'],
   ['t','r'], ['t','d'], ['t','h'], ['u','l'], ['o','l'], ['l','i']]

/-- First name of the list that matches at the head, regex-alternation
style. -/
def matchFirst : List (List Char) → List Char → Option (List Char × List Char)
  | [], _ => none
  | nm :: nms, l =>
      match matchLit nm l with
      | some r => some (nm, r)
      | none => matchFirst nms l

/-- Whether a character may begin the `h[1-6]` alternative's digit part. -/
def isHDigit (d : Char) : Prop :=
  d = '1' ∨ d = '2' ∨ d = '3' ∨ d = '4' ∨ d = '5' ∨ d = '6'

instance (d : Char) : Decidable (isHDigit d) := by
  unfold isHDigit
  infer_instance

/-- The name part `(?:div|p|section|table|tr|td|th|ul|ol|li|h[1-6])` of the
final regex. -/
def matchName (l : List Char) : Option (List Char × List Char) :=
  match matchFirst blockNames l with
  | some x => some x
  | none =>
      match l with
      | a :: d :: rest =>
          if a = 'h' ∧ isHDigit d then some ([a, d], rest) else none
      | _ => none

/-- Split at the first `>` (the `[^>]*>` part of the final regex): returns
the segment before it, which contains no `>`, and the remainder after
it. -/
def splitAtGt : List Char → Option (List Char × List Char)
  | [] => none
  | c :: cs =>
      if c = '>' then some ([], cs)
      else
        match splitAtGt cs with
        | some (mid, r) => some (c :: mid, r)
        | none => none

/-- The optional `\/?` after the `<` of the final regex: the consumed slash
(if any) and the remainder. -/
def slashSplit (r : List Char) : List Char × List Char :=
  match r with
  | c1 :: r1 => if c1 = '/' then (['/'], r1) else ([], r)
  | [] => ([], r)

/-- The group `(<\/?(?:div|p|...|h[1-6])[^>]*>)` of the final regex: when
the list starts with such a tag token, return the token and the remainder
after its `>`. -/
def matchBlockTag : List Char → Option (List Char × List Char)
  | [] => none
  | c :: r =>
      if c = '<' then
        match matchName (slashSplit r).2 with
        | none => none
        | some (nm, r2) =>
            match splitAtGt r2 with
            | none => none
            | some (mid, r3) => some ('<' :: ((slashSplit r).1 ++ nm ++ mid ++ ['>']), r3)
      else none

theorem matchLit_eq {p l r : List Char} (h : matchLit p l = some r) : l = p ++ r := by
  induction p generalizing l with
  | nil =>
      simp only [matchLit, Option.some.injEq] at h
      simp [h]
  | cons a ps ih =>
      cases l with
      | nil => simp [matchLit] at h
      | cons c cs =>
          simp only [matchLit] at h
          by_cases hac : a = c
          · rw [if_pos hac] at h
            rw [List.cons_append, ← ih h, hac]
          · rw [if_neg hac] at h
            cases h

theorem matchFirst_eq {nms : List (List Char)} {l nm r : List Char}
    (h : matchFirst nms l = some (nm, r)) : l = nm ++ r ∧ nm ∈ nms := by
  induction nms with
  | nil => simp [matchFirst] at h
  | cons n ns ih =>
      simp only [matchFirst] at h
      cases hm : matchLit n l with
      | some r' =>
          rw [hm] at h
          simp only [Option.some.injEq, Prod.mk.injEq] at h
          obtain ⟨rfl, rfl⟩ := h
          exact ⟨matchLit_eq hm, List.mem_cons_self n ns⟩
      | none =>
          rw [hm] at h
          obtain ⟨h1, h2⟩ := ih h
          exact ⟨h1, List.mem_cons_of_mem n h2⟩

theorem matchName_eq {l nm r : List Char} (h : matchName l = some (nm, r)) :
    l = nm ++ r ∧ nm ≠ [] := by
  simp only [matchName] at h
  cases hf : matchFirst blockNames l with
  | some x =>
      rw [hf] at h
      obtain rfl : x = (nm, r) := by simpa using h
      obtain ⟨h1, h2⟩ := matchFirst_eq hf
      refine ⟨h1, ?_⟩
      intro hnil
      rw [hnil] at h2
      simp [blockNames] at h2
  | none =>
      rw [hf] at h
      cases l with
      | nil => simp at h
      | cons a l1 =>
          cases l1 with
          | nil => simp at h
          | cons d rest =>
              simp only at h
              by_cases hcond : a = 'h' ∧ isHDigit d
              · rw [if_pos hcond] at h
                simp only [Option.some.injEq, Prod.mk.injEq] at h
                obtain ⟨rfl, rfl⟩ := h
                exact ⟨rfl, by simp⟩
              · rw [if_neg hcond] at h
                cases h

theorem splitAtGt_eq : ∀ {l mid r : List Char}, splitAtGt l = some (mid, r) →
    l = mid ++ '>' :: r ∧ '>' ∉ mid := by
  intro l
  induction l with
  | nil => intro mid r h; simp [splitAtGt] at h
  | cons c cs ih =>
      intro mid r h
      simp only [splitAtGt] at h
      by_cases hc : c = '>'
      · rw [if_pos hc] at h
        simp only [Option.some.injEq, Prod.mk.injEq] at h
        obtain ⟨h1, h2⟩ := h
        subst hc
        rw [← h1, ← h2]
        simp
      · rw [if_neg hc] at h
        cases hs : splitAtGt cs with
        | some p =>
            obtain ⟨mid1, r1⟩ := p
            rw [hs] at h
            simp only [Option.some.injEq, Prod.mk.injEq] at h
            obtain ⟨h1, h2⟩ := h
            obtain ⟨ih1, ih2⟩ := ih hs
            rw [← h1, ← h2, ih1]
            refine ⟨by simp, ?_⟩
            simp only [List.mem_cons]
            rintro (hgt | hgt)
            · exact hc hgt.symm
            · exact ih2 hgt
        | none => rw [hs] at h; cases h

theorem slashSplit_eq (r : List Char) : r = (slashSplit r).1 ++ (slashSplit r).2 := by
  cases r with
  | nil => rfl
  | cons c1 r1 =>
      by_cases h : c1 = '/'
      · simp [slashSplit, h]
      · simp [slashSplit, h]

theorem matchBlockTag_eq {l tk r2 : List Char} (h : matchBlockTag l = some (tk, r2)) :
    l = tk ++ r2 ∧ tk ≠ [] := by
  cases l with
  | nil => simp [matchBlockTag] at h
  | cons c r =>
      simp only [matchBlockTag] at h
      by_cases hc : c = '<'
      · rw [if_pos hc] at h
        cases hn : matchName (slashSplit r).2 with
        | none => rw [hn] at h; cases h
        | some p =>
            obtain ⟨nm, rn⟩ := p
            rw [hn] at h
            dsimp only at h
            cases hs : splitAtGt rn with
            | none => rw [hs] at h; cases h
            | some q =>
                obtain ⟨mid, r3⟩ := q
                rw [hs] at h
                dsimp only at h
                simp only [Option.some.injEq, Prod.mk.injEq] at h
                obtain ⟨htk, hr2⟩ := h
                obtain ⟨hn1, _⟩ := matchName_eq hn
                obtain ⟨hs1, _⟩ := splitAtGt_eq hs
                subst hc
                refine ⟨?_, by rw [← htk]; simp⟩
                rw [← htk, ← hr2]
                have hr : r = (slashSplit r).1 ++ (nm ++ (mid ++ '>' :: r3)) := by
                  conv_lhs => rw [slashSplit_eq r]
                  rw [hn1, hs1]
                conv_lhs => rw [hr]
                simp
      · rw [if_neg hc] at h; cases h

theorem matchBlockTag_length {l tk r2 : List Char}
    (h : matchBlockTag l = some (tk, r2)) : r2.length < l.length := by
  obtain ⟨heq, hne⟩ := matchBlockTag_eq h
  rw [heq, List.length_append]
  cases tk with
  | nil => exact absurd rfl hne
  | cons a tl => simp

/-- The final pass
`.replace(/\s*(<\/?(?:div|p|section|table|tr|td|th|ul|ol|li|h[1-6])[^>]*>)\s*/g, '$1')`:
at each position, a whitespace run (possibly empty) followed by a block tag
token is replaced by the bare token, consuming the whitespace after it;
otherwise the scanner advances one character. -/
def blockTagTighten : List Char → List Char
  | [] => []
  | c :: cs =>
      match h : matchBlockTag ((c :: cs).dropWhile isWsB) with
      | some (tk, r2) => tk ++ blockTagTighten (r2.dropWhile isWsB)
      | none => c :: blockTagTighten cs
termination_by l => l.length
decreasing_by
  all_goals simp_wf
  all_goals try omega
  all_goals
    (have h1 := matchBlockTag_length h
     have h2 := dropWhileLen isWsB (c :: cs)
     have h3 := dropWhileLen isWsB r2
     have h4 : (c :: cs).length = cs.length + 1 := rfl
     omega)

/-- The whole whitespace-collapse chain of src/src/scraper.ts lines
385-391, in source order. -/
def collapseWs (l : List Char) : List Char :=
  blockTagTighten (nlRunsCollapse (lineTrailStrip (lineLeadStrip true
    (tagGapClose (wsRunsToSpace l)))))

/-- The string phase as the source applies it, `String` to `String`. -/
def collapseWsStr (s : String) : String := ⟨collapseWs s.data⟩

/-! ### Idempotence of the final block-tag pass -/

theorem mem_of_mem_dropWhile {α : Type} {p : α → Bool} {l : List α} {x : α}
    (h : x ∈ l.dropWhile p) : x ∈ l := by
  induction l with
  | nil => simpa [List.dropWhile] using h
  | cons c cs ih =>
      by_cases hc : p c
      · rw [List.dropWhile_cons, if_pos hc] at h
        exact List.mem_cons_of_mem c (ih h)
      · rw [List.dropWhile_cons, if_neg hc] at h
        exact h

theorem splitAtGt_none_iff {l : List Char} : splitAtGt l = none ↔ '>' ∉ l := by
  induction l with
  | nil => simp [splitAtGt]
  | cons c cs ih =>
      by_cases hc : c = '>'
      · subst hc
        simp [splitAtGt]
      · simp only [splitAtGt, if_neg hc]
        cases hs : splitAtGt cs with
        | some p =>
            obtain ⟨m, r⟩ := p
            dsimp only
            have hin : '>' ∈ cs := by
              by_contra hno
              rw [← ih] at hno
              rw [hs] at hno
              cases hno
            simp [hin]
        | none =>
            dsimp only
            have hn : '>' ∉ cs := by rw [← ih, hs]
            simp only [List.mem_cons, eq_self_iff_true, true_iff]
            rintro (hgt | hgt)
            · exact hc hgt.symm
            · exact hn hgt

theorem matchLit_self (p X : List Char) : matchLit p (p ++ X) = some X := by
  induction p with
  | nil => rfl
  | cons a ps ih => simp [matchLit, ih]

/-- A name the regex alternation can produce. -/
def ValidName (nm : List Char) : Prop :=
  nm ∈ blockNames ∨ ∃ d, isHDigit d ∧ nm = ['h', d]

theorem matchFirst_none_iff {nms : List (List Char)} {l : List Char} :
    matchFirst nms l = none ↔ ∀ nm ∈ nms, matchLit nm l = none := by
  induction nms with
  | nil => simp [matchFirst]
  | cons n ns ih =>
      simp only [matchFirst]
      cases hm : matchLit n l with
      | some r => simp [hm]
      | none => simp [hm, ih]

theorem matchFirst_replay {nm : List Char} (h : nm ∈ blockNames) (X : List Char) :
    matchFirst blockNames (nm ++ X) = some (nm, X) := by
  fin_cases h <;> simp [matchFirst, blockNames, matchLit]

theorem matchName_replay {nm : List Char} (h : ValidName nm) (X : List Char) :
    matchName (nm ++ X) = some (nm, X) := by
  cases h with
  | inl hb => simp [matchName, matchFirst_replay hb]
  | inr hh =>
      obtain ⟨d, hd, rfl⟩ := hh
      have hf : matchFirst blockNames ('h' :: d :: X) = none := by
        rw [matchFirst_none_iff]
        intro nm hnm
        fin_cases hnm <;> simp [matchLit]
      simp [matchName, hf, hd]

theorem validName_no_gt {nm : List Char} (h : ValidName nm) : '>' ∉ nm := by
  cases h with
  | inl hb => fin_cases hb <;> simp
  | inr hh =>
      obtain ⟨d, hd, rfl⟩ := hh
      rcases hd with rfl | rfl | rfl | rfl | rfl | rfl <;> simp

theorem validName_head_ne_slash {nm : List Char} (h : ValidName nm) :
    ∀ t, nm ≠ '/' :: t := by
  intro t
  cases h with
  | inl hb => fin_cases hb <;> simp
  | inr hh =>
      obtain ⟨d, _, rfl⟩ := hh
      simp

/-- The shape of every token the final regex's group can capture. -/
def TagToken (tk : List Char) : Prop :=
  ∃ slash nm mid, (slash = [] ∨ slash = ['/']) ∧ ValidName nm ∧ '>' ∉ mid ∧
    tk = '<' :: (slash ++ nm ++ mid ++ ['>'])

theorem matchName_valid {l nm r : List Char} (h : matchName l = some (nm, r)) :
    ValidName nm := by
  simp only [matchName] at h
  cases hf : matchFirst blockNames l with
  | some x =>
      rw [hf] at h
      obtain rfl : x = (nm, r) := by simpa using h
      exact Or.inl (matchFirst_eq hf).2
  | none =>
      rw [hf] at h
      cases l with
      | nil => simp at h
      | cons a l1 =>
          cases l1 with
          | nil => simp at h
          | cons d rest =>
              simp only at h
              by_cases hcond : a = 'h' ∧ isHDigit d
              · rw [if_pos hcond] at h
                simp only [Option.some.injEq, Prod.mk.injEq] at h
                obtain ⟨rfl, rfl⟩ := h
                exact Or.inr ⟨d, hcond.2, by rw [hcond.1]⟩
              · rw [if_neg hcond] at h
                cases h

theorem matchBlockTag_token {l tk r2 : List Char}
    (h : matchBlockTag l = some (tk, r2)) : TagToken tk := by
  cases l with
  | nil => simp [matchBlockTag] at h
  | cons c r =>
      simp only [matchBlockTag] at h
      by_cases hc : c = '<'
      · rw [if_pos hc] at h
        cases hn : matchName (slashSplit r).2 with
        | none => rw [hn] at h; cases h
        | some p =>
            obtain ⟨nm, rn⟩ := p
            rw [hn] at h
            dsimp only at h
            cases hs : splitAtGt rn with
            | none => rw [hs] at h; cases h
            | some q =>
                obtain ⟨mid, r3⟩ := q
                rw [hs] at h
                dsimp only at h
                simp only [Option.some.injEq, Prod.mk.injEq] at h
                obtain ⟨htk, _⟩ := h
                refine ⟨(slashSplit r).1, nm, mid, ?_, matchName_valid hn,
                  (splitAtGt_eq hs).2, htk.symm⟩
                cases r with
                | nil => exact Or.inl rfl
                | cons c1 r1 =>
                    by_cases h1 : c1 = '/'
                    · right; simp [slashSplit, h1]
                    · left; simp [slashSplit, h1]
      · rw [if_neg hc] at h; cases h

theorem splitAtGt_replay {mid : List Char} (h : '>' ∉ mid) (w : List Char) :
    splitAtGt (mid ++ '>' :: w) = some (mid, w) := by
  induction mid with
  | nil => simp [splitAtGt]
  | cons c cs ih =>
      simp only [List.mem_cons] at h
      push_neg at h
      have hni : splitAtGt (cs ++ '>' :: w) = some (cs, w) := ih h.2
      simp only [List.cons_append, splitAtGt, List.append_eq]
      rw [if_neg (fun hc => h.1 hc.symm), hni]

theorem matchBlockTag_replay {tk : List Char} (h : TagToken tk) (w : List Char) :
    matchBlockTag (tk ++ w) = some (tk, w) := by
  obtain ⟨slash, nm, mid, hslash, hnm, hmid, rfl⟩ := h
  have hname : ∀ X, matchName (nm ++ X) = some (nm, X) := matchName_replay hnm
  have hsplit : splitAtGt (mid ++ '>' :: w) = some (mid, w) := splitAtGt_replay hmid w
  cases hslash with
  | inl hs0 =>
      subst hs0
      have hshape : '<' :: ([] ++ nm ++ mid ++ ['>']) ++ w =
          '<' :: (nm ++ (mid ++ '>' :: w)) := by simp
      rw [hshape]
      have hss : slashSplit (nm ++ (mid ++ '>' :: w)) = ([], nm ++ (mid ++ '>' :: w)) := by
        cases hnmc : nm with
        | nil => cases hnm with
            | inl hb => rw [hnmc] at hb; simp [blockNames] at hb
            | inr hh => obtain ⟨d, _, hdd⟩ := hh; rw [hdd] at hnmc; cases hnmc
        | cons a t =>
            have hns := validName_head_ne_slash hnm t
            rw [hnmc] at hns
            simp only [List.cons_append, slashSplit]
            rw [if_neg ?_]
            intro ha
            exact hns (by rw [ha])
      simp only [matchBlockTag, if_pos rfl, hss, hname, hsplit]
      simp
  | inr hs1 =>
      subst hs1
      have hshape : '<' :: (['/'] ++ nm ++ mid ++ ['>']) ++ w =
          '<' :: '/' :: (nm ++ (mid ++ '>' :: w)) := by simp
      rw [hshape]
      have hss : slashSplit ('/' :: (nm ++ (mid ++ '>' :: w))) =
          (['/'], nm ++ (mid ++ '>' :: w)) := by simp [slashSplit]
      simp only [matchBlockTag, if_pos rfl, hss, hname, hsplit]
      simp

theorem bt_nil : blockTagTighten [] = [] := by rw [blockTagTighten]

theorem bt_cons_some {c : Char} {cs tk r2 : List Char}
    (h : matchBlockTag ((c :: cs).dropWhile isWsB) = some (tk, r2)) :
    blockTagTighten (c :: cs) = tk ++ blockTagTighten (r2.dropWhile isWsB) := by
  rw [blockTagTighten]
  split
  · rename_i tk' r2' heq
    rw [heq] at h
    simp only [Option.some.injEq, Prod.mk.injEq] at h
    rw [h.1, h.2]
  · rename_i heq
    rw [heq] at h
    cases h

theorem bt_cons_none {c : Char} {cs : List Char}
    (h : matchBlockTag ((c :: cs).dropWhile isWsB) = none) :
    blockTagTighten (c :: cs) = c :: blockTagTighten cs := by
  rw [blockTagTighten]
  split
  · rename_i tk' r2' heq
    rw [heq] at h
    cases h
  · rfl

theorem dropWhile_cons_nonws {c : Char} {cs : List Char} (h : isWsB c = false) :
    (c :: cs).dropWhile isWsB = c :: cs := by
  rw [List.dropWhile_cons, h]
  simp

/-- The head of the list, when present, is not whitespace. -/
def HeadNonWs (l : List Char) : Prop :=
  ∀ c t, l = c :: t → isWsB c = false

theorem headNonWs_nil : HeadNonWs [] := by intro c t h; cases h

theorem headNonWs_dropWhile (l : List Char) : HeadNonWs (l.dropWhile isWsB) := by
  induction l with
  | nil => exact headNonWs_nil
  | cons c cs ih =>
      by_cases hc : isWsB c
      · rw [List.dropWhile_cons, if_pos hc]
        exact ih
      · rw [dropWhile_cons_nonws (by simpa using hc)]
        intro c' t h
        obtain ⟨rfl, -⟩ : c = c' ∧ cs = t := by
          constructor <;> [exact (List.cons.injEq .. ▸ h).1; exact (List.cons.injEq .. ▸ h).2]
        simpa using hc

theorem dropWhile_of_headNonWs {l : List Char} (h : HeadNonWs l) :
    l.dropWhile isWsB = l := by
  cases l with
  | nil => rfl
  | cons c cs => exact dropWhile_cons_nonws (h c cs rfl)

theorem tagToken_head {tk : List Char} (h : TagToken tk) : ∃ t, tk = '<' :: t := by
  obtain ⟨slash, nm, mid, _, _, _, rfl⟩ := h
  exact ⟨_, rfl⟩

theorem matchBlockTag_cons_ne {c : Char} {t : List Char} (h : ¬ c = '<') :
    matchBlockTag (c :: t) = none := by
  simp [matchBlockTag, h]

theorem slashSplit_fst (r : List Char) :
    (slashSplit r).1 = [] ∨ (slashSplit r).1 = ['/'] := by
  cases r with
  | nil => exact Or.inl rfl
  | cons c1 r1 =>
      by_cases h : c1 = '/'
      · right; simp [slashSplit, h]
      · left; simp [slashSplit, h]

theorem bt_head (c : Char) (cs : List Char) :
    (∃ t, blockTagTighten (c :: cs) = c :: t) ∨
    (∃ t, blockTagTighten (c :: cs) = '<' :: t) := by
  cases hmb : matchBlockTag ((c :: cs).dropWhile isWsB) with
  | some p =>
      obtain ⟨tk, r2⟩ := p
      obtain ⟨t, rfl⟩ := tagToken_head (matchBlockTag_token hmb)
      right
      exact ⟨t ++ blockTagTighten (r2.dropWhile isWsB), by rw [bt_cons_some hmb]; rfl⟩
  | none => exact Or.inl ⟨blockTagTighten cs, bt_cons_none hmb⟩

theorem bt_head_nonws {c : Char} {cs : List Char} (h : isWsB c = false) :
    ∃ t, blockTagTighten (c :: cs) = c :: t := by
  cases hmb : matchBlockTag ((c :: cs).dropWhile isWsB) with
  | some p =>
      obtain ⟨tk, r2⟩ := p
      obtain ⟨t, rfl⟩ := tagToken_head (matchBlockTag_token hmb)
      have hmb2 := hmb
      rw [dropWhile_cons_nonws h] at hmb2
      obtain ⟨heq, -⟩ := matchBlockTag_eq hmb2
      have hhd : c = '<' := by
        rw [List.cons_append] at heq
        exact (List.cons.injEq .. ▸ heq).1
      subst hhd
      refine ⟨t ++ blockTagTighten (r2.dropWhile isWsB), ?_⟩
      rw [bt_cons_some hmb]
      rfl
  | none => exact ⟨blockTagTighten cs, bt_cons_none hmb⟩

theorem headNonWs_bt {l : List Char} (h : HeadNonWs l) : HeadNonWs (blockTagTighten l) := by
  cases l with
  | nil => rw [bt_nil]; exact headNonWs_nil
  | cons c cs =>
      obtain ⟨t, heq⟩ := bt_head_nonws (h c cs rfl)
      rw [heq]
      intro c' t' h'
      obtain rfl : c = c' := (List.cons.injEq .. ▸ h').1
      exact h c cs rfl

theorem bt_sub : ∀ n l, l.length ≤ n → ∀ x ∈ blockTagTighten l, x ∈ l := by
  intro n
  induction n with
  | zero =>
      intro l hl x hx
      have hl0 : l = [] := List.length_eq_zero.mp (by omega)
      subst hl0
      rw [bt_nil] at hx
      exact hx
  | succ n ih =>
      intro l hl x hx
      cases l with
      | nil => rw [bt_nil] at hx; exact hx
      | cons c cs =>
          cases hmb : matchBlockTag ((c :: cs).dropWhile isWsB) with
          | some p =>
              obtain ⟨tk, r2⟩ := p
              rw [bt_cons_some hmb] at hx
              obtain ⟨hdw, -⟩ := matchBlockTag_eq hmb
              rcases List.mem_append.mp hx with hx | hx
              · exact mem_of_mem_dropWhile (hdw ▸ List.mem_append.mpr (Or.inl hx))
              · have hlen : (r2.dropWhile isWsB).length ≤ n := by
                  have h1 := dropWhileLen isWsB r2
                  have h2 : r2.length < ((c :: cs).dropWhile isWsB).length := by
                    rw [hdw, List.length_append]
                    obtain ⟨t, rfl⟩ := tagToken_head (matchBlockTag_token hmb)
                    simp
                  have h3 := dropWhileLen isWsB (c :: cs)
                  simp only [List.length_cons] at h3 hl
                  omega
                have hx2 := ih (r2.dropWhile isWsB) hlen x hx
                have hx3 : x ∈ r2 := mem_of_mem_dropWhile hx2
                exact mem_of_mem_dropWhile (hdw ▸ List.mem_append.mpr (Or.inr hx3))
          | none =>
              rw [bt_cons_none hmb] at hx
              rcases List.mem_cons.mp hx with rfl | hx
              · exact List.mem_cons_self x cs
              · have hlen : cs.length ≤ n := by
                  simp only [List.length_cons] at hl
                  omega
                exact List.mem_cons_of_mem c (ih cs hlen x hx)

theorem dropWhile_ws_append {W rest : List Char} (h : ∀ w ∈ W, isWsB w = true) :
    (W ++ rest).dropWhile isWsB = rest.dropWhile isWsB := by
  induction W with
  | nil => rfl
  | cons w W' ih =>
      rw [List.cons_append, List.dropWhile_cons, h w (List.mem_cons_self w W')]
      simp only [if_true]
      exact ih (fun x hx => h x (List.mem_cons_of_mem w hx))

theorem bt_ws_append {W rest : List Char} (hW : ∀ w ∈ W, isWsB w = true)
    (h : matchBlockTag (rest.dropWhile isWsB) = none) :
    blockTagTighten (W ++ rest) = W ++ blockTagTighten rest := by
  induction W with
  | nil => rfl
  | cons w W' ih =>
      have hW' : ∀ x ∈ W', isWsB x = true := fun x hx => hW x (List.mem_cons_of_mem w hx)
      have hdw : ((w :: (W' ++ rest)).dropWhile isWsB) = rest.dropWhile isWsB := by
        rw [List.dropWhile_cons, hW w (List.mem_cons_self w W')]
        simp only [if_true]
        exact dropWhile_ws_append hW'
      rw [List.cons_append, bt_cons_none (by rw [hdw]; exact h), ih hW']
      rfl

theorem matchLit_bt :
    ∀ f : List Char, (∀ a ∈ f, ¬ a = '<' ∧ isWsB a = false) →
      ∀ l, matchLit f l = none → matchLit f (blockTagTighten l) = none := by
  intro f
  induction f with
  | nil =>
      intro _ l h
      simp [matchLit] at h
  | cons a f' ih =>
      intro hgood l h
      obtain ⟨ha, -⟩ := hgood a (List.mem_cons_self a f')
      cases l with
      | nil => rw [bt_nil]; exact h
      | cons c cs =>
          cases hmb : matchBlockTag ((c :: cs).dropWhile isWsB) with
          | some p =>
              obtain ⟨tk, r2⟩ := p
              obtain ⟨t, rfl⟩ := tagToken_head (matchBlockTag_token hmb)
              rw [bt_cons_some hmb, List.cons_append]
              simp only [matchLit]
              rw [if_neg ha]
          | none =>
              rw [bt_cons_none hmb]
              simp only [matchLit] at h ⊢
              by_cases hac : a = c
              · rw [if_pos hac] at h ⊢
                exact ih (fun x hx => hgood x (List.mem_cons_of_mem a hx)) cs h
              · rw [if_neg hac]

theorem blockNames_goodChars :
    ∀ nm ∈ blockNames, ∀ a ∈ nm, ¬ a = '<' ∧ isWsB a = false := by
  intro nm hnm
  fin_cases hnm <;> (intro a ha; fin_cases ha <;> exact ⟨by decide, by decide⟩)

/-- Failure of the `h[1-6]` alternative on `l`. -/
def HPartNone (l : List Char) : Prop :=
  ∀ a d rest, l = a :: d :: rest → ¬ (a = 'h' ∧ isHDigit d)

theorem matchName_none_iff {l : List Char} :
    matchName l = none ↔ matchFirst blockNames l = none ∧ HPartNone l := by
  simp only [matchName]
  cases hf : matchFirst blockNames l with
  | some x => simp
  | none =>
      simp only [eq_self_iff_true, true_and]
      cases l with
      | nil =>
          dsimp only
          constructor
          · intro _ a d rest h; cases h
          · intro _; rfl
      | cons a l1 =>
          cases l1 with
          | nil =>
              dsimp only
              constructor
              · intro _ a' d rest h; cases h
              · intro _; rfl
          | cons d rest =>
              dsimp only
              by_cases hcond : a = 'h' ∧ isHDigit d
              · rw [if_pos hcond]
                constructor
                · intro h; cases h
                · intro h
                  exact absurd hcond (h a d rest rfl)
              · rw [if_neg hcond]
                constructor
                · intro _ a' d' rest' heq
                  injection heq with h1 h2
                  injection h2 with h3 h4
                  subst h1
                  subst h3
                  exact hcond
                · intro _; rfl

theorem matchName_bt {l : List Char} (h : matchName l = none) :
    matchName (blockTagTighten l) = none := by
  rw [matchName_none_iff] at h ⊢
  obtain ⟨hf, hp⟩ := h
  constructor
  · rw [matchFirst_none_iff] at hf ⊢
    intro nm hnm
    exact matchLit_bt nm (blockNames_goodChars nm hnm) l (hf nm hnm)
  · cases l with
    | nil => rw [bt_nil]; exact hp
    | cons c cs =>
        cases hmb : matchBlockTag ((c :: cs).dropWhile isWsB) with
        | some p =>
            obtain ⟨tk, r2⟩ := p
            obtain ⟨t, rfl⟩ := tagToken_head (matchBlockTag_token hmb)
            rw [bt_cons_some hmb, List.cons_append]
            intro a d rest heq hcc
            injection heq with h1 _
            rw [← h1] at hcc
            exact absurd hcc.1 (by decide)
        | none =>
            rw [bt_cons_none hmb]
            intro a d rest heq hcc
            injection heq with h1 h2
            subst h1
            obtain ⟨rfl, hdig⟩ := hcc
            cases cs with
            | nil =>
                rw [bt_nil] at h2
                cases h2
            | cons d0 cs' =>
                have hp0 : ¬ ('h' = 'h' ∧ isHDigit d0) := hp 'h' d0 cs' rfl
                have hd0 : ¬ isHDigit d0 := fun hd => hp0 ⟨rfl, hd⟩
                cases hmb2 : matchBlockTag ((d0 :: cs').dropWhile isWsB) with
                | some p2 =>
                    obtain ⟨tk2, r22⟩ := p2
                    obtain ⟨t2, rfl⟩ := tagToken_head (matchBlockTag_token hmb2)
                    rw [bt_cons_some hmb2, List.cons_append] at h2
                    injection h2 with h3 _
                    rw [← h3] at hdig
                    exact absurd hdig (by decide)
                | none =>
                    rw [bt_cons_none hmb2] at h2
                    injection h2 with h3 _
                    rw [← h3] at hdig
                    exact hd0 hdig

theorem matchBlockTag_bt : ∀ {l : List Char}, HeadNonWs l →
    matchBlockTag l = none → matchBlockTag (blockTagTighten l) = none := by
  intro l hhead hnone
  cases l with
  | nil => rw [bt_nil]; rfl
  | cons c cs =>
      have hcw : isWsB c = false := hhead c cs rfl
      have hmb : matchBlockTag ((c :: cs).dropWhile isWsB) = none := by
        rw [dropWhile_cons_nonws hcw]
        exact hnone
      rw [bt_cons_none hmb]
      by_cases hc : c = '<'
      · subst hc
        simp only [matchBlockTag, eq_self_iff_true, if_true] at hnone ⊢
        cases hn : matchName (slashSplit cs).2 with
        | some p =>
            obtain ⟨nm, r2⟩ := p
            rw [hn] at hnone
            dsimp only at hnone
            cases hsp : splitAtGt r2 with
            | some q => rw [hsp] at hnone; cases hnone
            | none =>
                have hgt_r2 : '>' ∉ r2 := splitAtGt_none_iff.mp hsp
                have hgt_nm : '>' ∉ nm := validName_no_gt (matchName_valid hn)
                have hgt_snd : '>' ∉ (slashSplit cs).2 := by
                  rw [(matchName_eq hn).1]
                  intro hmem
                  rcases List.mem_append.mp hmem with hmem | hmem
                  · exact hgt_nm hmem
                  · exact hgt_r2 hmem
                have hgt_cs : '>' ∉ cs := by
                  intro hmem
                  rw [slashSplit_eq cs] at hmem
                  rcases List.mem_append.mp hmem with hmem | hmem
                  · rcases slashSplit_fst cs with hf | hf <;> rw [hf] at hmem <;> simp at hmem
                  · exact hgt_snd hmem
                have hgt_bt : '>' ∉ blockTagTighten cs := fun hmem =>
                  hgt_cs (bt_sub cs.length cs le_rfl '>' hmem)
                cases hn2 : matchName (slashSplit (blockTagTighten cs)).2 with
                | none => rfl
                | some p2 =>
                    obtain ⟨nm2, r22⟩ := p2
                    dsimp only
                    have hgt_r22 : '>' ∉ r22 := by
                      intro hmem
                      apply hgt_bt
                      rw [slashSplit_eq (blockTagTighten cs)]
                      refine List.mem_append.mpr (Or.inr ?_)
                      rw [(matchName_eq hn2).1]
                      exact List.mem_append.mpr (Or.inr hmem)
                    rw [splitAtGt_none_iff.mpr hgt_r22]
        | none =>
            cases cs with
            | nil =>
                rw [bt_nil]
                rw [hn]
            | cons c1 cs1 =>
                by_cases h1 : c1 = '/'
                · subst h1
                  have hn' : matchName cs1 = none := by
                    simpa [slashSplit] using hn
                  have hbt : blockTagTighten ('/' :: cs1) = '/' :: blockTagTighten cs1 := by
                    refine bt_cons_none ?_
                    rw [dropWhile_cons_nonws (by decide)]
                    exact matchBlockTag_cons_ne (by decide) (t := cs1)
                  rw [hbt]
                  have hsl : slashSplit ('/' :: blockTagTighten cs1) =
                      (['/'], blockTagTighten cs1) := by simp [slashSplit]
                  rw [hsl]
                  rw [matchName_bt hn']
                · have hss : slashSplit (c1 :: cs1) = ([], c1 :: cs1) := by
                    simp [slashSplit, h1]
                  rw [hss] at hn
                  have hbt2 : matchName (blockTagTighten (c1 :: cs1)) = none :=
                    matchName_bt hn
                  rcases bt_head c1 cs1 with ⟨t, heq⟩ | ⟨t, heq⟩
                  · rw [heq]
                    have hsl : slashSplit (c1 :: t) = ([], c1 :: t) := by
                      simp [slashSplit, h1]
                    rw [hsl]
                    rw [heq] at hbt2
                    rw [hbt2]
                  · rw [heq]
                    have hsl : slashSplit ('<' :: t) = ([], '<' :: t) := by
                      simp [slashSplit]
                    rw [hsl]
                    rw [heq] at hbt2
                    rw [hbt2]
      · rw [matchBlockTag_cons_ne hc]

theorem bt_length : ∀ n l, l.length ≤ n →
    (blockTagTighten l).length ≤ l.length := by
  intro n
  induction n with
  | zero =>
      intro l hl
      have hl0 : l = [] := List.length_eq_zero.mp (by omega)
      subst hl0
      rw [bt_nil]
  | succ n ih =>
      intro l hl
      cases l with
      | nil => rw [bt_nil]
      | cons c cs =>
          cases hmb : matchBlockTag ((c :: cs).dropWhile isWsB) with
          | some p =>
              obtain ⟨tk, r2⟩ := p
              rw [bt_cons_some hmb, List.length_append]
              have h2 : tk.length + r2.length = ((c :: cs).dropWhile isWsB).length := by
                rw [(matchBlockTag_eq hmb).1, List.length_append]
              have h3 := dropWhileLen isWsB (c :: cs)
              have h4 := dropWhileLen isWsB r2
              have h5 : (r2.dropWhile isWsB).length ≤ n := by
                simp only [List.length_cons] at h3 hl
                have hne : tk.length ≥ 1 := by
                  obtain ⟨t, rfl⟩ := tagToken_head (matchBlockTag_token hmb)
                  simp
                omega
              have h6 := ih (r2.dropWhile isWsB) h5
              simp only [List.length_cons] at h3 hl ⊢
              omega
          | none =>
              rw [bt_cons_none hmb, List.length_cons]
              have := ih cs (by simp only [List.length_cons] at hl; omega)
              simp only [List.length_cons]
              omega

theorem bt_idem_fuel : ∀ n l, l.length ≤ n →
    blockTagTighten (blockTagTighten l) = blockTagTighten l := by
  intro n
  induction n with
  | zero =>
      intro l hl
      have hl0 : l = [] := List.length_eq_zero.mp (by omega)
      subst hl0
      rw [bt_nil, bt_nil]
  | succ n ih =>
      intro l hl
      cases l with
      | nil => rw [bt_nil, bt_nil]
      | cons c cs =>
          cases hmb : matchBlockTag ((c :: cs).dropWhile isWsB) with
          | some p =>
              obtain ⟨tk, r2⟩ := p
              have htok := matchBlockTag_token hmb
              obtain ⟨t, htkeq⟩ := tagToken_head htok
              have hlen : (r2.dropWhile isWsB).length ≤ n := by
                have h1 := dropWhileLen isWsB r2
                have h2 : r2.length < ((c :: cs).dropWhile isWsB).length := by
                  rw [(matchBlockTag_eq hmb).1, List.length_append, htkeq]
                  simp
                have h3 := dropWhileLen isWsB (c :: cs)
                simp only [List.length_cons] at h3 hl
                omega
              have hw := headNonWs_bt (headNonWs_dropWhile r2)
              rw [bt_cons_some hmb]
              have hre : matchBlockTag
                  ((tk ++ blockTagTighten (r2.dropWhile isWsB)).dropWhile isWsB) =
                  some (tk, blockTagTighten (r2.dropWhile isWsB)) := by
                have hdw : (tk ++ blockTagTighten (r2.dropWhile isWsB)).dropWhile isWsB =
                    tk ++ blockTagTighten (r2.dropWhile isWsB) := by
                  rw [htkeq, List.cons_append]
                  exact dropWhile_cons_nonws (by decide)
                rw [hdw]
                exact matchBlockTag_replay htok _
              cases htt : tk ++ blockTagTighten (r2.dropWhile isWsB) with
              | nil =>
                  exfalso
                  rw [htkeq, List.cons_append] at htt
                  cases htt
              | cons c0 cs0 =>
                  rw [htt] at hre
                  rw [bt_cons_some hre, dropWhile_of_headNonWs hw,
                    ih (r2.dropWhile isWsB) hlen, htt]
          | none =>
              rw [bt_cons_none hmb]
              have hmb2 : matchBlockTag ((c :: blockTagTighten cs).dropWhile isWsB) = none := by
                by_cases hcw : isWsB c
                · have hdw1 : (c :: blockTagTighten cs).dropWhile isWsB =
                      (blockTagTighten cs).dropWhile isWsB := by
                    rw [List.dropWhile_cons, if_pos hcw]
                  have hdw0 : (c :: cs).dropWhile isWsB = cs.dropWhile isWsB := by
                    rw [List.dropWhile_cons, if_pos hcw]
                  rw [hdw0] at hmb
                  have hsplit := List.takeWhile_append_dropWhile (p := isWsB) (l := cs)
                  have hWws : ∀ w ∈ cs.takeWhile isWsB, isWsB w = true :=
                    fun w hw => List.mem_takeWhile_imp hw
                  have hrest := headNonWs_dropWhile cs
                  have hbteq : blockTagTighten cs =
                      cs.takeWhile isWsB ++ blockTagTighten (cs.dropWhile isWsB) := by
                    conv_lhs => rw [← hsplit]
                    refine bt_ws_append hWws ?_
                    rw [dropWhile_of_headNonWs hrest]
                    exact hmb
                  rw [hdw1, hbteq, dropWhile_ws_append hWws,
                    dropWhile_of_headNonWs (headNonWs_bt hrest)]
                  exact matchBlockTag_bt hrest hmb
                · have hcwf : isWsB c = false := by simpa using hcw
                  rw [dropWhile_cons_nonws hcwf] at hmb
                  have hM := matchBlockTag_bt
                    (l := c :: cs) (fun c' t h => by
                      obtain rfl : c = c' := (List.cons.injEq .. ▸ h).1
                      exact hcwf) hmb
                  rw [bt_cons_none (by rw [dropWhile_cons_nonws hcwf]; exact hmb)] at hM
                  rw [dropWhile_cons_nonws hcwf]
                  exact hM
              rw [bt_cons_none hmb2]
              rw [ih cs (by simp only [List.length_cons] at hl; omega)]

/-! ### Idempotence of the whole whitespace chain

The image of `collapseWs` is characterised by five properties: every
whitespace character is a plain space, no two adjacent characters are both
whitespace, no `>` whitespace `<` triple of adjacent characters occurs, and
neither the first nor the last character is whitespace.  Each pass
establishes or preserves them, and each pass is the identity on lists
satisfying the properties it is responsible for. -/

/-- The head pair check of `noAdjWs`. -/
def adjOk (x : Char) : List Char → Bool
  | y :: _ => !(isWsB x && isWsB y)
  | [] => true

/-- No two adjacent whitespace characters. -/
def noAdjWs : List Char → Bool
  | [] => true
  | x :: t => adjOk x t && noAdjWs t

/-- The head triple check of `noGtWsLt`. -/
def gtTripleOk (x : Char) : List Char → Bool
  | y :: z :: _ => !((x == '>') && isWsB y && (z == '<'))
  | _ => true

/-- No `>` whitespace `<` triple of adjacent characters. -/
def noGtWsLt : List Char → Bool
  | [] => true
  | x :: t => gtTripleOk x t && noGtWsLt t

/-- Every whitespace character of the list is a plain space. -/
def SpaceOnly (l : List Char) : Prop :=
  ∀ c ∈ l, isWsB c = true → c = ' '

/-- The last character, when present, is not whitespace. -/
def NoTrailWs (l : List Char) : Prop :=
  ∀ c, l.getLast? = some c → isWsB c = false

theorem adjOk_nonws_left {x : Char} (t : List Char) (h : isWsB x = false) :
    adjOk x t = true := by
  cases t with
  | nil => rfl
  | cons y t' => simp [adjOk, h]

theorem adjOk_nonws_head {x y : Char} (t : List Char) (h : isWsB y = false) :
    adjOk x (y :: t) = true := by
  simp [adjOk, h]

theorem adjOk_head_eq (x y : Char) (t t' : List Char) :
    adjOk x (y :: t) = adjOk x (y :: t') := by
  simp [adjOk]

theorem noAdjWs_cons {x : Char} {t : List Char} :
    noAdjWs (x :: t) = true ↔ adjOk x t = true ∧ noAdjWs t = true := by
  simp [noAdjWs]

theorem noAdjWs_tail {x : Char} {t : List Char} (h : noAdjWs (x :: t) = true) :
    noAdjWs t = true := (noAdjWs_cons.mp h).2

theorem noAdjWs_pair {x y : Char} {t : List Char}
    (h : noAdjWs (x :: y :: t) = true) (hx : isWsB x = true) : isWsB y = false := by
  have h1 := (noAdjWs_cons.mp h).1
  simp only [adjOk, hx, Bool.true_and, Bool.not_eq_true'] at h1
  exact h1

theorem noAdjWs_append_left : ∀ {a b : List Char},
    noAdjWs (a ++ b) = true → noAdjWs a = true := by
  intro a
  induction a with
  | nil => intro b _; rfl
  | cons x t ih =>
      intro b h
      rw [List.cons_append, noAdjWs_cons] at h
      obtain ⟨h1, h2⟩ := h
      rw [noAdjWs_cons]
      refine ⟨?_, ih h2⟩
      cases t with
      | nil => rfl
      | cons y t' =>
          rw [List.cons_append] at h1
          rw [adjOk_head_eq x y t' (t' ++ b)]
          exact h1

theorem noAdjWs_append_right : ∀ {a b : List Char},
    noAdjWs (a ++ b) = true → noAdjWs b = true := by
  intro a
  induction a with
  | nil => intro b h; exact h
  | cons x t ih =>
      intro b h
      rw [List.cons_append, noAdjWs_cons] at h
      exact ih h.2

theorem gtTripleOk_ne_gt {x : Char} (t : List Char) (h : ¬ x = '>') :
    gtTripleOk x t = true := by
  cases t with
  | nil => rfl
  | cons y t' =>
      cases t' with
      | nil => rfl
      | cons z t'' => simp [gtTripleOk, h]

theorem gtTripleOk_mid_nonws {x y : Char} (t : List Char) (h : isWsB y = false) :
    gtTripleOk x (y :: t) = true := by
  cases t with
  | nil => rfl
  | cons z t' => simp [gtTripleOk, h]

theorem gtTripleOk_third_ne {x y z : Char} (t : List Char) (h : ¬ z = '<') :
    gtTripleOk x (y :: z :: t) = true := by
  simp [gtTripleOk, h]

theorem gtTripleOk_head2_eq (x y z : Char) (t t' : List Char) :
    gtTripleOk x (y :: z :: t) = gtTripleOk x (y :: z :: t') := by
  simp [gtTripleOk]

theorem noGtWsLt_cons {x : Char} {t : List Char} :
    noGtWsLt (x :: t) = true ↔ gtTripleOk x t = true ∧ noGtWsLt t = true := by
  simp [noGtWsLt]

theorem noGtWsLt_tail {x : Char} {t : List Char} (h : noGtWsLt (x :: t) = true) :
    noGtWsLt t = true := (noGtWsLt_cons.mp h).2

theorem noGtWsLt_triple {x y z : Char} {t : List Char}
    (h : noGtWsLt (x :: y :: z :: t) = true) (hx : x = '>') (hy : isWsB y = true) :
    ¬ z = '<' := by
  have h1 := (noGtWsLt_cons.mp h).1
  intro hz
  rw [hx, hz] at h1
  simp [gtTripleOk, hy] at h1

theorem noGtWsLt_append_left : ∀ {a b : List Char},
    noGtWsLt (a ++ b) = true → noGtWsLt a = true := by
  intro a
  induction a with
  | nil => intro b _; rfl
  | cons x t ih =>
      intro b h
      rw [List.cons_append, noGtWsLt_cons] at h
      obtain ⟨h1, h2⟩ := h
      rw [noGtWsLt_cons]
      refine ⟨?_, ih h2⟩
      cases t with
      | nil => rfl
      | cons y t' =>
          cases t' with
          | nil => rfl
          | cons z t'' =>
              rw [List.cons_append, List.cons_append] at h1
              rw [gtTripleOk_head2_eq x y z t'' (t'' ++ b)]
              exact h1

theorem noGtWsLt_append_right : ∀ {a b : List Char},
    noGtWsLt (a ++ b) = true → noGtWsLt b = true := by
  intro a
  induction a with
  | nil => intro b h; exact h
  | cons x t ih =>
      intro b h
      rw [List.cons_append, noGtWsLt_cons] at h
      exact ih h.2

theorem noAdjWs_append_nonwsEnd : ∀ {a : List Char} {g : Char} {b : List Char},
    a.getLast? = some g → isWsB g = false →
    noAdjWs a = true → noAdjWs b = true → noAdjWs (a ++ b) = true := by
  intro a
  induction a with
  | nil => intro g b hlast _ _ _; cases hlast
  | cons x t ih =>
      intro g b hlast hg ha hb
      cases t with
      | nil =>
          obtain rfl : x = g := Option.some.inj hlast
          rw [List.singleton_append, noAdjWs_cons]
          exact ⟨adjOk_nonws_left b hg, hb⟩
      | cons y t' =>
          have hlast' : (y :: t').getLast? = some g := hlast
          rw [List.cons_append, noAdjWs_cons]
          refine ⟨?_, ih hlast' hg (noAdjWs_tail ha) hb⟩
          rw [List.cons_append]
          have h1 := (noAdjWs_cons.mp ha).1
          rw [adjOk_head_eq x y (t' ++ b) t']
          exact h1

theorem noGtWsLt_append_gtEnd : ∀ {a b : List Char},
    a.getLast? = some '>' → noGtWsLt a = true → noGtWsLt b = true →
    HeadNonWs b → noGtWsLt (a ++ b) = true := by
  intro a
  induction a with
  | nil => intro b hlast _ _ _; cases hlast
  | cons x t ih =>
      intro b hlast ha hb hbh
      cases t with
      | nil =>
          obtain rfl : x = '>' := Option.some.inj hlast
          rw [List.singleton_append, noGtWsLt_cons]
          refine ⟨?_, hb⟩
          cases b with
          | nil => rfl
          | cons y b' =>
              cases b' with
              | nil => rfl
              | cons z b'' => exact gtTripleOk_mid_nonws _ (hbh y _ rfl)
      | cons y t' =>
          have hlast' : (y :: t').getLast? = some '>' := hlast
          rw [List.cons_append, noGtWsLt_cons]
          refine ⟨?_, ih hlast' (noGtWsLt_tail ha) hb hbh⟩
          rw [List.cons_append]
          cases t' with
          | nil =>
              obtain rfl : y = '>' := Option.some.inj hlast'
              rw [List.nil_append]
              exact gtTripleOk_mid_nonws _ (by decide)
          | cons z t'' =>
              rw [List.cons_append]
              have h1 := (noGtWsLt_cons.mp ha).1
              rw [gtTripleOk_head2_eq x y z (t'' ++ b) t'']
              exact h1

theorem noTrailWs_append (a b : List Char) (h : NoTrailWs (a ++ b)) :
    NoTrailWs b := by
  intro g hg
  have hbne : b ≠ [] := by intro h0; rw [h0] at hg; cases hg
  exact h g (by rw [List.getLast?_append_of_ne_nil a hbne]; exact hg)

theorem noTrailWs_tail {c : Char} {cs : List Char} (h : NoTrailWs (c :: cs)) :
    NoTrailWs cs := by
  have heq : c :: cs = [c] ++ cs := rfl
  rw [heq] at h
  exact noTrailWs_append [c] cs h

theorem noTrailWs_dropWhile {l : List Char} (h : NoTrailWs l) :
    NoTrailWs (l.dropWhile isWsB) := by
  have hsplit := List.takeWhile_append_dropWhile (p := isWsB) (l := l)
  rw [← hsplit] at h
  exact noTrailWs_append _ _ h

theorem spaceOnly_noNl {l : List Char} (h : SpaceOnly l) : '\n' ∉ l := by
  intro hm
  exact absurd (h '\n' hm (by decide)) (by decide)

theorem dropWhile_nil_all {l : List Char} (h : l.dropWhile isWsB = []) :
    ∀ x ∈ l, isWsB x = true := by
  intro x hx
  have hsplit := List.takeWhile_append_dropWhile (p := isWsB) (l := l)
  rw [h, List.append_nil] at hsplit
  rw [← hsplit] at hx
  exact List.mem_takeWhile_imp hx

theorem getLast?_exists {l : List Char} (h : l ≠ []) :
    ∃ g, l.getLast? = some g ∧ g ∈ l := by
  cases l with
  | nil => exact absurd rfl h
  | cons c cs =>
      have h2 : (c :: cs).getLast? = some ((c :: cs).getLast (by simp)) :=
        List.getLast?_eq_getLast _ (by simp)
      exact ⟨_, h2, List.mem_of_mem_getLast? h2⟩

theorem headNonWs_append_decomp {a b : List Char} (h : HeadNonWs (a ++ b)) :
    HeadNonWs a := by
  intro c t hct
  exact h c (t ++ b) (by rw [hct, List.cons_append])

/-! #### Branch equations for the five scanner passes -/

theorem wsrts_nil : wsRunsToSpace [] = [] := by rw [wsRunsToSpace]

theorem wsrts_cons_ws {c : Char} {cs : List Char} (h : isWsB c = true) :
    wsRunsToSpace (c :: cs) = ' ' :: wsRunsToSpace (cs.dropWhile isWsB) := by
  rw [wsRunsToSpace, if_pos h]

theorem wsrts_cons_nonws {c : Char} {cs : List Char} (h : isWsB c = false) :
    wsRunsToSpace (c :: cs) = c :: wsRunsToSpace cs := by
  rw [wsRunsToSpace, if_neg (by simp [h])]

theorem tgc_nil : tagGapClose [] = [] := by rw [tagGapClose]

theorem tgc_cons_match {c d : Char} {cs r2 : List Char}
    (hd : cs.dropWhile isWsB = d :: r2)
    (hc : c = '>' ∧ cs.takeWhile isWsB ≠ [] ∧ d = '<') :
    tagGapClose (c :: cs) = '>' :: '<' :: tagGapClose r2 := by
  rw [tagGapClose]
  split
  · rename_i d' r2' heq
    rw [heq] at hd
    injection hd with h1 h2
    subst h1; subst h2
    rw [if_pos hc]
  · rename_i heq
    rw [heq] at hd
    cases hd

theorem tgc_cons_nil {c : Char} {cs : List Char} (hd : cs.dropWhile isWsB = []) :
    tagGapClose (c :: cs) = c :: tagGapClose cs := by
  rw [tagGapClose]
  split
  · rename_i d' r2' heq
    rw [heq] at hd
    cases hd
  · rfl

theorem tgc_cons_neg {c d : Char} {cs r2 : List Char}
    (hd : cs.dropWhile isWsB = d :: r2)
    (hc : ¬ (c = '>' ∧ cs.takeWhile isWsB ≠ [] ∧ d = '<')) :
    tagGapClose (c :: cs) = c :: tagGapClose cs := by
  rw [tagGapClose]
  split
  · rename_i d' r2' heq
    rw [heq] at hd
    injection hd with h1 h2
    subst h1; subst h2
    rw [if_neg hc]
  · rfl

theorem lls_nil (b : Bool) : lineLeadStrip b [] = [] := by rw [lineLeadStrip]

theorem lls_true_ws {c : Char} {cs : List Char} (h : isWsB c = true) :
    lineLeadStrip true (c :: cs) = lineLeadStrip false (cs.dropWhile isWsB) := by
  rw [lineLeadStrip, if_pos ⟨rfl, h⟩]

theorem lls_cons_neg {b : Bool} {c : Char} {cs : List Char}
    (h : ¬ (b = true ∧ isWsB c = true)) :
    lineLeadStrip b (c :: cs) = c :: lineLeadStrip (c == '\n') cs := by
  rw [lineLeadStrip, if_neg h]

theorem lts_nil : lineTrailStrip [] = [] := by rw [lineTrailStrip]

theorem lts_cons_nonws {c : Char} {cs : List Char} (h : isWsB c = false) :
    lineTrailStrip (c :: cs) = c :: lineTrailStrip cs := by
  rw [lineTrailStrip, if_neg (by simp [h])]

theorem lts_cons_ws_nil {c : Char} {cs : List Char} (h : isWsB c = true)
    (hd : (c :: cs).dropWhile isWsB = []) : lineTrailStrip (c :: cs) = [] := by
  rw [lineTrailStrip, if_pos h]
  split
  · rfl
  · rename_i r rest' heq
    rw [heq] at hd
    cases hd

theorem lts_cons_ws_cons {c r : Char} {cs rest' : List Char} (h : isWsB c = true)
    (hd : (c :: cs).dropWhile isWsB = r :: rest') :
    lineTrailStrip (c :: cs) =
      keepFromLastNl ((c :: cs).takeWhile isWsB) ++ lineTrailStrip (r :: rest') := by
  rw [lineTrailStrip, if_pos h]
  split
  · rename_i heq
    rw [heq] at hd
    cases hd
  · rename_i r' rest2 heq
    rw [heq] at hd
    injection hd with h1 h2
    subst h1; subst h2
    rfl

theorem nlc_nil : nlRunsCollapse [] = [] := by rw [nlRunsCollapse]

theorem nlc_cons_ne {c : Char} {cs : List Char} (h : ¬ c = '\n') :
    nlRunsCollapse (c :: cs) = c :: nlRunsCollapse cs := by
  rw [nlRunsCollapse, if_neg h]

theorem keepFromLastNl_noNl {run : List Char} (h : '\n' ∉ run) :
    keepFromLastNl run = run := by
  have hc : run.contains '\n' = false := by
    simp [List.contains]
    exact h
  rw [keepFromLastNl, hc]
  simp

/-! #### Pass 1: whitespace runs to single spaces -/

theorem spaceOnly_wsrts : ∀ fuel l, l.length ≤ fuel →
    SpaceOnly (wsRunsToSpace l) := by
  intro fuel
  induction fuel with
  | zero =>
      intro l hl
      have hl0 : l = [] := List.length_eq_zero.mp (by omega)
      subst hl0
      rw [wsrts_nil]
      intro c hc
      cases hc
  | succ n ih =>
      intro l hl
      cases l with
      | nil =>
          rw [wsrts_nil]
          intro c hc
          cases hc
      | cons c cs =>
          by_cases hw : isWsB c
          · rw [wsrts_cons_ws hw]
            intro x hx hxw
            rcases List.mem_cons.mp hx with rfl | hx'
            · rfl
            · exact ih (cs.dropWhile isWsB)
                (by have := dropWhileLen isWsB cs
                    simp only [List.length_cons] at hl; omega) x hx' hxw
          · have hwf : isWsB c = false := by simpa using hw
            rw [wsrts_cons_nonws hwf]
            intro x hx hxw
            rcases List.mem_cons.mp hx with rfl | hx'
            · rw [hwf] at hxw; cases hxw
            · exact ih cs (by simp only [List.length_cons] at hl; omega) x hx' hxw

theorem noAdjWs_wsrts : ∀ fuel l, l.length ≤ fuel →
    noAdjWs (wsRunsToSpace l) = true := by
  intro fuel
  induction fuel with
  | zero =>
      intro l hl
      have hl0 : l = [] := List.length_eq_zero.mp (by omega)
      subst hl0
      rw [wsrts_nil]
      rfl
  | succ n ih =>
      intro l hl
      cases l with
      | nil => rw [wsrts_nil]; rfl
      | cons c cs =>
          by_cases hw : isWsB c
          · rw [wsrts_cons_ws hw, noAdjWs_cons]
            refine ⟨?_, ih (cs.dropWhile isWsB)
              (by have := dropWhileLen isWsB cs
                  simp only [List.length_cons] at hl; omega)⟩
            cases hdw : cs.dropWhile isWsB with
            | nil => rw [wsrts_nil]; rfl
            | cons d r =>
                have hdnw : isWsB d = false := headNonWs_dropWhile cs d r hdw
                rw [wsrts_cons_nonws hdnw]
                exact adjOk_nonws_head _ hdnw
          · have hwf : isWsB c = false := by simpa using hw
            rw [wsrts_cons_nonws hwf, noAdjWs_cons]
            exact ⟨adjOk_nonws_left _ hwf,
              ih cs (by simp only [List.length_cons] at hl; omega)⟩

theorem wsrts_id : ∀ l, SpaceOnly l → noAdjWs l = true → wsRunsToSpace l = l := by
  intro l
  induction l with
  | nil => intro _ _; rw [wsrts_nil]
  | cons c cs ih =>
      intro hso hadj
      have hso' : SpaceOnly cs := fun x hx hxw => hso x (List.mem_cons_of_mem c hx) hxw
      by_cases hw : isWsB c
      · have hsp : c = ' ' := hso c (List.mem_cons_self c cs) hw
        have hdw : cs.dropWhile isWsB = cs := by
          cases cs with
          | nil => rfl
          | cons d r => exact dropWhile_cons_nonws (noAdjWs_pair hadj hw)
        rw [wsrts_cons_ws hw, hdw, ih hso' (noAdjWs_tail hadj), hsp]
      · have hwf : isWsB c = false := by simpa using hw
        rw [wsrts_cons_nonws hwf, ih hso' (noAdjWs_tail hadj)]

/-! #### Passes 3 and 5: leading-run strip and newline-run collapse -/

theorem lls_false_id : ∀ l : List Char, '\n' ∉ l → lineLeadStrip false l = l := by
  intro l
  induction l with
  | nil => intro _; rw [lls_nil]
  | cons c cs ih =>
      intro hnl
      have hcn : ¬ c = '\n' := fun h => hnl (by rw [← h]; exact List.mem_cons_self c cs)
      rw [lls_cons_neg (by intro hco; exact absurd hco.1 (by decide))]
      have hb : (c == '\n') = false := by simp [hcn]
      rw [hb, ih (fun hm => hnl (List.mem_cons_of_mem c hm))]

theorem lls_true_noNl : ∀ l : List Char, '\n' ∉ l →
    lineLeadStrip true l = l.dropWhile isWsB := by
  intro l hnl
  cases l with
  | nil => rw [lls_nil]; rfl
  | cons c cs =>
      by_cases hw : isWsB c
      · rw [lls_true_ws hw, List.dropWhile_cons, if_pos hw]
        exact lls_false_id _
          (fun hm => hnl (List.mem_cons_of_mem c (mem_of_mem_dropWhile hm)))
      · have hwf : isWsB c = false := by simpa using hw
        rw [lls_cons_neg (fun hco => hw hco.2), dropWhile_cons_nonws hwf]
        have hcn : ¬ c = '\n' := fun h => hnl (by rw [← h]; exact List.mem_cons_self c cs)
        have hb : (c == '\n') = false := by simp [hcn]
        rw [hb, lls_false_id cs (fun hm => hnl (List.mem_cons_of_mem c hm))]

theorem nlc_id : ∀ l : List Char, '\n' ∉ l → nlRunsCollapse l = l := by
  intro l
  induction l with
  | nil => intro _; rw [nlc_nil]
  | cons c cs ih =>
      intro hnl
      have hcn : ¬ c = '\n' := fun h => hnl (by rw [← h]; exact List.mem_cons_self c cs)
      rw [nlc_cons_ne hcn, ih (fun hm => hnl (List.mem_cons_of_mem c hm))]

/-! #### Pass 2: closing the whitespace gap between tags -/

theorem mem_tgc : ∀ fuel l, l.length ≤ fuel → ∀ x ∈ tagGapClose l, x ∈ l := by
  intro fuel
  induction fuel with
  | zero =>
      intro l hl x hx
      have hl0 : l = [] := List.length_eq_zero.mp (by omega)
      subst hl0
      rw [tgc_nil] at hx
      exact hx
  | succ n ih =>
      intro l hl
      cases l with
      | nil => rw [tgc_nil]; intro x hx; exact hx
      | cons c cs =>
          have hcslen : cs.length ≤ n := by simp only [List.length_cons] at hl; omega
          cases hdc : cs.dropWhile isWsB with
          | nil =>
              rw [tgc_cons_nil hdc]
              intro x hx
              rcases List.mem_cons.mp hx with rfl | hx'
              · exact List.mem_cons_self x cs
              · exact List.mem_cons_of_mem c (ih cs hcslen x hx')
          | cons d r2 =>
              by_cases hcond : c = '>' ∧ cs.takeWhile isWsB ≠ [] ∧ d = '<'
              · rw [tgc_cons_match hdc hcond]
                have hr2len : r2.length ≤ n := by
                  have h1 := dropWhileLen isWsB cs
                  rw [hdc] at h1
                  simp only [List.length_cons] at h1 hl
                  omega
                obtain ⟨rfl, -, rfl⟩ := hcond
                intro x hx
                rcases List.mem_cons.mp hx with rfl | hx2
                · exact List.mem_cons_self _ cs
                rcases List.mem_cons.mp hx2 with rfl | hx3
                · have hmem : '<' ∈ cs.dropWhile isWsB := by
                    rw [hdc]; exact List.mem_cons_self _ r2
                  exact List.mem_cons_of_mem _ (mem_of_mem_dropWhile hmem)
                · have hx4 := ih r2 hr2len x hx3
                  have hmem : x ∈ cs.dropWhile isWsB := by
                    rw [hdc]; exact List.mem_cons_of_mem _ hx4
                  exact List.mem_cons_of_mem _ (mem_of_mem_dropWhile hmem)
              · rw [tgc_cons_neg hdc hcond]
                intro x hx
                rcases List.mem_cons.mp hx with rfl | hx'
                · exact List.mem_cons_self x cs
                · exact List.mem_cons_of_mem c (ih cs hcslen x hx')

theorem tgc_head (c : Char) (cs : List Char) :
    ∃ t, tagGapClose (c :: cs) = c :: t := by
  cases hdc : cs.dropWhile isWsB with
  | nil => exact ⟨tagGapClose cs, tgc_cons_nil hdc⟩
  | cons d r2 =>
      by_cases hcond : c = '>' ∧ cs.takeWhile isWsB ≠ [] ∧ d = '<'
      · refine ⟨'<' :: tagGapClose r2, ?_⟩
        rw [tgc_cons_match hdc hcond, hcond.1]
      · exact ⟨tagGapClose cs, tgc_cons_neg hdc hcond⟩

theorem tgc_cons_ws {e : Char} {cs' : List Char} (h : isWsB e = true) :
    tagGapClose (e :: cs') = e :: tagGapClose cs' := by
  have hne : ¬ e = '>' := by
    intro h0
    rw [h0] at h
    exact absurd h (by decide)
  cases hdc : cs'.dropWhile isWsB with
  | nil => exact tgc_cons_nil hdc
  | cons d r2 => exact tgc_cons_neg hdc (fun hco => hne hco.1)

theorem noAdjWs_tgc : ∀ fuel l, l.length ≤ fuel → noAdjWs l = true →
    noAdjWs (tagGapClose l) = true := by
  intro fuel
  induction fuel with
  | zero =>
      intro l hl _
      have hl0 : l = [] := List.length_eq_zero.mp (by omega)
      subst hl0
      rw [tgc_nil]
      rfl
  | succ n ih =>
      intro l hl hadj
      cases l with
      | nil => rw [tgc_nil]; rfl
      | cons c cs =>
          have hcslen : cs.length ≤ n := by simp only [List.length_cons] at hl; omega
          cases hdc : cs.dropWhile isWsB with
          | nil =>
              rw [tgc_cons_nil hdc, noAdjWs_cons]
              refine ⟨?_, ih cs hcslen (noAdjWs_tail hadj)⟩
              cases cs with
              | nil => rw [tgc_nil]; rfl
              | cons e cs' =>
                  obtain ⟨t, ht⟩ := tgc_head e cs'
                  rw [ht, adjOk_head_eq c e t cs']
                  exact (noAdjWs_cons.mp hadj).1
          | cons d r2 =>
              by_cases hcond : c = '>' ∧ cs.takeWhile isWsB ≠ [] ∧ d = '<'
              · rw [tgc_cons_match hdc hcond, noAdjWs_cons]
                refine ⟨adjOk_nonws_head _ (by decide), ?_⟩
                rw [noAdjWs_cons]
                refine ⟨adjOk_nonws_left _ (by decide), ?_⟩
                have hr2len : r2.length ≤ n := by
                  have h1 := dropWhileLen isWsB cs
                  rw [hdc] at h1
                  simp only [List.length_cons] at h1 hl
                  omega
                have hadjr2 : noAdjWs r2 = true := by
                  have h1 : noAdjWs (cs.dropWhile isWsB) = true := by
                    have hsplit := List.takeWhile_append_dropWhile (p := isWsB) (l := cs)
                    have h2 := noAdjWs_tail hadj
                    rw [← hsplit] at h2
                    exact noAdjWs_append_right h2
                  rw [hdc] at h1
                  exact noAdjWs_tail h1
                exact ih r2 hr2len hadjr2
              · rw [tgc_cons_neg hdc hcond, noAdjWs_cons]
                refine ⟨?_, ih cs hcslen (noAdjWs_tail hadj)⟩
                cases cs with
                | nil => rw [tgc_nil]; rfl
                | cons e cs' =>
                    obtain ⟨t, ht⟩ := tgc_head e cs'
                    rw [ht, adjOk_head_eq c e t cs']
                    exact (noAdjWs_cons.mp hadj).1

theorem noGtWsLt_tgc : ∀ fuel l, l.length ≤ fuel →
    noGtWsLt (tagGapClose l) = true := by
  intro fuel
  induction fuel with
  | zero =>
      intro l hl
      have hl0 : l = [] := List.length_eq_zero.mp (by omega)
      subst hl0
      rw [tgc_nil]
      rfl
  | succ n ih =>
      intro l hl
      cases l with
      | nil => rw [tgc_nil]; rfl
      | cons c cs =>
          have hcslen : cs.length ≤ n := by simp only [List.length_cons] at hl; omega
          cases hdc : cs.dropWhile isWsB with
          | nil =>
              rw [tgc_cons_nil hdc, noGtWsLt_cons]
              refine ⟨?_, ih cs hcslen⟩
              have hall : ∀ x ∈ cs, isWsB x = true := dropWhile_nil_all hdc
              cases cs with
              | nil => rw [tgc_nil]; rfl
              | cons e cs' =>
                  have hew : isWsB e = true := hall e (List.mem_cons_self e cs')
                  rw [tgc_cons_ws hew]
                  cases hcs' : tagGapClose cs' with
                  | nil => rfl
                  | cons z t' =>
                      have hz : z ∈ tagGapClose cs' := by
                        rw [hcs']; exact List.mem_cons_self z t'
                      have hz2 : z ∈ cs' := mem_tgc cs'.length cs' le_rfl z hz
                      have hzw : isWsB z = true := hall z (List.mem_cons_of_mem e hz2)
                      have hzne : ¬ z = '<' := by
                        intro h0
                        rw [h0] at hzw
                        exact absurd hzw (by decide)
                      exact gtTripleOk_third_ne _ hzne
          | cons d r2 =>
              by_cases hcond : c = '>' ∧ cs.takeWhile isWsB ≠ [] ∧ d = '<'
              · rw [tgc_cons_match hdc hcond, noGtWsLt_cons]
                refine ⟨gtTripleOk_mid_nonws _ (by decide), ?_⟩
                rw [noGtWsLt_cons]
                refine ⟨gtTripleOk_ne_gt _ (by decide), ?_⟩
                have hr2len : r2.length ≤ n := by
                  have h1 := dropWhileLen isWsB cs
                  rw [hdc] at h1
                  simp only [List.length_cons] at h1 hl
                  omega
                exact ih r2 hr2len
              · rw [tgc_cons_neg hdc hcond, noGtWsLt_cons]
                refine ⟨?_, ih cs hcslen⟩
                by_cases hcgt : c = '>'
                · cases cs with
                  | nil => rw [List.dropWhile_nil] at hdc; cases hdc
                  | cons e cs' =>
                      by_cases hew : isWsB e
                      · rw [tgc_cons_ws hew]
                        cases cs' with
                        | nil => rw [tgc_nil]; rfl
                        | cons f cs'' =>
                            obtain ⟨t2, ht2⟩ := tgc_head f cs''
                            rw [ht2]
                            by_cases hfw : isWsB f
                            · have hfne : ¬ f = '<' := by
                                intro h0
                                rw [h0] at hfw
                                exact absurd hfw (by decide)
                              exact gtTripleOk_third_ne _ hfne
                            · have hfwf : isWsB f = false := by simpa using hfw
                              have hdw2 : (e :: f :: cs'').dropWhile isWsB = f :: cs'' := by
                                rw [List.dropWhile_cons, if_pos hew,
                                  dropWhile_cons_nonws hfwf]
                              rw [hdc] at hdw2
                              injection hdw2 with hdf hrc
                              have htw : (e :: f :: cs'').takeWhile isWsB ≠ [] := by
                                rw [List.takeWhile_cons, if_pos hew]
                                simp
                              have hdne : ¬ d = '<' := fun h0 => hcond ⟨hcgt, htw, h0⟩
                              exact gtTripleOk_third_ne _ (fun h0 => hdne (hdf.trans h0))
                      · have hewf : isWsB e = false := by simpa using hew
                        obtain ⟨t, ht⟩ := tgc_head e cs'
                        rw [ht]
                        exact gtTripleOk_mid_nonws _ hewf
                · exact gtTripleOk_ne_gt _ hcgt

theorem tgc_id : ∀ l, noAdjWs l = true → noGtWsLt l = true → tagGapClose l = l := by
  intro l
  induction l with
  | nil => intro _ _; rw [tgc_nil]
  | cons c cs ih =>
      intro hadj hgap
      have ihcs := ih (noAdjWs_tail hadj) (noGtWsLt_tail hgap)
      cases hdc : cs.dropWhile isWsB with
      | nil => rw [tgc_cons_nil hdc, ihcs]
      | cons d r2 =>
          by_cases hcond : c = '>' ∧ cs.takeWhile isWsB ≠ [] ∧ d = '<'
          · exfalso
            obtain ⟨rfl, htw, rfl⟩ := hcond
            cases cs with
            | nil => exact htw rfl
            | cons w cs₂ =>
                by_cases hww : isWsB w
                · cases cs₂ with
                  | nil =>
                      rw [List.dropWhile_cons, if_pos hww, List.dropWhile_nil] at hdc
                      cases hdc
                  | cons u cs₃ =>
                      have huw : isWsB u = false := noAdjWs_pair (noAdjWs_tail hadj) hww
                      rw [List.dropWhile_cons, if_pos hww,
                        dropWhile_cons_nonws huw] at hdc
                      injection hdc with h1 h2
                      exact noGtWsLt_triple hgap rfl hww h1
                · have hwf : isWsB w = false := by simpa using hww
                  rw [List.takeWhile_cons] at htw
                  simp [hwf] at htw
          · rw [tgc_cons_neg hdc hcond, ihcs]

/-! #### Pass 4: trailing-run strip -/

theorem lts_decomp : ∀ fuel l, l.length ≤ fuel → '\n' ∉ l →
    ∃ suf, (∀ w ∈ suf, isWsB w = true) ∧ l = lineTrailStrip l ++ suf := by
  intro fuel
  induction fuel with
  | zero =>
      intro l hl _
      have hl0 : l = [] := List.length_eq_zero.mp (by omega)
      subst hl0
      exact ⟨[], fun w hw => absurd hw (List.not_mem_nil w), by rw [lts_nil, List.append_nil]⟩
  | succ n ih =>
      intro l hl hnl
      cases l with
      | nil => exact ⟨[], fun w hw => absurd hw (List.not_mem_nil w), by rw [lts_nil, List.append_nil]⟩
      | cons c cs =>
          have hcslen : cs.length ≤ n := by simp only [List.length_cons] at hl; omega
          by_cases hw : isWsB c
          · cases hdc : (c :: cs).dropWhile isWsB with
            | nil =>
                refine ⟨c :: cs, dropWhile_nil_all hdc, ?_⟩
                rw [lts_cons_ws_nil hw hdc, List.nil_append]
            | cons r rest' =>
                have hdc' := hdc
                rw [List.dropWhile_cons, if_pos hw] at hdc'
                have hrlen : (r :: rest').length ≤ n := by
                  have h1 := dropWhileLen isWsB cs
                  rw [hdc'] at h1
                  omega
                have hnl' : '\n' ∉ r :: rest' := by
                  intro hm
                  have hmem : '\n' ∈ (c :: cs).dropWhile isWsB := by
                    rw [hdc]; exact hm
                  exact hnl (mem_of_mem_dropWhile hmem)
                obtain ⟨suf, hsufws, hpref⟩ := ih (r :: rest') hrlen hnl'
                refine ⟨suf, hsufws, ?_⟩
                rw [lts_cons_ws_cons hw hdc]
                have hknl : '\n' ∉ (c :: cs).takeWhile isWsB := by
                  intro hm
                  have hsplit := List.takeWhile_append_dropWhile (p := isWsB) (l := c :: cs)
                  exact hnl (by rw [← hsplit]; exact List.mem_append_left _ hm)
                rw [keepFromLastNl_noNl hknl, List.append_assoc, ← hpref, ← hdc]
                exact (List.takeWhile_append_dropWhile (p := isWsB) (l := c :: cs)).symm
          · have hwf : isWsB c = false := by simpa using hw
            have hnl' : '\n' ∉ cs := fun hm => hnl (List.mem_cons_of_mem c hm)
            obtain ⟨suf, hsufws, hpref⟩ := ih cs hcslen hnl'
            refine ⟨suf, hsufws, ?_⟩
            rw [lts_cons_nonws hwf, List.cons_append, ← hpref]

theorem noTrailWs_lts : ∀ fuel l, l.length ≤ fuel → '\n' ∉ l →
    NoTrailWs (lineTrailStrip l) := by
  intro fuel
  induction fuel with
  | zero =>
      intro l hl _
      have hl0 : l = [] := List.length_eq_zero.mp (by omega)
      subst hl0
      rw [lts_nil]
      intro g hg
      cases hg
  | succ n ih =>
      intro l hl hnl
      cases l with
      | nil =>
          rw [lts_nil]
          intro g hg
          cases hg
      | cons c cs =>
          have hcslen : cs.length ≤ n := by simp only [List.length_cons] at hl; omega
          by_cases hw : isWsB c
          · cases hdc : (c :: cs).dropWhile isWsB with
            | nil =>
                rw [lts_cons_ws_nil hw hdc]
                intro g hg
                cases hg
            | cons r rest' =>
                rw [lts_cons_ws_cons hw hdc]
                have hrnw : isWsB r = false := headNonWs_dropWhile (c :: cs) r rest' hdc
                have hdc' := hdc
                rw [List.dropWhile_cons, if_pos hw] at hdc'
                have hrlen : (r :: rest').length ≤ n := by
                  have h1 := dropWhileLen isWsB cs
                  rw [hdc'] at h1
                  omega
                have hnl' : '\n' ∉ r :: rest' := by
                  intro hm
                  have hmem : '\n' ∈ (c :: cs).dropWhile isWsB := by
                    rw [hdc]; exact hm
                  exact hnl (mem_of_mem_dropWhile hmem)
                have hlts := ih (r :: rest') hrlen hnl'
                rw [lts_cons_nonws hrnw] at hlts ⊢
                intro g hg
                rw [List.getLast?_append_of_ne_nil _ (by simp)] at hg
                exact hlts g hg
          · have hwf : isWsB c = false := by simpa using hw
            have hnl' : '\n' ∉ cs := fun hm => hnl (List.mem_cons_of_mem c hm)
            rw [lts_cons_nonws hwf]
            intro g hg
            cases hlc : lineTrailStrip cs with
            | nil =>
                rw [hlc] at hg
                have hcg : c = g := Option.some.inj hg
                rw [← hcg]
                exact hwf
            | cons z t =>
                rw [hlc] at hg
                have hg' : (z :: t).getLast? = some g := hg
                have hrec := ih cs hcslen hnl'
                rw [hlc] at hrec
                exact hrec g hg'

theorem lts_id : ∀ fuel l, l.length ≤ fuel → '\n' ∉ l → NoTrailWs l →
    lineTrailStrip l = l := by
  intro fuel
  induction fuel with
  | zero =>
      intro l hl _ _
      have hl0 : l = [] := List.length_eq_zero.mp (by omega)
      subst hl0
      rw [lts_nil]
  | succ n ih =>
      intro l hl hnl htr
      cases l with
      | nil => rw [lts_nil]
      | cons c cs =>
          have hcslen : cs.length ≤ n := by simp only [List.length_cons] at hl; omega
          by_cases hw : isWsB c
          · cases hdc : (c :: cs).dropWhile isWsB with
            | nil =>
                exfalso
                have hall : ∀ x ∈ c :: cs, isWsB x = true := dropWhile_nil_all hdc
                have hne : c :: cs ≠ [] := by simp
                obtain ⟨g, hg, hgm⟩ := getLast?_exists hne
                have hgt := hall g hgm
                have hgf := htr g hg
                rw [hgt] at hgf
                cases hgf
            | cons r rest' =>
                rw [lts_cons_ws_cons hw hdc]
                have hdc' := hdc
                rw [List.dropWhile_cons, if_pos hw] at hdc'
                have hrlen : (r :: rest').length ≤ n := by
                  have h1 := dropWhileLen isWsB cs
                  rw [hdc'] at h1
                  omega
                have hnl' : '\n' ∉ r :: rest' := by
                  intro hm
                  have hmem : '\n' ∈ (c :: cs).dropWhile isWsB := by
                    rw [hdc]; exact hm
                  exact hnl (mem_of_mem_dropWhile hmem)
                have htr' : NoTrailWs (r :: rest') := by
                  have h2 := htr
                  have hsplit := List.takeWhile_append_dropWhile (p := isWsB) (l := c :: cs)
                  rw [← hsplit] at h2
                  have h3 := noTrailWs_append _ _ h2
                  rw [hdc] at h3
                  exact h3
                have hknl : '\n' ∉ (c :: cs).takeWhile isWsB := by
                  intro hm
                  have hsplit := List.takeWhile_append_dropWhile (p := isWsB) (l := c :: cs)
                  exact hnl (by rw [← hsplit]; exact List.mem_append_left _ hm)
                rw [keepFromLastNl_noNl hknl, ih (r :: rest') hrlen hnl' htr', ← hdc]
                exact List.takeWhile_append_dropWhile (p := isWsB) (l := c :: cs)
          · have hwf : isWsB c = false := by simpa using hw
            have hnl' : '\n' ∉ cs := fun hm => hnl (List.mem_cons_of_mem c hm)
            rw [lts_cons_nonws hwf, ih cs hcslen hnl' (noTrailWs_tail htr)]

/-! #### Pass 6 preserves the image properties -/

theorem tagToken_getLast {tk : List Char} (h : TagToken tk) :
    tk.getLast? = some '>' := by
  obtain ⟨slash, nm, mid, -, -, -, rfl⟩ := h
  have heq : '<' :: (slash ++ nm ++ mid ++ ['>']) =
      ('<' :: (slash ++ nm ++ mid)) ++ ['>'] := by simp
  rw [heq, List.getLast?_concat]

theorem bt_ne_nil (c : Char) (cs : List Char) : blockTagTighten (c :: cs) ≠ [] := by
  cases hmb : matchBlockTag ((c :: cs).dropWhile isWsB) with
  | some p =>
      obtain ⟨tk, r2⟩ := p
      obtain ⟨t, rfl⟩ := tagToken_head (matchBlockTag_token hmb)
      rw [bt_cons_some hmb]
      simp
  | none =>
      rw [bt_cons_none hmb]
      simp

theorem noAdjWs_bt : ∀ fuel l, l.length ≤ fuel → noAdjWs l = true →
    noAdjWs (blockTagTighten l) = true := by
  intro fuel
  induction fuel with
  | zero =>
      intro l hl _
      have hl0 : l = [] := List.length_eq_zero.mp (by omega)
      subst hl0
      rw [bt_nil]
      rfl
  | succ n ih =>
      intro l hl hadj
      cases l with
      | nil => rw [bt_nil]; rfl
      | cons c cs =>
          have hcslen : cs.length ≤ n := by simp only [List.length_cons] at hl; omega
          cases hmb : matchBlockTag ((c :: cs).dropWhile isWsB) with
          | some p =>
              obtain ⟨tk, r2⟩ := p
              have htok := matchBlockTag_token hmb
              rw [bt_cons_some hmb]
              have hlen : (r2.dropWhile isWsB).length ≤ n := by
                have h1 := dropWhileLen isWsB r2
                have h2 : r2.length < ((c :: cs).dropWhile isWsB).length := by
                  rw [(matchBlockTag_eq hmb).1, List.length_append]
                  obtain ⟨t, htkeq⟩ := tagToken_head htok
                  rw [htkeq]
                  simp
                have h3 := dropWhileLen isWsB (c :: cs)
                simp only [List.length_cons] at h3 hl
                omega
              have hadjdw : noAdjWs ((c :: cs).dropWhile isWsB) = true := by
                have hsplit := List.takeWhile_append_dropWhile (p := isWsB) (l := c :: cs)
                have h2 := hadj
                rw [← hsplit] at h2
                exact noAdjWs_append_right h2
              have heqsplit := (matchBlockTag_eq hmb).1
              have hadjtkr2 : noAdjWs (tk ++ r2) = true := by
                rw [← heqsplit]; exact hadjdw
              have hadjtk := noAdjWs_append_left hadjtkr2
              have hadjr2 := noAdjWs_append_right hadjtkr2
              have hadjr2dw : noAdjWs (r2.dropWhile isWsB) = true := by
                have hsplit2 := List.takeWhile_append_dropWhile (p := isWsB) (l := r2)
                rw [← hsplit2] at hadjr2
                exact noAdjWs_append_right hadjr2
              exact noAdjWs_append_nonwsEnd (tagToken_getLast htok) (by decide)
                hadjtk (ih _ hlen hadjr2dw)
          | none =>
              rw [bt_cons_none hmb, noAdjWs_cons]
              refine ⟨?_, ih cs hcslen (noAdjWs_tail hadj)⟩
              cases cs with
              | nil => rw [bt_nil]; rfl
              | cons d cs₂ =>
                  cases hmb2 : matchBlockTag ((d :: cs₂).dropWhile isWsB) with
                  | some p2 =>
                      obtain ⟨tk2, r22⟩ := p2
                      obtain ⟨t2, rfl⟩ := tagToken_head (matchBlockTag_token hmb2)
                      rw [bt_cons_some hmb2, List.cons_append]
                      exact adjOk_nonws_head _ (by decide)
                  | none =>
                      rw [bt_cons_none hmb2,
                        adjOk_head_eq c d (blockTagTighten cs₂) cs₂]
                      exact (noAdjWs_cons.mp hadj).1

theorem noGtWsLt_bt : ∀ fuel l, l.length ≤ fuel → noGtWsLt l = true →
    noGtWsLt (blockTagTighten l) = true := by
  intro fuel
  induction fuel with
  | zero =>
      intro l hl _
      have hl0 : l = [] := List.length_eq_zero.mp (by omega)
      subst hl0
      rw [bt_nil]
      rfl
  | succ n ih =>
      intro l hl hgap
      cases l with
      | nil => rw [bt_nil]; rfl
      | cons c cs =>
          have hcslen : cs.length ≤ n := by simp only [List.length_cons] at hl; omega
          cases hmb : matchBlockTag ((c :: cs).dropWhile isWsB) with
          | some p =>
              obtain ⟨tk, r2⟩ := p
              have htok := matchBlockTag_token hmb
              rw [bt_cons_some hmb]
              have hlen : (r2.dropWhile isWsB).length ≤ n := by
                have h1 := dropWhileLen isWsB r2
                have h2 : r2.length < ((c :: cs).dropWhile isWsB).length := by
                  rw [(matchBlockTag_eq hmb).1, List.length_append]
                  obtain ⟨t, htkeq⟩ := tagToken_head htok
                  rw [htkeq]
                  simp
                have h3 := dropWhileLen isWsB (c :: cs)
                simp only [List.length_cons] at h3 hl
                omega
              have hgapdw : noGtWsLt ((c :: cs).dropWhile isWsB) = true := by
                have hsplit := List.takeWhile_append_dropWhile (p := isWsB) (l := c :: cs)
                have h2 := hgap
                rw [← hsplit] at h2
                exact noGtWsLt_append_right h2
              have heqsplit := (matchBlockTag_eq hmb).1
              have hgaptkr2 : noGtWsLt (tk ++ r2) = true := by
                rw [← heqsplit]; exact hgapdw
              have hgaptk := noGtWsLt_append_left hgaptkr2
              have hgapr2 := noGtWsLt_append_right hgaptkr2
              have hgapr2dw : noGtWsLt (r2.dropWhile isWsB) = true := by
                have hsplit2 := List.takeWhile_append_dropWhile (p := isWsB) (l := r2)
                rw [← hsplit2] at hgapr2
                exact noGtWsLt_append_right hgapr2
              exact noGtWsLt_append_gtEnd (tagToken_getLast htok) hgaptk
                (ih _ hlen hgapr2dw) (headNonWs_bt (headNonWs_dropWhile r2))
          | none =>
              rw [bt_cons_none hmb, noGtWsLt_cons]
              refine ⟨?_, ih cs hcslen (noGtWsLt_tail hgap)⟩
              by_cases hcgt : c = '>'
              · cases cs with
                | nil => rw [bt_nil]; rfl
                | cons d cs₂ =>
                    cases hmb2 : matchBlockTag ((d :: cs₂).dropWhile isWsB) with
                    | some p2 =>
                        obtain ⟨tk2, r22⟩ := p2
                        obtain ⟨t2, rfl⟩ := tagToken_head (matchBlockTag_token hmb2)
                        rw [bt_cons_some hmb2, List.cons_append]
                        exact gtTripleOk_mid_nonws _ (by decide)
                    | none =>
                        rw [bt_cons_none hmb2]
                        by_cases hdw : isWsB d
                        · cases cs₂ with
                          | nil => rw [bt_nil]; rfl
                          | cons e cs₃ =>
                              cases hmb3 : matchBlockTag ((e :: cs₃).dropWhile isWsB) with
                              | some p3 =>
                                  exfalso
                                  have hdd : (d :: e :: cs₃).dropWhile isWsB =
                                      (e :: cs₃).dropWhile isWsB := by
                                    rw [List.dropWhile_cons, if_pos hdw]
                                  rw [hdd, hmb3] at hmb2
                                  cases hmb2
                              | none =>
                                  rw [bt_cons_none hmb3,
                                    gtTripleOk_head2_eq c d e (blockTagTighten cs₃) cs₃]
                                  exact (noGtWsLt_cons.mp hgap).1
                        · have hdwf : isWsB d = false := by simpa using hdw
                          cases hbt2 : blockTagTighten cs₂ with
                          | nil => rfl
                          | cons z t => exact gtTripleOk_mid_nonws _ hdwf
              · exact gtTripleOk_ne_gt _ hcgt

theorem noTrailWs_bt : ∀ fuel l, l.length ≤ fuel → NoTrailWs l →
    NoTrailWs (blockTagTighten l) := by
  intro fuel
  induction fuel with
  | zero =>
      intro l hl _
      have hl0 : l = [] := List.length_eq_zero.mp (by omega)
      subst hl0
      rw [bt_nil]
      intro g hg
      cases hg
  | succ n ih =>
      intro l hl htr
      cases l with
      | nil =>
          rw [bt_nil]
          intro g hg
          cases hg
      | cons c cs =>
          have hcslen : cs.length ≤ n := by simp only [List.length_cons] at hl; omega
          cases hmb : matchBlockTag ((c :: cs).dropWhile isWsB) with
          | some p =>
              obtain ⟨tk, r2⟩ := p
              have htok := matchBlockTag_token hmb
              rw [bt_cons_some hmb]
              have hlen : (r2.dropWhile isWsB).length ≤ n := by
                have h1 := dropWhileLen isWsB r2
                have h2 : r2.length < ((c :: cs).dropWhile isWsB).length := by
                  rw [(matchBlockTag_eq hmb).1, List.length_append]
                  obtain ⟨t, htkeq⟩ := tagToken_head htok
                  rw [htkeq]
                  simp
                have h3 := dropWhileLen isWsB (c :: cs)
                simp only [List.length_cons] at h3 hl
                omega
              have htrdw : NoTrailWs ((c :: cs).dropWhile isWsB) := by
                have hsplit := List.takeWhile_append_dropWhile (p := isWsB) (l := c :: cs)
                have h2 := htr
                rw [← hsplit] at h2
                exact noTrailWs_append _ _ h2
              have heqsplit := (matchBlockTag_eq hmb).1
              have htr2 : NoTrailWs r2 := by
                have h3 : NoTrailWs (tk ++ r2) := by rw [← heqsplit]; exact htrdw
                exact noTrailWs_append _ _ h3
              have hrec := ih _ hlen (noTrailWs_dropWhile htr2)
              intro g hg
              cases hbt : blockTagTighten (r2.dropWhile isWsB) with
              | nil =>
                  rw [hbt, List.append_nil] at hg
                  have hlast := tagToken_getLast htok
                  rw [hlast] at hg
                  have hggt : '>' = g := Option.some.inj hg
                  rw [← hggt]
                  decide
              | cons z t =>
                  rw [hbt] at hg
                  rw [List.getLast?_append_of_ne_nil _ (by simp)] at hg
                  rw [hbt] at hrec
                  exact hrec g hg
          | none =>
              rw [bt_cons_none hmb]
              intro g hg
              cases cs with
              | nil =>
                  rw [bt_nil] at hg
                  have hcg : c = g := Option.some.inj hg
                  rw [← hcg]
                  exact htr c rfl
              | cons d cs₂ =>
                  cases hbt : blockTagTighten (d :: cs₂) with
                  | nil => exact absurd hbt (bt_ne_nil d cs₂)
                  | cons z t =>
                      rw [hbt] at hg
                      have hg' : (z :: t).getLast? = some g := hg
                      have hrec := ih (d :: cs₂) hcslen (noTrailWs_tail htr)
                      rw [hbt] at hrec
                      exact hrec g hg'

/-! #### The whitespace chain is idempotent -/

theorem collapseWs_eq_bt {y : List Char} (hso : SpaceOnly y)
    (hadj : noAdjWs y = true) (hgap : noGtWsLt y = true)
    (hhnw : HeadNonWs y) (htr : NoTrailWs y) :
    collapseWs y = blockTagTighten y := by
  have hnl : '\n' ∉ y := spaceOnly_noNl hso
  rw [collapseWs, wsrts_id y hso hadj, tgc_id y hadj hgap, lls_true_noNl y hnl,
    dropWhile_of_headNonWs hhnw, lts_id y.length y le_rfl hnl htr, nlc_id y hnl]

theorem collapseWs_image (l : List Char) :
    SpaceOnly (collapseWs l) ∧ noAdjWs (collapseWs l) = true ∧
    noGtWsLt (collapseWs l) = true ∧ HeadNonWs (collapseWs l) ∧
    NoTrailWs (collapseWs l) := by
  have h1so : SpaceOnly (wsRunsToSpace l) := spaceOnly_wsrts _ _ le_rfl
  have h1adj : noAdjWs (wsRunsToSpace l) = true := noAdjWs_wsrts _ _ le_rfl
  have h2so : SpaceOnly (tagGapClose (wsRunsToSpace l)) :=
    fun x hx hxw => h1so x (mem_tgc _ _ le_rfl x hx) hxw
  have h2adj : noAdjWs (tagGapClose (wsRunsToSpace l)) = true :=
    noAdjWs_tgc _ _ le_rfl h1adj
  have h2gap : noGtWsLt (tagGapClose (wsRunsToSpace l)) = true :=
    noGtWsLt_tgc _ _ le_rfl
  have h2nl : '\n' ∉ tagGapClose (wsRunsToSpace l) := spaceOnly_noNl h2so
  have hz3 := lls_true_noNl (tagGapClose (wsRunsToSpace l)) h2nl
  have h3so : SpaceOnly (lineLeadStrip true (tagGapClose (wsRunsToSpace l))) := by
    rw [hz3]
    exact fun x hx hxw => h2so x (mem_of_mem_dropWhile hx) hxw
  have h3adj : noAdjWs (lineLeadStrip true (tagGapClose (wsRunsToSpace l))) = true := by
    rw [hz3]
    have h2 := h2adj
    rw [← List.takeWhile_append_dropWhile (p := isWsB)
      (l := tagGapClose (wsRunsToSpace l))] at h2
    exact noAdjWs_append_right h2
  have h3gap : noGtWsLt (lineLeadStrip true (tagGapClose (wsRunsToSpace l))) = true := by
    rw [hz3]
    have h2 := h2gap
    rw [← List.takeWhile_append_dropWhile (p := isWsB)
      (l := tagGapClose (wsRunsToSpace l))] at h2
    exact noGtWsLt_append_right h2
  have h3hnw : HeadNonWs (lineLeadStrip true (tagGapClose (wsRunsToSpace l))) := by
    rw [hz3]
    exact headNonWs_dropWhile _
  have h3nl : '\n' ∉ lineLeadStrip true (tagGapClose (wsRunsToSpace l)) := by
    rw [hz3]
    exact fun hm => h2nl (mem_of_mem_dropWhile hm)
  obtain ⟨suf, hsufws, hdecomp⟩ := lts_decomp _ _ le_rfl h3nl
  have h4so : SpaceOnly
      (lineTrailStrip (lineLeadStrip true (tagGapClose (wsRunsToSpace l)))) :=
    fun x hx hxw =>
      h3so x (by rw [hdecomp]; exact List.mem_append_left _ hx) hxw
  have h4adj : noAdjWs
      (lineTrailStrip (lineLeadStrip true (tagGapClose (wsRunsToSpace l)))) = true := by
    have h2 := h3adj
    rw [hdecomp] at h2
    exact noAdjWs_append_left h2
  have h4gap : noGtWsLt
      (lineTrailStrip (lineLeadStrip true (tagGapClose (wsRunsToSpace l)))) = true := by
    have h2 := h3gap
    rw [hdecomp] at h2
    exact noGtWsLt_append_left h2
  have h4tr : NoTrailWs
      (lineTrailStrip (lineLeadStrip true (tagGapClose (wsRunsToSpace l)))) :=
    noTrailWs_lts _ _ le_rfl h3nl
  have h4hnw : HeadNonWs
      (lineTrailStrip (lineLeadStrip true (tagGapClose (wsRunsToSpace l)))) := by
    have h2 := h3hnw
    rw [hdecomp] at h2
    exact headNonWs_append_decomp h2
  have h4nl : '\n' ∉
      lineTrailStrip (lineLeadStrip true (tagGapClose (wsRunsToSpace l))) :=
    spaceOnly_noNl h4so
  have hz5 := nlc_id
    (lineTrailStrip (lineLeadStrip true (tagGapClose (wsRunsToSpace l)))) h4nl
  rw [collapseWs, hz5]
  exact ⟨fun x hx hxw => h4so x (bt_sub _ _ le_rfl x hx) hxw,
    noAdjWs_bt _ _ le_rfl h4adj,
    noGtWsLt_bt _ _ le_rfl h4gap,
    headNonWs_bt h4hnw,
    noTrailWs_bt _ _ le_rfl h4tr⟩

theorem collapseWs_idem (l : List Char) :
    collapseWs (collapseWs l) = collapseWs l := by
  obtain ⟨hso, hadj, hgap, hhnw, htr⟩ := collapseWs_image l
  rw [collapseWs_eq_bt hso hadj hgap hhnw htr]
  rw [collapseWs]
  exact bt_idem_fuel _ _ le_rfl

theorem collapseWsStr_idem (s : String) :
    collapseWsStr (collapseWsStr s) = collapseWsStr s := by
  show (⟨collapseWs (collapseWs s.data)⟩ : String) = ⟨collapseWs s.data⟩
  rw [collapseWs_idem]

/-! ### The hyperlink pass preserves text content -/

theorem textContentList_append (a b : List Node) :
    textContentList (a ++ b) = textContentList a ++ textContentList b := by
  induction a with
  | nil => rfl
  | cons c cs ih =>
      show textContent c ++ textContentList (cs ++ b) =
        textContent c ++ textContentList cs ++ textContentList b
      rw [ih, String.append_assoc]

theorem textContent_replaceLinkList_of (cs : List Node)
    (ih : ∀ c ∈ cs, textContentList (replaceLinkNode c) = textContent c) :
    textContentList (replaceLinkList cs) = textContentList cs := by
  revert ih
  induction cs with
  | nil => intro _; rfl
  | cons c cs' ihl =>
      intro ih
      show textContentList (replaceLinkNode c ++ replaceLinkList cs') =
        textContent c ++ textContentList cs'
      rw [textContentList_append, ih c (List.mem_cons_self c cs'),
        ihl (fun x hx => ih x (List.mem_cons_of_mem c hx))]

theorem textContent_replaceLinkNode : ∀ n : Node,
    textContentList (replaceLinkNode n) = textContent n := by
  refine Node.inductionOn ?_ ?_
  · intro s
    exact String.append_empty s
  · intro t a cs ih
    by_cases ht : t = "a"
    · subst ht
      by_cases hempty : textContentList cs = ""
      · simp only [replaceLinkNode, if_pos rfl, if_pos hempty]
        show ("" : String) = textContentList cs
        rw [hempty]
      · simp only [replaceLinkNode, if_pos rfl, if_neg hempty]
        show textContentList cs ++ "" = textContentList cs
        exact String.append_empty _
    · simp only [replaceLinkNode, if_neg ht]
      show textContentList (replaceLinkList cs) ++ "" = textContent (.elem t a cs)
      rw [String.append_empty, textContent_replaceLinkList_of cs ih]
      rfl

theorem textContent_replaceLinksDesc (n : Node) :
    textContent (replaceLinksDesc n) = textContent n := by
  cases n with
  | text s => rfl
  | elem t a cs =>
      show textContentList (replaceLinkList cs) = textContentList cs
      exact textContent_replaceLinkList_of cs
        (fun c _ => textContent_replaceLinkNode c)

/-! ### The retry loop's success path -/

theorem opRun_ok {E A : Type} (maxR : Nat) (att : Nat → Except E A)
    (j : Nat) (a : A) (hj : att j = .ok a) :
    opRun maxR att j = ([.pageOpen, .attemptRun j, .pageClose, .retOk], .ok a) := by
  rw [opRun, hj]

theorem opRun_first_ok {E A : Type} (maxR : Nat) (att : Nat → Except E A)
    (i : Nat) (a : A) (es : Nat → E) :
    ∀ n k, maxR - k = n → k ≤ i → i ≤ maxR →
      (∀ j, j < i → att j = .error (es j)) → att i = .ok a →
      (opRun maxR att k).2 = .ok a ∧
      countAttempts (opRun maxR att k).1 = i - k + 1 := by
  intro n
  induction n with
  | zero =>
      intro k hnk hki him hfail hok
      have hk : k = i := by omega
      subst hk
      rw [opRun, hok]
      refine ⟨rfl, ?_⟩
      show (1 : Nat) = k - k + 1
      omega
  | succ n ih =>
      intro k hnk hki him hfail hok
      by_cases hk : k = i
      · subst hk
        rw [opRun, hok]
        refine ⟨rfl, ?_⟩
        show (1 : Nat) = k - k + 1
        omega
      · have hki' : k < i := by omega
        have hlt : k < maxR := by omega
        rw [opRun, hfail k hki']
        simp only [hlt, if_true]
        obtain ⟨ih1, ih2⟩ := ih (k + 1) (by omega) (by omega) him hfail hok
        refine ⟨ih1, ?_⟩
        show countAttempts
          ([OpEv.pageOpen, .attemptRun k, .pageClose, .browserReset, .browserRelaunch]
            ++ (opRun maxR att (k + 1)).1) = i - k + 1
        rw [countAttempts_append, ih2]
        show 1 + (i - (k + 1) + 1) = i - k + 1
        omega

/-! #### Fuel-indexed executable forms of the six scanners

The scanners recurse through `dropWhile` positions, so their equations are
not definitional and concrete inputs cannot be evaluated by the kernel
directly.  These structurally recursive fuel versions agree with them
whenever the fuel covers the input length, and make concrete runs of the
whole chain checkable by `decide`. -/

def wsrtsFuel : Nat → List Char → List Char
  | 0, _ => []
  | _ + 1, [] => []
  | n + 1, c :: cs =>
      if isWsB c then ' ' :: wsrtsFuel n (cs.dropWhile isWsB)
      else c :: wsrtsFuel n cs

def tgcFuel : Nat → List Char → List Char
  | 0, _ => []
  | _ + 1, [] => []
  | n + 1, c :: cs =>
      match cs.dropWhile isWsB with
      | d :: r2 =>
          if c = '>' ∧ cs.takeWhile isWsB ≠ [] ∧ d = '<' then
            '>' :: '<' :: tgcFuel n r2
          else c :: tgcFuel n cs
      | [] => c :: tgcFuel n cs

def llsFuel : Nat → Bool → List Char → List Char
  | 0, _, _ => []
  | _ + 1, _, [] => []
  | n + 1, atStart, c :: cs =>
      if atStart ∧ isWsB c then llsFuel n false (cs.dropWhile isWsB)
      else c :: llsFuel n (c == '\n') cs

def ltsFuel : Nat → List Char → List Char
  | 0, _ => []
  | _ + 1, [] => []
  | n + 1, c :: cs =>
      if isWsB c then
        match (c :: cs).dropWhile isWsB with
        | [] => []
        | r :: rest' =>
            keepFromLastNl ((c :: cs).takeWhile isWsB) ++ ltsFuel n (r :: rest')
      else c :: ltsFuel n cs

def nlcFuel : Nat → List Char → List Char
  | 0, _ => []
  | _ + 1, [] => []
  | n + 1, c :: cs =>
      if c = '\n' then '\n' :: nlcFuel n (cs.dropWhile (fun d => d == '\n'))
      else c :: nlcFuel n cs

def btFuel : Nat → List Char → List Char
  | 0, _ => []
  | _ + 1, [] => []
  | n + 1, c :: cs =>
      match matchBlockTag ((c :: cs).dropWhile isWsB) with
      | some (tk, r2) => tk ++ btFuel n (r2.dropWhile isWsB)
      | none => c :: btFuel n cs

theorem wsrtsFuel_eq : ∀ n l, l.length ≤ n → wsrtsFuel n l = wsRunsToSpace l := by
  intro n
  induction n with
  | zero =>
      intro l hl
      have hl0 : l = [] := List.length_eq_zero.mp (by omega)
      subst hl0
      rw [wsrts_nil]
      rfl
  | succ n ih =>
      intro l hl
      cases l with
      | nil => rw [wsrts_nil]; rfl
      | cons c cs =>
          have hcslen : cs.length ≤ n := by simp only [List.length_cons] at hl; omega
          by_cases hw : isWsB c
          · rw [wsrts_cons_ws hw]
            show (if isWsB c then ' ' :: wsrtsFuel n (cs.dropWhile isWsB)
              else c :: wsrtsFuel n cs) = _
            rw [if_pos hw,
              ih (cs.dropWhile isWsB) (le_trans (dropWhileLen isWsB cs) hcslen)]
          · have hwf : isWsB c = false := by simpa using hw
            rw [wsrts_cons_nonws hwf]
            show (if isWsB c then ' ' :: wsrtsFuel n (cs.dropWhile isWsB)
              else c :: wsrtsFuel n cs) = _
            rw [if_neg (by simp [hwf]), ih cs hcslen]

theorem tgcFuel_eq : ∀ n l, l.length ≤ n → tgcFuel n l = tagGapClose l := by
  intro n
  induction n with
  | zero =>
      intro l hl
      have hl0 : l = [] := List.length_eq_zero.mp (by omega)
      subst hl0
      rw [tgc_nil]
      rfl
  | succ n ih =>
      intro l hl
      cases l with
      | nil => rw [tgc_nil]; rfl
      | cons c cs =>
          have hcslen : cs.length ≤ n := by simp only [List.length_cons] at hl; omega
          show (match cs.dropWhile isWsB with
            | d :: r2 =>
                if c = '>' ∧ cs.takeWhile isWsB ≠ [] ∧ d = '<' then
                  '>' :: '<' :: tgcFuel n r2
                else c :: tgcFuel n cs
            | [] => c :: tgcFuel n cs) = _
          cases hdc : cs.dropWhile isWsB with
          | nil => rw [tgc_cons_nil hdc, ih cs hcslen]
          | cons d r2 =>
              dsimp only
              have hr2len : r2.length ≤ n := by
                have h1 := dropWhileLen isWsB cs
                rw [hdc] at h1
                simp only [List.length_cons] at h1
                omega
              by_cases hcond : c = '>' ∧ cs.takeWhile isWsB ≠ [] ∧ d = '<'
              · rw [if_pos hcond, tgc_cons_match hdc hcond, ih r2 hr2len]
              · rw [if_neg hcond, tgc_cons_neg hdc hcond, ih cs hcslen]

theorem llsFuel_eq : ∀ n b l, l.length ≤ n → llsFuel n b l = lineLeadStrip b l := by
  intro n
  induction n with
  | zero =>
      intro b l hl
      have hl0 : l = [] := List.length_eq_zero.mp (by omega)
      subst hl0
      rw [lls_nil]
      rfl
  | succ n ih =>
      intro b l hl
      cases l with
      | nil => rw [lls_nil]; rfl
      | cons c cs =>
          have hcslen : cs.length ≤ n := by simp only [List.length_cons] at hl; omega
          show (if b = true ∧ isWsB c = true then llsFuel n false (cs.dropWhile isWsB)
            else c :: llsFuel n (c == '\n') cs) = _
          by_cases hco : b = true ∧ isWsB c = true
          · obtain ⟨rfl, hw⟩ := hco
            rw [if_pos ⟨rfl, hw⟩, lls_true_ws hw,
              ih false (cs.dropWhile isWsB) (le_trans (dropWhileLen isWsB cs) hcslen)]
          · rw [if_neg hco, lls_cons_neg hco, ih (c == '\n') cs hcslen]

theorem ltsFuel_eq : ∀ n l, l.length ≤ n → ltsFuel n l = lineTrailStrip l := by
  intro n
  induction n with
  | zero =>
      intro l hl
      have hl0 : l = [] := List.length_eq_zero.mp (by omega)
      subst hl0
      rw [lts_nil]
      rfl
  | succ n ih =>
      intro l hl
      cases l with
      | nil => rw [lts_nil]; rfl
      | cons c cs =>
          have hcslen : cs.length ≤ n := by simp only [List.length_cons] at hl; omega
          show (if isWsB c then
              match (c :: cs).dropWhile isWsB with
              | [] => []
              | r :: rest' =>
                  keepFromLastNl ((c :: cs).takeWhile isWsB) ++ ltsFuel n (r :: rest')
            else c :: ltsFuel n cs) = _
          by_cases hw : isWsB c
          · rw [if_pos hw]
            cases hdc : (c :: cs).dropWhile isWsB with
            | nil => rw [lts_cons_ws_nil hw hdc]
            | cons r rest' =>
                dsimp only
                have hdc' := hdc
                rw [List.dropWhile_cons, if_pos hw] at hdc'
                have hrlen : (r :: rest').length ≤ n := by
                  have h1 := dropWhileLen isWsB cs
                  rw [hdc'] at h1
                  omega
                rw [lts_cons_ws_cons hw hdc, ih (r :: rest') hrlen]
          · have hwf : isWsB c = false := by simpa using hw
            rw [if_neg hw, lts_cons_nonws hwf, ih cs hcslen]

theorem nlcFuel_eq : ∀ n l, l.length ≤ n → nlcFuel n l = nlRunsCollapse l := by
  intro n
  induction n with
  | zero =>
      intro l hl
      have hl0 : l = [] := List.length_eq_zero.mp (by omega)
      subst hl0
      rw [nlc_nil]
      rfl
  | succ n ih =>
      intro l hl
      cases l with
      | nil => rw [nlc_nil]; rfl
      | cons c cs =>
          have hcslen : cs.length ≤ n := by simp only [List.length_cons] at hl; omega
          show (if c = '\n' then '\n' :: nlcFuel n (cs.dropWhile (fun d => d == '\n'))
            else c :: nlcFuel n cs) = _
          by_cases hc : c = '\n'
          · rw [if_pos hc]
            have heq : nlRunsCollapse (c :: cs) =
                '\n' :: nlRunsCollapse (cs.dropWhile (fun d => d == '\n')) := by
              rw [nlRunsCollapse, if_pos hc]
            rw [heq, ih (cs.dropWhile (fun d => d == '\n'))
              (le_trans (dropWhileLen (fun d => d == '\n') cs) hcslen)]
          · rw [if_neg hc, nlc_cons_ne hc, ih cs hcslen]

theorem btFuel_eq : ∀ n l, l.length ≤ n → btFuel n l = blockTagTighten l := by
  intro n
  induction n with
  | zero =>
      intro l hl
      have hl0 : l = [] := List.length_eq_zero.mp (by omega)
      subst hl0
      rw [bt_nil]
      rfl
  | succ n ih =>
      intro l hl
      cases l with
      | nil => rw [bt_nil]; rfl
      | cons c cs =>
          have hcslen : cs.length ≤ n := by simp only [List.length_cons] at hl; omega
          show (match matchBlockTag ((c :: cs).dropWhile isWsB) with
            | some (tk, r2) => tk ++ btFuel n (r2.dropWhile isWsB)
            | none => c :: btFuel n cs) = _
          cases hmb : matchBlockTag ((c :: cs).dropWhile isWsB) with
          | some p =>
              obtain ⟨tk, r2⟩ := p
              dsimp only
              have htok := matchBlockTag_token hmb
              have hlen : (r2.dropWhile isWsB).length ≤ n := by
                have h1 := dropWhileLen isWsB r2
                have h2 : r2.length < ((c :: cs).dropWhile isWsB).length := by
                  rw [(matchBlockTag_eq hmb).1, List.length_append]
                  obtain ⟨t, htkeq⟩ := tagToken_head htok
                  rw [htkeq]
                  simp
                have h3 := dropWhileLen isWsB (c :: cs)
                simp only [List.length_cons] at h3 hl
                omega
              rw [bt_cons_some hmb, ih (r2.dropWhile isWsB) hlen]
          | none => rw [bt_cons_none hmb, ih cs hcslen]

/-- The whole whitespace chain in fuel form: agrees with `collapseWs` and
evaluates on concrete inputs. -/
def collapseWsExec (l : List Char) : List Char :=
  let z1 := wsrtsFuel l.length l
  let z2 := tgcFuel z1.length z1
  let z3 := llsFuel z2.length true z2
  let z4 := ltsFuel z3.length z3
  let z5 := nlcFuel z4.length z4
  btFuel z5.length z5

theorem collapseWsExec_eq (l : List Char) : collapseWsExec l = collapseWs l := by
  simp only [collapseWsExec, collapseWs]
  rw [wsrtsFuel_eq _ _ le_rfl, tgcFuel_eq _ _ le_rfl, llsFuel_eq _ _ _ le_rfl,
    ltsFuel_eq _ _ le_rfl, nlcFuel_eq _ _ le_rfl, btFuel_eq _ _ le_rfl]

/-- The chain run on a concrete fragment
`" <div>\n a  b <\/div>\n"`: interior whitespace runs become single spaces,
the leading and trailing runs disappear, and the whitespace around the two
block tags is absorbed by the final pass. -/
theorem collapseWs_example :
    collapseWs (' ' :: '<' :: 'd' :: 'i' :: 'v' :: '>' :: '\n' :: ' ' :: 'a' ::
        ' ' :: ' ' :: 'b' :: ' ' :: '<' :: '/' :: 'd' :: 'i' :: 'v' :: '>' ::
        '\n' :: []) =
      '<' :: 'd' :: 'i' :: 'v' :: '>' :: 'a' :: ' ' :: 'b' :: '<' :: '/' ::
        'd' :: 'i' :: 'v' :: '>' :: [] := by
  rw [← collapseWsExec_eq]
  decide

/-- A second concrete run exercising the `h[1-6]` alternative and the
`>`-gap pass: `" <h2>\tTitle </h2>\n<p>x</p> "` collapses to
`"<h2>Title</h2><p>x</p>"`. -/
theorem collapseWs_example_two :
    collapseWs (' ' :: '<' :: 'h' :: '2' :: '>' :: '\t' :: 'T' :: 'i' :: 't' ::
        'l' :: 'e' :: ' ' :: '<' :: '/' :: 'h' :: '2' :: '>' :: '\n' :: '<' ::
        'p' :: '>' :: 'x' :: '<' :: '/' :: 'p' :: '>' :: ' ' :: []) =
      '<' :: 'h' :: '2' :: '>' :: 'T' :: 'i' :: 't' :: 'l' :: 'e' :: '<' ::
        '/' :: 'h' :: '2' :: '>' :: '<' :: 'p' :: '>' :: 'x' :: '<' :: '/' ::
        'p' :: '>' :: [] := by
  rw [← collapseWsExec_eq]
  decide

/-- The same concrete run at the `String` level. -/
theorem collapseWsStr_example :
    collapseWsStr " <div>\n a  b </div>\n" = "<div>a b</div>" := by
  have h : collapseWsExec (" <div>\n a  b </div>\n").data =
      ("<div>a b</div>").data := by decide
  show (⟨collapseWs (" <div>\n a  b </div>\n").data⟩ : String) = "<div>a b</div>"
  rw [← collapseWsExec_eq, h]

/-! #### The chain deletes only whitespace

The subsequence of non-whitespace characters is untouched by every pass:
the "Remove unnecessary whitespace" chain never loses a visible
character. -/

/-- The visible (non-whitespace) characters of a list, in order. -/
def visChars (l : List Char) : List Char :=
  l.filter (fun c => !isWsB c)

theorem visChars_nil : visChars [] = [] := rfl

theorem visChars_cons_ws {c : Char} (l : List Char) (h : isWsB c = true) :
    visChars (c :: l) = visChars l := by
  simp [visChars, List.filter_cons, h]

theorem visChars_cons_nonws {c : Char} (l : List Char) (h : isWsB c = false) :
    visChars (c :: l) = c :: visChars l := by
  simp [visChars, List.filter_cons, h]

theorem visChars_append (a b : List Char) :
    visChars (a ++ b) = visChars a ++ visChars b := by
  simp [visChars, List.filter_append]

theorem visChars_all_ws {W : List Char} (h : ∀ w ∈ W, isWsB w = true) :
    visChars W = [] := by
  induction W with
  | nil => rfl
  | cons w W' ih =>
      rw [visChars_cons_ws W' (h w (List.mem_cons_self w W'))]
      exact ih (fun x hx => h x (List.mem_cons_of_mem w hx))

theorem visChars_ws_append {W rest : List Char} (h : ∀ w ∈ W, isWsB w = true) :
    visChars (W ++ rest) = visChars rest := by
  rw [visChars_append, visChars_all_ws h, List.nil_append]

theorem visChars_dropWhile (l : List Char) :
    visChars (l.dropWhile isWsB) = visChars l := by
  conv_rhs => rw [← List.takeWhile_append_dropWhile (p := isWsB) (l := l)]
  rw [visChars_ws_append (fun w hw => List.mem_takeWhile_imp hw)]

theorem visChars_dropWhile_nl (l : List Char) :
    visChars (l.dropWhile (fun d => d == '\n')) = visChars l := by
  conv_rhs => rw [← List.takeWhile_append_dropWhile
    (p := fun d => d == '\n') (l := l)]
  rw [visChars_ws_append]
  intro w hw
  have h1 := List.mem_takeWhile_imp hw
  have h2 : w = '\n' := by simpa using h1
  rw [h2]
  decide

theorem mem_of_mem_takeWhile {α : Type} {p : α → Bool} {l : List α} {x : α}
    (h : x ∈ l.takeWhile p) : x ∈ l := by
  have hs := List.takeWhile_append_dropWhile (p := p) (l := l)
  rw [← hs]
  exact List.mem_append_left _ h

theorem visChars_keepFromLastNl {run : List Char}
    (h : ∀ w ∈ run, isWsB w = true) :
    visChars (keepFromLastNl run) = [] := by
  rw [keepFromLastNl]
  by_cases hc : run.contains '\n'
  · rw [if_pos hc, visChars_cons_ws _ (by decide)]
    refine visChars_all_ws ?_
    intro x hx
    have hx2 : x ∈ run.reverse.takeWhile (fun c => !(c == '\n')) :=
      List.mem_reverse.mp hx
    have hx3 : x ∈ run.reverse := mem_of_mem_takeWhile hx2
    exact h x (List.mem_reverse.mp hx3)
  · rw [if_neg hc]
    exact visChars_all_ws h

theorem visChars_wsrts : ∀ fuel l, l.length ≤ fuel →
    visChars (wsRunsToSpace l) = visChars l := by
  intro fuel
  induction fuel with
  | zero =>
      intro l hl
      have hl0 : l = [] := List.length_eq_zero.mp (by omega)
      subst hl0
      rw [wsrts_nil]
  | succ n ih =>
      intro l hl
      cases l with
      | nil => rw [wsrts_nil]
      | cons c cs =>
          have hcslen : cs.length ≤ n := by simp only [List.length_cons] at hl; omega
          by_cases hw : isWsB c
          · rw [wsrts_cons_ws hw, visChars_cons_ws _ (by decide),
              visChars_cons_ws _ hw,
              ih (cs.dropWhile isWsB) (le_trans (dropWhileLen isWsB cs) hcslen),
              visChars_dropWhile]
          · have hwf : isWsB c = false := by simpa using hw
            rw [wsrts_cons_nonws hwf, visChars_cons_nonws _ hwf,
              visChars_cons_nonws _ hwf, ih cs hcslen]

theorem visChars_tgc : ∀ fuel l, l.length ≤ fuel →
    visChars (tagGapClose l) = visChars l := by
  intro fuel
  induction fuel with
  | zero =>
      intro l hl
      have hl0 : l = [] := List.length_eq_zero.mp (by omega)
      subst hl0
      rw [tgc_nil]
  | succ n ih =>
      intro l hl
      cases l with
      | nil => rw [tgc_nil]
      | cons c cs =>
          have hcslen : cs.length ≤ n := by simp only [List.length_cons] at hl; omega
          have hcons : ∀ t : List Char, tagGapClose (c :: cs) = c :: t →
              visChars t = visChars cs → visChars (tagGapClose (c :: cs)) =
                visChars (c :: cs) := by
            intro t ht hvt
            rw [ht]
            by_cases hw : isWsB c
            · rw [visChars_cons_ws _ hw, visChars_cons_ws _ hw, hvt]
            · have hwf : isWsB c = false := by simpa using hw
              rw [visChars_cons_nonws _ hwf, visChars_cons_nonws _ hwf, hvt]
          cases hdc : cs.dropWhile isWsB with
          | nil => exact hcons _ (tgc_cons_nil hdc) (ih cs hcslen)
          | cons d r2 =>
              by_cases hcond : c = '>' ∧ cs.takeWhile isWsB ≠ [] ∧ d = '<'
              · have hr2len : r2.length ≤ n := by
                  have h1 := dropWhileLen isWsB cs
                  rw [hdc] at h1
                  simp only [List.length_cons] at h1
                  omega
                rw [tgc_cons_match hdc hcond]
                obtain ⟨hc1, -, hc3⟩ := hcond
                subst hc1
                subst hc3
                rw [visChars_cons_nonws _ (by decide),
                  visChars_cons_nonws _ (by decide), ih r2 hr2len,
                  visChars_cons_nonws _ (by decide)]
                conv_rhs => rw [← List.takeWhile_append_dropWhile (p := isWsB) (l := cs)]
                rw [hdc, visChars_ws_append (fun w hw => List.mem_takeWhile_imp hw),
                  visChars_cons_nonws _ (by decide)]
              · exact hcons _ (tgc_cons_neg hdc hcond) (ih cs hcslen)

theorem visChars_cons_congr {c : Char} {t u : List Char}
    (h : visChars t = visChars u) :
    visChars (c :: t) = visChars (c :: u) := by
  by_cases hw : isWsB c
  · rw [visChars_cons_ws _ hw, visChars_cons_ws _ hw, h]
  · have hwf : isWsB c = false := by simpa using hw
    rw [visChars_cons_nonws _ hwf, visChars_cons_nonws _ hwf, h]

theorem visChars_lls : ∀ fuel b l, l.length ≤ fuel →
    visChars (lineLeadStrip b l) = visChars l := by
  intro fuel
  induction fuel with
  | zero =>
      intro b l hl
      have hl0 : l = [] := List.length_eq_zero.mp (by omega)
      subst hl0
      rw [lls_nil]
  | succ n ih =>
      intro b l hl
      cases l with
      | nil => rw [lls_nil]
      | cons c cs =>
          have hcslen : cs.length ≤ n := by simp only [List.length_cons] at hl; omega
          by_cases hco : b = true ∧ isWsB c = true
          · obtain ⟨rfl, hw⟩ := hco
            rw [lls_true_ws hw,
              ih false (cs.dropWhile isWsB) (le_trans (dropWhileLen isWsB cs) hcslen),
              visChars_dropWhile, visChars_cons_ws _ hw]
          · rw [lls_cons_neg hco]
            exact visChars_cons_congr (ih (c == '\n') cs hcslen)

theorem visChars_lts : ∀ fuel l, l.length ≤ fuel →
    visChars (lineTrailStrip l) = visChars l := by
  intro fuel
  induction fuel with
  | zero =>
      intro l hl
      have hl0 : l = [] := List.length_eq_zero.mp (by omega)
      subst hl0
      rw [lts_nil]
  | succ n ih =>
      intro l hl
      cases l with
      | nil => rw [lts_nil]
      | cons c cs =>
          have hcslen : cs.length ≤ n := by simp only [List.length_cons] at hl; omega
          by_cases hw : isWsB c
          · cases hdc : (c :: cs).dropWhile isWsB with
            | nil =>
                rw [lts_cons_ws_nil hw hdc,
                  visChars_all_ws (dropWhile_nil_all hdc), visChars_nil]
            | cons r rest' =>
                have hdc' := hdc
                rw [List.dropWhile_cons, if_pos hw] at hdc'
                have hrlen : (r :: rest').length ≤ n := by
                  have h1 := dropWhileLen isWsB cs
                  rw [hdc'] at h1
                  omega
                have htkws : ∀ w ∈ (c :: cs).takeWhile isWsB, isWsB w = true :=
                  fun w hw2 => List.mem_takeWhile_imp hw2
                rw [lts_cons_ws_cons hw hdc, visChars_append,
                  visChars_keepFromLastNl htkws, List.nil_append,
                  ih (r :: rest') hrlen]
                conv_rhs => rw [← List.takeWhile_append_dropWhile
                  (p := isWsB) (l := c :: cs)]
                rw [hdc, visChars_ws_append htkws]
          · have hwf : isWsB c = false := by simpa using hw
            rw [lts_cons_nonws hwf]
            exact visChars_cons_congr (ih cs hcslen)

theorem visChars_nlc : ∀ fuel l, l.length ≤ fuel →
    visChars (nlRunsCollapse l) = visChars l := by
  intro fuel
  induction fuel with
  | zero =>
      intro l hl
      have hl0 : l = [] := List.length_eq_zero.mp (by omega)
      subst hl0
      rw [nlc_nil]
  | succ n ih =>
      intro l hl
      cases l with
      | nil => rw [nlc_nil]
      | cons c cs =>
          have hcslen : cs.length ≤ n := by simp only [List.length_cons] at hl; omega
          by_cases hc : c = '\n'
          · subst hc
            have heq : nlRunsCollapse ('\n' :: cs) =
                '\n' :: nlRunsCollapse (cs.dropWhile (fun d => d == '\n')) := by
              rw [nlRunsCollapse, if_pos rfl]
            rw [heq, visChars_cons_ws _ (by decide),
              ih (cs.dropWhile (fun d => d == '\n'))
                (le_trans (dropWhileLen (fun d => d == '\n') cs) hcslen),
              visChars_dropWhile_nl, visChars_cons_ws _ (by decide)]
          · rw [nlc_cons_ne hc]
            exact visChars_cons_congr (ih cs hcslen)

theorem visChars_bt : ∀ fuel l, l.length ≤ fuel →
    visChars (blockTagTighten l) = visChars l := by
  intro fuel
  induction fuel with
  | zero =>
      intro l hl
      have hl0 : l = [] := List.length_eq_zero.mp (by omega)
      subst hl0
      rw [bt_nil]
  | succ n ih =>
      intro l hl
      cases l with
      | nil => rw [bt_nil]
      | cons c cs =>
          have hcslen : cs.length ≤ n := by simp only [List.length_cons] at hl; omega
          cases hmb : matchBlockTag ((c :: cs).dropWhile isWsB) with
          | some p =>
              obtain ⟨tk, r2⟩ := p
              have htok := matchBlockTag_token hmb
              have hlen : (r2.dropWhile isWsB).length ≤ n := by
                have h1 := dropWhileLen isWsB r2
                have h2 : r2.length < ((c :: cs).dropWhile isWsB).length := by
                  rw [(matchBlockTag_eq hmb).1, List.length_append]
                  obtain ⟨t, htkeq⟩ := tagToken_head htok
                  rw [htkeq]
                  simp
                have h3 := dropWhileLen isWsB (c :: cs)
                simp only [List.length_cons] at h3 hl
                omega
              rw [bt_cons_some hmb, visChars_append,
                ih (r2.dropWhile isWsB) hlen, visChars_dropWhile]
              conv_rhs => rw [← List.takeWhile_append_dropWhile
                (p := isWsB) (l := c :: cs)]
              rw [(matchBlockTag_eq hmb).1,
                visChars_ws_append (fun w hw2 => List.mem_takeWhile_imp hw2),
                visChars_append]
          | none =>
              rw [bt_cons_none hmb]
              exact visChars_cons_congr (ih cs hcslen)

/-- The whole chain deletes only whitespace: the visible characters of the
output are exactly those of the input, in order. -/
theorem visChars_collapseWs (l : List Char) :
    visChars (collapseWs l) = visChars l := by
  rw [collapseWs, visChars_bt _ _ le_rfl, visChars_nlc _ _ le_rfl,
    visChars_lts _ _ le_rfl, visChars_lls _ _ _ le_rfl,
    visChars_tgc _ _ le_rfl, visChars_wsrts _ _ le_rfl]

/-- The same at the `String` level. -/
theorem visChars_collapseWsStr (s : String) :
    visChars (collapseWsStr s).data = visChars s.data :=
  visChars_collapseWs s.data

/-- Exact characterization of the chain's fixed points: a string is
unchanged by the whitespace chain precisely when all its whitespace is
isolated single spaces away from both ends and from any `>` `<` boundary,
and the block-tag pass has nothing left to tighten.  Together with
idempotence this identifies the image of `collapseWs`. -/
theorem collapseWs_fixed_iff (l : List Char) :
    collapseWs l = l ↔
      SpaceOnly l ∧ noAdjWs l = true ∧ noGtWsLt l = true ∧ HeadNonWs l ∧
        NoTrailWs l ∧ blockTagTighten l = l := by
  constructor
  · intro hfix
    have himg := collapseWs_image l
    rw [hfix] at himg
    obtain ⟨h1, h2, h3, h4, h5⟩ := himg
    refine ⟨h1, h2, h3, h4, h5, ?_⟩
    conv_lhs => rw [← hfix]
    rw [collapseWs, bt_idem_fuel _ _ le_rfl]
    exact hfix
  · intro h
    obtain ⟨h1, h2, h3, h4, h5, h6⟩ := h
    rw [collapseWs_eq_bt h1 h2 h3 h4 h5, h6]

/-! ### Concrete example subtrees used by the claims -/

/-- The subtree of the C3 scenario: an svg element (with a descendant) that
carries inline `class`/`style` attributes, next to a sibling div with
`class="x" style="y"`. -/
def c3Input : Node :=
  .elem "section" []
    [ .elem "svg" [("class", "chart"), ("style", "fill:red")]
        [ .elem "rect" [("class", "node"), ("style", "stroke:blue")] [] ],
      .elem "div" [("class", "x"), ("style", "y")] [.text "hello"] ]

/-- What the code actually produces for `c3Input`: `class`/`style` stripped
from the svg and its descendants as well as from the div. -/
def c3Stripped : Node :=
  .elem "section" []
    [ .elem "svg" [] [ .elem "rect" [] [] ],
      .elem "div" [] [.text "hello"] ]

/-- What the claim says the output is: the svg subtree's `class`/`style`
preserved verbatim, only the div stripped. -/
def c3Claimed : Node :=
  .elem "section" []
    [ .elem "svg" [("class", "chart"), ("style", "fill:red")]
        [ .elem "rect" [("class", "node"), ("style", "stroke:blue")] [] ],
      .elem "div" [] [.text "hello"] ]

/-- The hyperlink example of C7. -/
def c7Input : Node :=
  .elem "section" [] [.elem "a" [("href", "/x")] [.text "Acme Corp"]]

/-- Its sanitized form: the anchor replaced by a bare text node. -/
def c7Output : Node := .elem "section" [] [.text "Acme Corp"]

/-- A hyperlink with empty text content. -/
def c7EmptyInput : Node :=
  .elem "section" [] [.elem "a" [("href", "/x")] []]

/-- Its sanitized form: the anchor dropped entirely. -/
def c7EmptyOutput : Node := .elem "section" [] []

/-- A queue state after one `enqueue` on a fresh queue. -/
def qEx1 : QState := ⟨[0], [], false, [0], [], []⟩

/-- A queue state after one `enqueue` and one `start` on a fresh queue. -/
def qEx2 : QState := ⟨[], [0], true, [0], [0], []⟩

/-! #### Declarative run semantics of the scanners

The regex `/\s+/g` with replacement `' '` means: each maximal whitespace
run becomes one space, other characters are copied.  The three rewrite
rules below say exactly that (maximality is the non-whitespace head of the
remainder), and the uniqueness theorem shows `wsRunsToSpace` is the only
function satisfying them — the scanner is a sound and complete
implementation of the regex.  The analogous facts follow for `/\n+/g` and
for the `>`-gap rule of `/>\s+</g`. -/

theorem takeWhile_ws_append {W t : List Char} (hW : ∀ w ∈ W, isWsB w = true)
    (ht : HeadNonWs t) : (W ++ t).takeWhile isWsB = W := by
  induction W with
  | nil =>
      rw [List.nil_append]
      cases t with
      | nil => rfl
      | cons c cs => simp [List.takeWhile_cons, ht c cs rfl]
  | cons w W' ih =>
      rw [List.cons_append, List.takeWhile_cons, hW w (List.mem_cons_self w W')]
      simp only [if_true]
      rw [ih (fun x hx => hW x (List.mem_cons_of_mem w hx))]

theorem dropWhile_all_append {α : Type} {p : α → Bool} {W rest : List α}
    (h : ∀ w ∈ W, p w = true) (hrest : rest.dropWhile p = rest) :
    (W ++ rest).dropWhile p = rest := by
  induction W with
  | nil => rw [List.nil_append]; exact hrest
  | cons w W' ih =>
      rw [List.cons_append, List.dropWhile_cons, h w (List.mem_cons_self w W')]
      simp only [if_true]
      exact ih (fun x hx => h x (List.mem_cons_of_mem w hx))

theorem wsrts_run {W t : List Char} (hW : W ≠ [])
    (hWws : ∀ w ∈ W, isWsB w = true) (ht : HeadNonWs t) :
    wsRunsToSpace (W ++ t) = ' ' :: wsRunsToSpace t := by
  cases W with
  | nil => exact absurd rfl hW
  | cons w W' =>
      rw [List.cons_append,
        wsrts_cons_ws (hWws w (List.mem_cons_self w W')),
        dropWhile_ws_append (fun x hx => hWws x (List.mem_cons_of_mem w hx)),
        dropWhile_of_headNonWs ht]

theorem wsrts_unique (f : List Char → List Char)
    (hnil : f [] = [])
    (hvis : ∀ c t, isWsB c = false → f (c :: t) = c :: f t)
    (hrun : ∀ W t, W ≠ [] → (∀ w ∈ W, isWsB w = true) → HeadNonWs t →
      f (W ++ t) = ' ' :: f t) :
    ∀ l, f l = wsRunsToSpace l := by
  have main : ∀ n l, l.length ≤ n → f l = wsRunsToSpace l := by
    intro n
    induction n with
    | zero =>
        intro l hl
        have hl0 : l = [] := List.length_eq_zero.mp (by omega)
        subst hl0
        rw [hnil, wsrts_nil]
    | succ n ih =>
        intro l hl
        cases l with
        | nil => rw [hnil, wsrts_nil]
        | cons c cs =>
            have hcslen : cs.length ≤ n := by
              simp only [List.length_cons] at hl; omega
            by_cases hw : isWsB c
            · have hsplit := List.takeWhile_append_dropWhile
                (p := isWsB) (l := c :: cs)
              have hWne : (c :: cs).takeWhile isWsB ≠ [] := by
                rw [List.takeWhile_cons, if_pos hw]
                simp
              have hWws : ∀ w ∈ (c :: cs).takeWhile isWsB, isWsB w = true :=
                fun w hw2 => List.mem_takeWhile_imp hw2
              have hlen2 : ((c :: cs).dropWhile isWsB).length ≤ n := by
                have h1 : (c :: cs).dropWhile isWsB = cs.dropWhile isWsB := by
                  rw [List.dropWhile_cons, if_pos hw]
                rw [h1]
                exact le_trans (dropWhileLen isWsB cs) hcslen
              calc f (c :: cs) = f ((c :: cs).takeWhile isWsB ++
                    (c :: cs).dropWhile isWsB) := by rw [hsplit]
                _ = ' ' :: f ((c :: cs).dropWhile isWsB) :=
                    hrun _ _ hWne hWws (headNonWs_dropWhile _)
                _ = ' ' :: wsRunsToSpace ((c :: cs).dropWhile isWsB) := by
                    rw [ih _ hlen2]
                _ = wsRunsToSpace ((c :: cs).takeWhile isWsB ++
                    (c :: cs).dropWhile isWsB) :=
                    (wsrts_run hWne hWws (headNonWs_dropWhile _)).symm
                _ = wsRunsToSpace (c :: cs) := by rw [hsplit]
            · have hwf : isWsB c = false := by simpa using hw
              rw [hvis c cs hwf, wsrts_cons_nonws hwf, ih cs hcslen]
  exact fun l => main l.length l le_rfl

/-- The `/\n+/g` rule: a maximal newline run becomes one newline. -/
theorem nlc_run {W t : List Char} (hW : W ≠ [])
    (hWnl : ∀ w ∈ W, w = '\n')
    (ht : ∀ c t', t = c :: t' → ¬ c = '\n') :
    nlRunsCollapse (W ++ t) = '\n' :: nlRunsCollapse t := by
  cases W with
  | nil => exact absurd rfl hW
  | cons w W' =>
      have hw : w = '\n' := hWnl w (List.mem_cons_self w W')
      subst hw
      rw [List.cons_append]
      have heq : nlRunsCollapse ('\n' :: (W' ++ t)) =
          '\n' :: nlRunsCollapse ((W' ++ t).dropWhile (fun d => d == '\n')) := by
        rw [nlRunsCollapse, if_pos rfl]
      rw [heq]
      have hdw : (W' ++ t).dropWhile (fun d => d == '\n') = t := by
        refine dropWhile_all_append ?_ ?_
        · intro x hx
          have hx2 := hWnl x (List.mem_cons_of_mem _ hx)
          simp [hx2]
        · cases t with
          | nil => rfl
          | cons c t' =>
              rw [List.dropWhile_cons]
              simp [ht c t' rfl]
      rw [hdw]

/-- The `/>\s+</g` rule: a non-empty whitespace run strictly between `>`
and `<` disappears. -/
theorem tgc_gap {W t : List Char} (hW : W ≠ [])
    (hWws : ∀ w ∈ W, isWsB w = true) :
    tagGapClose ('>' :: (W ++ ('<' :: t))) = '>' :: '<' :: tagGapClose t := by
  cases W with
  | nil => exact absurd rfl hW
  | cons w W' =>
      have hWws' : ∀ x ∈ W', isWsB x = true :=
        fun x hx => hWws x (List.mem_cons_of_mem w hx)
      have hdw : (w :: W' ++ ('<' :: t)).dropWhile isWsB = '<' :: t := by
        rw [List.cons_append, List.dropWhile_cons,
          hWws w (List.mem_cons_self w W')]
        simp only [if_true]
        rw [dropWhile_ws_append hWws', dropWhile_cons_nonws (by decide)]
      have htw : (w :: W' ++ ('<' :: t)).takeWhile isWsB ≠ [] := by
        rw [List.cons_append, List.takeWhile_cons,
          hWws w (List.mem_cons_self w W')]
        simp
      exact tgc_cons_match hdw ⟨rfl, htw, rfl⟩

/-- `tagGapClose` is the only function satisfying the declarative reading
of `/>\s+</g` with `'><'`: close every whitespace gap sitting between `>`
and `<` (resuming after the `<`), copy everything else. -/
theorem tgc_unique (f : List Char → List Char)
    (hnil : f [] = [])
    (hgap : ∀ W t, W ≠ [] → (∀ w ∈ W, isWsB w = true) →
      f ('>' :: (W ++ ('<' :: t))) = '>' :: '<' :: f t)
    (hcopy : ∀ c cs,
      ¬ (c = '>' ∧ ∃ W t, cs = W ++ ('<' :: t) ∧ W ≠ [] ∧
          (∀ w ∈ W, isWsB w = true)) →
      f (c :: cs) = c :: f cs) :
    ∀ l, f l = tagGapClose l := by
  have main : ∀ n l, l.length ≤ n → f l = tagGapClose l := by
    intro n
    induction n with
    | zero =>
        intro l hl
        have hl0 : l = [] := List.length_eq_zero.mp (by omega)
        subst hl0
        rw [hnil, tgc_nil]
    | succ n ih =>
        intro l hl
        cases l with
        | nil => rw [hnil, tgc_nil]
        | cons c cs =>
            have hcslen : cs.length ≤ n := by
              simp only [List.length_cons] at hl; omega
            by_cases hcond : c = '>' ∧ ∃ W t, cs = W ++ ('<' :: t) ∧ W ≠ [] ∧
                (∀ w ∈ W, isWsB w = true)
            · obtain ⟨rfl, W, t, rfl, hWne, hWws⟩ := hcond
              have htlen : t.length ≤ n := by
                cases W with
                | nil => exact absurd rfl hWne
                | cons w W' =>
                    simp only [List.length_cons, List.length_append] at hl ⊢
                    omega
              have hhd : HeadNonWs ('<' :: t) := by
                intro c' t' h'
                obtain rfl : ('<' : Char) = c' := (List.cons.injEq .. ▸ h').1
                decide
              have hdw : (W ++ ('<' :: t)).dropWhile isWsB = '<' :: t := by
                rw [dropWhile_ws_append hWws, dropWhile_cons_nonws (by decide)]
              have htk : (W ++ ('<' :: t)).takeWhile isWsB ≠ [] := by
                rw [takeWhile_ws_append hWws hhd]
                exact hWne
              rw [hgap W t hWne hWws, ih t htlen,
                tgc_cons_match hdw ⟨rfl, htk, rfl⟩]
            · rw [hcopy c cs hcond, ih cs hcslen]
              cases hdc : cs.dropWhile isWsB with
              | nil => rw [tgc_cons_nil hdc]
              | cons d r2 =>
                  refine (tgc_cons_neg hdc ?_).symm
                  intro ⟨hc1, hc2, hc3⟩
                  refine hcond ⟨hc1, cs.takeWhile isWsB, r2, ?_, hc2, ?_⟩
                  · conv_lhs => rw [← List.takeWhile_append_dropWhile
                      (p := isWsB) (l := cs)]
                    rw [hdc, hc3]
                  · exact fun w hw => List.mem_takeWhile_imp hw
  exact fun l => main l.length l le_rfl

/-- `nlRunsCollapse` is the only function satisfying the declarative
reading of `/\n+/g` with `'\n'`: each maximal newline run becomes one
newline, everything else is copied. -/
theorem nlc_unique (f : List Char → List Char)
    (hnil : f [] = [])
    (hvis : ∀ c t, ¬ c = '\n' → f (c :: t) = c :: f t)
    (hrun : ∀ W t, W ≠ [] → (∀ w ∈ W, w = '\n') →
      (∀ c t', t = c :: t' → ¬ c = '\n') → f (W ++ t) = '\n' :: f t) :
    ∀ l, f l = nlRunsCollapse l := by
  have main : ∀ n l, l.length ≤ n → f l = nlRunsCollapse l := by
    intro n
    induction n with
    | zero =>
        intro l hl
        have hl0 : l = [] := List.length_eq_zero.mp (by omega)
        subst hl0
        rw [hnil, nlc_nil]
    | succ n ih =>
        intro l hl
        cases l with
        | nil => rw [hnil, nlc_nil]
        | cons c cs =>
            have hcslen : cs.length ≤ n := by
              simp only [List.length_cons] at hl; omega
            by_cases hc : c = '\n'
            · subst hc
              have hsplit := List.takeWhile_append_dropWhile
                (p := fun d => d == '\n') (l := '\n' :: cs)
              have hWne : ('\n' :: cs).takeWhile (fun d => d == '\n') ≠ [] := by
                rw [List.takeWhile_cons]
                simp
              have hWnl : ∀ w ∈ ('\n' :: cs).takeWhile (fun d => d == '\n'),
                  w = '\n' := by
                intro w hw
                have := List.mem_takeWhile_imp hw
                simpa using this
              have hthd : ∀ c' t',
                  ('\n' :: cs).dropWhile (fun d => d == '\n') = c' :: t' →
                  ¬ c' = '\n' := by
                intro c' t' h' heq
                subst heq
                have h2 := List.head?_dropWhile_not (p := fun d => d == '\n')
                  (l := '\n' :: cs)
                rw [h'] at h2
                simp at h2
              have hdlen : (('\n' :: cs).dropWhile (fun d => d == '\n')).length ≤ n := by
                have h1 : ('\n' :: cs).dropWhile (fun d => d == '\n') =
                    cs.dropWhile (fun d => d == '\n') := by
                  rw [List.dropWhile_cons]
                  simp
                rw [h1]
                exact le_trans (dropWhileLen _ cs) hcslen
              have heqn : nlRunsCollapse ('\n' :: cs) =
                  '\n' :: nlRunsCollapse (cs.dropWhile (fun d => d == '\n')) := by
                rw [nlRunsCollapse, if_pos rfl]
              have hdweq : ('\n' :: cs).dropWhile (fun d => d == '\n') =
                  cs.dropWhile (fun d => d == '\n') := by
                rw [List.dropWhile_cons]
                simp
              calc f ('\n' :: cs)
                  = f (('\n' :: cs).takeWhile (fun d => d == '\n') ++
                      ('\n' :: cs).dropWhile (fun d => d == '\n')) := by
                    rw [hsplit]
                _ = '\n' :: f (('\n' :: cs).dropWhile (fun d => d == '\n')) :=
                    hrun _ _ hWne hWnl hthd
                _ = '\n' :: nlRunsCollapse
                      (('\n' :: cs).dropWhile (fun d => d == '\n')) := by
                    rw [ih _ hdlen]
                _ = nlRunsCollapse ('\n' :: cs) := by
                    rw [hdweq] at *
                    rw [heqn]
            · rw [hvis c cs hc, nlc_cons_ne hc, ih cs hcslen]
  exact fun l => main l.length l le_rfl

/-- With a non-whitespace (in particular non-newline) head, the
start-of-line flag makes no difference to the leading-strip scanner. -/
theorem lls_true_eq_false_of_headNonWs {t : List Char} (ht : HeadNonWs t) :
    lineLeadStrip true t = lineLeadStrip false t := by
  cases t with
  | nil => rw [lls_nil, lls_nil]
  | cons c cs =>
      have hc : isWsB c = false := ht c cs rfl
      rw [lls_cons_neg (fun hco => by rw [hc] at hco; exact absurd hco.2 (by simp)),
        lls_cons_neg (by intro hco; exact absurd hco.1 (by decide))]

/-- The `/^\s+/gm` rule at the start of the string: the maximal leading
whitespace run disappears (even if it spans newlines, as `\s` matches
them). -/
theorem lls_start_run {W t : List Char} (hWws : ∀ w ∈ W, isWsB w = true)
    (hW : W ≠ []) (ht : HeadNonWs t) :
    lineLeadStrip true (W ++ t) = lineLeadStrip false t := by
  cases W with
  | nil => exact absurd rfl hW
  | cons w W' =>
      rw [List.cons_append, lls_true_ws (hWws w (List.mem_cons_self w W')),
        dropWhile_ws_append (fun x hx => hWws x (List.mem_cons_of_mem w hx)),
        dropWhile_of_headNonWs ht]

/-- The `/^\s+/gm` rule after a newline: a whitespace run following a
newline disappears, because the position after the `\n` is a `^`
position. -/
theorem lls_after_nl {W t : List Char} (hWws : ∀ w ∈ W, isWsB w = true)
    (ht : HeadNonWs t) :
    lineLeadStrip false ('\n' :: (W ++ t)) =
      '\n' :: lineLeadStrip false t := by
  rw [lls_cons_neg (by intro hco; exact absurd hco.1 (by decide))]
  have hb : (('\n' : Char) == '\n') = true := by decide
  rw [hb]
  cases W with
  | nil =>
      rw [List.nil_append, lls_true_eq_false_of_headNonWs ht]
  | cons w W' =>
      rw [lls_start_run hWws (by simp) ht]

/-- The `/\s+$/gm` rule in the interior: within a whitespace run followed
by more text, the part up to the run's last newline disappears (each
position before a `\n` is a `$` position, and the global scan consumes
greedily from the first such position), while the rest of the run
survives. -/
theorem lts_run (W t : List Char) (hW : W ≠ [])
    (hWws : ∀ w ∈ W, isWsB w = true) (ht : HeadNonWs t) (htne : t ≠ []) :
    lineTrailStrip (W ++ t) = keepFromLastNl W ++ lineTrailStrip t := by
  cases W with
  | nil => exact absurd rfl hW
  | cons w W' =>
      cases t with
      | nil => exact absurd rfl htne
      | cons r rest' =>
          have hrw : isWsB r = false := ht r rest' rfl
          have hWws' : ∀ x ∈ W', isWsB x = true :=
            fun x hx => hWws x (List.mem_cons_of_mem w hx)
          have hwws : isWsB w = true := hWws w (List.mem_cons_self w W')
          have hdw : (w :: (W' ++ (r :: rest'))).dropWhile isWsB = r :: rest' := by
            rw [List.dropWhile_cons, hwws]
            simp only [if_true]
            rw [dropWhile_ws_append hWws', dropWhile_cons_nonws hrw]
          have htk : (w :: (W' ++ (r :: rest'))).takeWhile isWsB = w :: W' := by
            have := takeWhile_ws_append (W := w :: W') (t := r :: rest') hWws ht
            rw [List.cons_append] at this
            exact this
          rw [List.cons_append, lts_cons_ws_cons hwws hdw, htk]

/-- The `/\s+$/gm` rule at the end of the string: a whitespace run that
runs to the end of the string disappears entirely (the end of the string
is a `$` position). -/
theorem lts_end_run {W : List Char} (hWws : ∀ w ∈ W, isWsB w = true) :
    lineTrailStrip W = [] := by
  cases W with
  | nil => rw [lts_nil]
  | cons w W' =>
      refine lts_cons_ws_nil (hWws w (List.mem_cons_self w W')) ?_
      have h2 := @dropWhile_ws_append (w :: W') [] hWws
      simpa using h2

/-- `lineTrailStrip` is the only function satisfying the declarative
reading of `/\s+$/gm` with `''`: a whitespace run ending the string
disappears, an interior run keeps only its part from its last newline on,
and other characters are copied. -/
theorem lts_unique (f : List Char → List Char)
    (hnil : f [] = [])
    (hvis : ∀ c t, isWsB c = false → f (c :: t) = c :: f t)
    (hrun : ∀ W t, W ≠ [] → (∀ w ∈ W, isWsB w = true) → HeadNonWs t →
      t ≠ [] → f (W ++ t) = keepFromLastNl W ++ f t)
    (hend : ∀ W, W ≠ [] → (∀ w ∈ W, isWsB w = true) → f W = []) :
    ∀ l, f l = lineTrailStrip l := by
  have main : ∀ n l, l.length ≤ n → f l = lineTrailStrip l := by
    intro n
    induction n with
    | zero =>
        intro l hl
        have hl0 : l = [] := List.length_eq_zero.mp (by omega)
        subst hl0
        rw [hnil, lts_nil]
    | succ n ih =>
        intro l hl
        cases l with
        | nil => rw [hnil, lts_nil]
        | cons c cs =>
            have hcslen : cs.length ≤ n := by
              simp only [List.length_cons] at hl; omega
            by_cases hw : isWsB c
            · cases hdc : (c :: cs).dropWhile isWsB with
              | nil =>
                  rw [lts_cons_ws_nil hw hdc]
                  exact hend _ (by simp) (dropWhile_nil_all hdc)
              | cons r rest' =>
                  have hdc' := hdc
                  rw [List.dropWhile_cons, if_pos hw] at hdc'
                  have hrlen : (r :: rest').length ≤ n := by
                    have h1 := dropWhileLen isWsB cs
                    rw [hdc'] at h1
                    omega
                  have hWne : (c :: cs).takeWhile isWsB ≠ [] := by
                    rw [List.takeWhile_cons, if_pos hw]
                    simp
                  have hWws : ∀ w ∈ (c :: cs).takeWhile isWsB, isWsB w = true :=
                    fun w hw2 => List.mem_takeWhile_imp hw2
                  have hhd : HeadNonWs ((c :: cs).dropWhile isWsB) :=
                    headNonWs_dropWhile _
                  rw [hdc] at hhd
                  have hsplit := List.takeWhile_append_dropWhile
                    (p := isWsB) (l := c :: cs)
                  calc f (c :: cs)
                      = f ((c :: cs).takeWhile isWsB ++
                          (c :: cs).dropWhile isWsB) := by rw [hsplit]
                    _ = keepFromLastNl ((c :: cs).takeWhile isWsB) ++
                          f ((c :: cs).dropWhile isWsB) := by
                        rw [hdc]
                        exact hrun _ _ hWne hWws hhd (by simp)
                    _ = keepFromLastNl ((c :: cs).takeWhile isWsB) ++
                          lineTrailStrip (r :: rest') := by
                        rw [hdc, ih _ hrlen]
                    _ = lineTrailStrip (c :: cs) :=
                        (lts_cons_ws_cons hw hdc).symm
            · have hwf : isWsB c = false := by simpa using hw
              rw [hvis c cs hwf, lts_cons_nonws hwf, ih cs hcslen]
  exact fun l => main l.length l le_rfl

/-! #### Closed form of the middle passes

After pass 1 no newline survives, and on newline-free input pass 3 is
exactly trim-start, pass 4 exactly trim-end and pass 5 the identity, so the
whole chain has the plainly readable closed form below. -/

/-- Drop the leading whitespace run. -/
def trimStartWs (l : List Char) : List Char := l.dropWhile isWsB

/-- Drop the trailing whitespace run. -/
def trimEndWs (l : List Char) : List Char := (l.reverse.dropWhile isWsB).reverse

theorem trimEnd_unique {a s l : List Char} (hl : l = a ++ s)
    (hs : ∀ w ∈ s, isWsB w = true) (ha : NoTrailWs a) :
    trimEndWs l = a := by
  have hrev : (a.reverse).dropWhile isWsB = a.reverse := by
    cases har : a.reverse with
    | nil => rfl
    | cons x xs =>
        have hx : a.getLast? = some x := by
          rw [List.getLast?_eq_head?_reverse, har]
          rfl
        exact dropWhile_cons_nonws (ha x hx)
  rw [trimEndWs, hl, List.reverse_append,
    dropWhile_all_append (fun w hw => hs w (List.mem_reverse.mp hw)) hrev,
    List.reverse_reverse]

/-- On newline-free input, the trailing-run pass is exactly trim-end. -/
theorem lts_trimEnd {l : List Char} (hnl : '\n' ∉ l) :
    lineTrailStrip l = trimEndWs l := by
  obtain ⟨suf, hsw, hdec⟩ := lts_decomp l.length l le_rfl hnl
  exact (trimEnd_unique hdec hsw (noTrailWs_lts l.length l le_rfl hnl)).symm

theorem mem_trimEndWs {l : List Char} {x : Char} (h : x ∈ trimEndWs l) :
    x ∈ l := by
  rw [trimEndWs] at h
  have h1 : x ∈ l.reverse.dropWhile isWsB := List.mem_reverse.mp h
  exact List.mem_reverse.mp (mem_of_mem_dropWhile h1)

/-- The chain in closed form: normalize whitespace runs to single spaces,
close the `>` `<` gaps, trim both ends, tighten around block tags. -/
theorem collapseWs_closed_form (l : List Char) :
    collapseWs l = blockTagTighten (trimEndWs (trimStartWs
      (tagGapClose (wsRunsToSpace l)))) := by
  have h2so : SpaceOnly (tagGapClose (wsRunsToSpace l)) :=
    fun x hx hxw => spaceOnly_wsrts _ _ le_rfl x (mem_tgc _ _ le_rfl x hx) hxw
  have h2nl : '\n' ∉ tagGapClose (wsRunsToSpace l) := spaceOnly_noNl h2so
  have h3nl : '\n' ∉ trimStartWs (tagGapClose (wsRunsToSpace l)) :=
    fun hm => h2nl (mem_of_mem_dropWhile hm)
  have h4nl : '\n' ∉ trimEndWs (trimStartWs (tagGapClose (wsRunsToSpace l))) :=
    fun hm => h3nl (mem_trimEndWs hm)
  rw [collapseWs, lls_true_noNl _ h2nl]
  rw [show (tagGapClose (wsRunsToSpace l)).dropWhile isWsB =
    trimStartWs (tagGapClose (wsRunsToSpace l)) from rfl]
  rw [lts_trimEnd h3nl, nlc_id _ h4nl]

/-- The scaled keystroke delay lies between `⌊min/8⌋` and `⌊(max+1)/8⌋` for
every draw in `[0, 1)`. -/
theorem keystrokeDelay_bounds (tmin tmax : ℤ) (r : ℚ) (h0 : 0 ≤ r)
    (h1 : r < 1) (hm : tmin ≤ tmax) :
    Int.floor ((tmin : ℚ) / 8) ≤ keystrokeDelay tmin tmax r ∧
    keystrokeDelay tmin tmax r ≤ Int.floor (((tmax : ℚ) + 1) / 8) := by
  have hspan : (0 : ℚ) ≤ (tmax : ℚ) - (tmin : ℚ) + 1 := by
    have hc : (tmin : ℚ) ≤ (tmax : ℚ) := by exact_mod_cast hm
    linarith
  constructor
  · apply Int.floor_le_floor
    apply div_le_div_of_nonneg_right ?_ (by norm_num : (0 : ℚ) ≤ 8)
    nlinarith
  · apply Int.floor_le_floor
    apply div_le_div_of_nonneg_right ?_ (by norm_num : (0 : ℚ) ≤ 8)
    nlinarith

/-- In every `typeHumanLike` trace — whatever the target kind and the text
length — every per-keystroke delay event carries a delay within the scaled
bounds. -/
theorem typeHumanLike_delays_bounded (sel : String) (txt : List Char)
    (rs : List ℚ) (tmin tmax : ℤ) (hm : tmin ≤ tmax)
    (hr : ∀ r ∈ rs, 0 ≤ r ∧ r < 1) :
    ∀ ev ∈ typeHumanLike sel txt rs tmin tmax, ∀ c w,
      ev = TypeEv.injectChar c w ∨ ev = TypeEv.typeChar c w →
      Int.floor ((tmin : ℚ) / 8) ≤ w ∧ w ≤ Int.floor (((tmax : ℚ) + 1) / 8) := by
  intro ev hev c w hcw
  simp only [typeHumanLike, List.mem_append, List.mem_cons, List.not_mem_nil,
    or_false, List.mem_map] at hev
  rcases hev with (rfl | ⟨p, hp, rfl⟩) | rfl
  · rcases hcw with h | h <;> cases h
  · have hrp : 0 ≤ p.2 ∧ p.2 < 1 := hr p.2 (List.of_mem_zip hp).2
    by_cases hx : isXPathSel sel
    · rw [if_pos hx] at hcw
      rcases hcw with h | h
      · cases h
        exact keystrokeDelay_bounds tmin tmax p.2 hrp.1 hrp.2 hm
      · cases h
    · rw [if_neg hx] at hcw
      rcases hcw with h | h
      · cases h
      · cases h
        exact keystrokeDelay_bounds tmin tmax p.2 hrp.1 hrp.2 hm
  · rcases hcw with h | h <;> cases h

/-- The non-short-circuited login paths: a successful run performs exactly
the six-step procedure in source order and sets `isLoggedIn`; a failing run
performs the steps it reached, clears `isLoggedIn` and propagates the
error. -/
theorem loginRun_paths {s : SState} (h : s.isLoggedIn = false) :
    loginRun s .ok = (⟨s.browser, true⟩, loginSteps, false) ∧
    ∀ evs, loginRun s (.fail evs) = (⟨s.browser, false⟩, evs, true) := by
  constructor
  · simp [loginRun, h]
  · intro evs
    simp [loginRun, h]

/-- FIFO corollary: in every reachable state, the settle history is a
prefix of the submission history — results are delivered in exactly the
order the tasks were enqueued. -/
theorem queue_settled_prefix {s : QState} (h : QReach s) :
    List.IsPrefix s.settled s.enqueued := by
  obtain ⟨-, -, hst, henq⟩ := qInv_reach h
  exact ⟨s.running ++ s.pending, by rw [henq, hst, List.append_assoc]⟩

/-- The queue never stalls: in any reachable state with work outstanding
(a pending task or one in flight), some step is enabled — the `finally`
re-invocation of `processNext` and the `enqueue`-triggered invocation
together never leave work stuck. -/
theorem queue_no_stall {s : QState} (h : QReach s)
    (hw : s.pending ≠ [] ∨ s.running ≠ []) : ∃ s', QStep s s' := by
  obtain ⟨hflag, -, -, -⟩ := qInv_reach h
  cases hp : s.processing with
  | true =>
      have hr : s.running ≠ [] := hflag.mp hp
      cases hrun : s.running with
      | nil => exact absurd hrun hr
      | cons t rest => exact ⟨_, QStep.finish s t rest hrun⟩
  | false =>
      have hr : s.running = [] := by
        by_contra hne
        rw [hflag.mpr hne] at hp
        cases hp
      have hpend : s.pending ≠ [] := by
        rcases hw with h1 | h1
        · exact h1
        · exact absurd hr h1
      cases hq : s.pending with
      | nil => exact absurd hq hpend
      | cons t rest => exact ⟨_, QStep.start s t rest hp hq⟩

/-- A cleanTree run on a composite subtree exercising every pass at once:
the script and style elements disappear, the anchor becomes its text, the
image is dropped, the svg stays but loses its `class`, the div keeps only
its harmless attribute, and the root's own attributes survive
(`querySelectorAll` never returns the clone root itself). -/
theorem cleanTree_example :
    cleanTree (.elem "section" [("id", "main")]
      [.elem "script" [] [.text "var x = 1;"],
       .elem "style" [] [.text ".a \x7b color: red \x7d"],
       .elem "div" [("class", "x"), ("style", "y"), ("data-n", "1")]
         [.elem "a" [("href", "/x")] [.text "Acme Corp"],
          .elem "img" [("src", "/i.png")] [],
          .elem "svg" [("class", "diagram"), ("viewBox", "0 0 1 1")]
            [.elem "path" [("d", "M0 0"), ("style", "stroke:red")] []]]]) =
    .elem "section" [("id", "main")]
      [.elem "div" [("data-n", "1")]
         [.text "Acme Corp",
          .elem "svg" [("viewBox", "0 0 1 1")]
            [.elem "path" [("d", "M0 0")] []]]] := rfl

/-! ### Claim theorems -/

/-- C1: for every sequence of tasks enqueued on one `Queue` instance, at
most one task is executing at any instant (`running` never holds two
tasks, and `processing` is set exactly while one is in flight), and tasks
are started, and their deferred results settled, in strict FIFO submission
order: in every reachable state the submission history is the start history
followed by the pending list, and the start history is the settle history
followed by the in-flight task. -/
theorem claim_c1_queue_serial_fifo {s : QState} (h : QReach s) :
    s.running.length ≤ 1 ∧
    (s.processing = true ↔ s.running ≠ []) ∧
    s.enqueued = s.started ++ s.pending ∧
    s.started = s.settled ++ s.running := by
  obtain ⟨hf, hl, hs, he⟩ := qInv_reach h
  exact ⟨hl, hf, he, hs⟩

/-- C1 witness: the invariant evaluated in the concrete reachable state
after one `enqueue` and one `start`. -/
theorem claim_c1_queue_serial_fifo_witness :
    qEx2.running.length ≤ 1 ∧
    (qEx2.processing = true ↔ qEx2.running ≠ []) ∧
    qEx2.enqueued = qEx2.started ++ qEx2.pending ∧
    qEx2.started = qEx2.settled ++ qEx2.running :=
  claim_c1_queue_serial_fifo
    (QReach.step (QReach.step QReach.init (QStep.enqueue qInit))
      (QStep.start qEx1 0 [] rfl rfl))

/-- C2: for every scrape operation and every failing attempt: below the
retry ceiling the operation closes the browser (`this.close()`), relaunches
it (`this.initialize()`) and recurses with the counter incremented by one;
with the ceiling exhausted the attempt's error is surfaced unchanged; if
every attempt fails, the caller receives exactly the error of the final
attempt (number `maxR`); and the number of attempts is bounded by
`maxR + 1 - k`.  (`opRun` is a total function, so the recursion
terminates.) -/
theorem claim_c2_retry_policy {E A : Type} (maxR : Nat) (att : Nat → Except E A)
    (k : Nat) (e : E) (hk : att k = .error e) :
    (k < maxR → opRun maxR att k =
      ([.pageOpen, .attemptRun k, .pageClose, .browserReset, .browserRelaunch]
          ++ (opRun maxR att (k + 1)).1,
       (opRun maxR att (k + 1)).2)) ∧
    (maxR ≤ k →
      opRun maxR att k = ([.pageOpen, .attemptRun k, .pageClose, .raise], .error e)) ∧
    (∀ es : Nat → E, (∀ j, att j = .error (es j)) →
      (opRun maxR att 0).2 = .error (es maxR)) ∧
    (k ≤ maxR → countAttempts (opRun maxR att k).1 ≤ maxR + 1 - k) ∧
    (∀ j a, att j = .ok a →
      opRun maxR att j = ([.pageOpen, .attemptRun j, .pageClose, .retOk], .ok a)) ∧
    (∀ i a, ∀ es : Nat → E, i ≤ maxR → (∀ j, j < i → att j = .error (es j)) →
      att i = .ok a →
      (opRun maxR att 0).2 = .ok a ∧
      countAttempts (opRun maxR att 0).1 = i + 1) := by
  refine ⟨?_, ?_, ?_, ?_, ?_, ?_⟩
  · intro hlt
    rw [opRun, hk]
    simp [hlt]
  · intro hge
    rw [opRun, hk]
    simp [Nat.not_lt.mpr hge]
  · intro es hall
    exact opRun_all_fail maxR att es hall (maxR - 0) 0 rfl (Nat.zero_le maxR)
  · intro hle
    exact opRun_attempt_bound maxR att (maxR - k) k rfl hle
  · intro j a hj
    exact opRun_ok maxR att j a hj
  · intro i a es him hfail hok
    have h := opRun_first_ok maxR att i a es (maxR - 0) 0 rfl (Nat.zero_le i)
      him hfail hok
    rwa [Nat.sub_zero] at h

/-- C2 witness: the retry policy evaluated with ceiling 1 and an attempt
function that always fails with its attempt number, and with ceiling 3 and
an attempt function that fails twice then succeeds (the spec's retry
scenario: the successful result is returned after exactly three
attempts). -/
theorem claim_c2_retry_policy_witness :
    (opRun 1 (fun j => (Except.error j : Except Nat Unit)) 0 =
      ([.pageOpen, .attemptRun 0, .pageClose, .browserReset, .browserRelaunch]
          ++ (opRun 1 (fun j => (Except.error j : Except Nat Unit)) 1).1,
       (opRun 1 (fun j => (Except.error j : Except Nat Unit)) 1).2) ∧
    (opRun 1 (fun j => (Except.error j : Except Nat Unit)) 0).2 = .error 1 ∧
    countAttempts (opRun 1 (fun j => (Except.error j : Except Nat Unit)) 0).1 ≤ 2) ∧
    ((opRun 3 (fun j => if j < 2 then (Except.error j : Except Nat Nat)
        else .ok 42) 0).2 = .ok 42 ∧
     countAttempts (opRun 3 (fun j => if j < 2 then (Except.error j : Except Nat Nat)
        else .ok 42) 0).1 = 3) := by
  constructor
  · obtain ⟨h1, -, h3, h4, -, -⟩ :=
      claim_c2_retry_policy 1 (fun j => (Except.error j : Except Nat Unit)) 0 0 rfl
    exact ⟨h1 (by decide), h3 (fun j => j) (fun j => rfl), h4 (by decide)⟩
  · obtain ⟨-, -, -, -, -, h6⟩ :=
      claim_c2_retry_policy 3
        (fun j => if j < 2 then (Except.error j : Except Nat Nat) else .ok 42)
        0 0 rfl
    have h := h6 2 42 (fun j => j) (by decide)
      (fun j hj => by interval_cases j <;> rfl) rfl
    simpa using h

/-- C3 counterexample: on the very subtree the claim describes, the
transform strips `class`/`style` from the svg element and its descendants
too (the exemption was deliberately reverted, src/src/scraper.ts lines
320-332), so the output differs from the claimed svg-preserving output. -/
theorem claim_c3_svg_exemption_cex :
    cleanTree c3Input = c3Stripped ∧ cleanTree c3Input ≠ c3Claimed := by
  refine ⟨rfl, ?_⟩
  intro h
  rw [show cleanTree c3Input = c3Stripped from rfl] at h
  simp [c3Stripped, c3Claimed] at h

/-- C3 amended: the transform strips `style` elements and `style`/`class`
attributes from every element below the root uniformly — elements inside an
svg subtree included; on the example subtree both the div's and the svg
subtree's `class`/`style` attributes are removed. -/
theorem claim_c3_amended_strip_all :
    (∀ n, noAttrDesc (fun a => a == "style") (cleanTree n) = true ∧
          noAttrDesc (fun a => a == "class") (cleanTree n) = true ∧
          noTagDesc "style" (cleanTree n) = true) ∧
    cleanTree c3Input = c3Stripped := by
  constructor
  · intro n
    have h := noTagDesc_stripAttrsDesc_removeTag_chain n
    exact ⟨h.2.2.2.2.2.2.2.2.1, h.2.2.2.2.2.2.2.2.2.1, h.2.1⟩
  · rfl

/-- C4: in every reachable scraper state, `isLoggedIn = true` implies the
browser handle is non-null; `close()` resets the two fields together,
taking every reachable state to the initial state; and a failed login run
leaves `isLoggedIn = false` whenever it propagates an error. -/
theorem claim_c4_session_invariant {s : SState} (o : LoginOutcome)
    (h : SReach s) :
    (s.isLoggedIn = true → s.browser = true) ∧
    closeBrowser s = sInit ∧
    ((loginRun s o).2.2 = true → (loginRun s o).1.isLoggedIn = false) := by
  have hinv := sReach_invariant h
  refine ⟨hinv, ?_, ?_⟩
  · by_cases hb : s.browser
    · simp [closeBrowser, hb, sInit]
    · have hl : s.isLoggedIn = false := by
        cases hL : s.isLoggedIn
        · rfl
        · exact absurd (hinv hL) hb
      obtain ⟨b, l⟩ := s
      simp only at hb hl
      simp [closeBrowser, hb, hl, sInit]
  · by_cases hlg : s.isLoggedIn
    · simp [loginRun, hlg]
    · cases o with
      | ok => simp [loginRun, hlg]
      | fail evs => simp [loginRun, hlg]

/-- C4 witness: the session invariant evaluated in the concrete reachable
state after a successful launch, with a failing login outcome. -/
theorem claim_c4_session_invariant_witness :
    ((⟨true, false⟩ : SState).isLoggedIn = true → (⟨true, false⟩ : SState).browser = true) ∧
    closeBrowser ⟨true, false⟩ = sInit ∧
    ((loginRun ⟨true, false⟩ (.fail [])).2.2 = true →
      (loginRun ⟨true, false⟩ (.fail [])).1.isLoggedIn = false) :=
  claim_c4_session_invariant (.fail []) (SReach.stepInit true SReach.init)

/-- C5: on every path of every scrape operation — successful return, caught
failure that retries, failure that propagates — the page opened by an
invocation is closed before the invocation returns, raises or tears the
browser down to recurse: the event trace is page-balanced from an empty
page set (opens only when no page is open, closes the one open page, and
reaches `retOk`/`raise`/`browserReset` only with no page open). -/
theorem claim_c5_page_always_closed {E A : Type} (maxR : Nat)
    (att : Nat → Except E A) (k : Nat) :
    openBalanced 0 (opRun maxR att k).1 = true :=
  opRun_openBalanced maxR att (maxR - k) k rfl

/-- C6: the content sanitization transform is idempotent in both of its
phases: re-running the DOM phase on its own output changes nothing, and
re-running the whitespace-collapse replace chain on its own output changes
nothing. -/
theorem claim_c6_sanitize_idempotent :
    (∀ n, cleanTree (cleanTree n) = cleanTree n) ∧
    (∀ s, collapseWsStr (collapseWsStr s) = collapseWsStr s) :=
  ⟨cleanTree_idem, collapseWsStr_idem⟩

/-- C7: the transform replaces every hyperlink below the root by a plain
text node carrying its text content and drops anchors with empty text: no
anchor survives in any output, and on the example
`<a href="/x">Acme Corp</a>` the output holds the bare text node
`Acme Corp`. -/
theorem claim_c7_links_replaced :
    (∀ n, noTagDesc "a" (cleanTree n) = true) ∧
    (∀ n, textContent (replaceLinksDesc n) = textContent n) ∧
    cleanTree c7Input = c7Output ∧
    cleanTree c7EmptyInput = c7EmptyOutput := by
  refine ⟨fun n => (noTagDesc_stripAttrsDesc_removeTag_chain n).2.2.1,
    textContent_replaceLinksDesc, rfl, rfl⟩

/-- C8: `login` is idempotent on an authenticated session: whenever
`isLoggedIn` is already true it performs no actions at all (no
interception setup, no navigation, no typing, no submit) and leaves the
state unchanged, whatever outcome the full procedure would have had. -/
theorem claim_c8_login_idempotent (s : SState) (o : LoginOutcome)
    (h : s.isLoggedIn = true) :
    loginRun s o = (s, [], false) := by
  simp [loginRun, h]

/-- C8 witness: the already-logged-in no-op evaluated at the concrete
authenticated state. -/
theorem claim_c8_login_idempotent_witness :
    loginRun ⟨true, true⟩ .ok = (⟨true, true⟩, [], false) :=
  claim_c8_login_idempotent ⟨true, true⟩ .ok rfl

/-- C9 counterexample: with the default configuration
(`TYPING_DELAY_MIN = 50`, `TYPING_DELAY_MAX = 150`) and draw `r = 0`, the
computed inter-keystroke delay is 6, which does not lie in `[50, 150]` —
the delay is not drawn from the configured range — and the very same
scaled-down value is what the CSS-selector branch passes to `page.type`,
so the scaling is not applied only to XPath targets. -/
theorem claim_c9_typing_delay_cex :
    keystrokeDelay 50 150 0 = 6 ∧
    ¬ (50 ≤ keystrokeDelay 50 150 0) ∧
    typeHumanLike "#search" ['a'] [0] 50 150 =
      [.clickTarget, .typeChar 'a' 6, .settle 50] ∧
    typeHumanLike "/html/body/input" ['a'] [0] 50 150 =
      [.clickTarget, .injectChar 'a' 6, .settle 50] := by
  have hd : keystrokeDelay 50 150 0 = 6 := by
    unfold keystrokeDelay
    norm_num
  have hcss : isXPathSel "#search" = false := rfl
  have hxp : isXPathSel "/html/body/input" = true := rfl
  refine ⟨hd, by rw [hd]; norm_num, ?_, ?_⟩
  · simp [typeHumanLike, hcss, hd]
  · simp [typeHumanLike, hxp, hd]

/-- C9 amended: the inter-keystroke delay is the `[min, max]` draw scaled
down by a factor of 8 (floored), so it lies between `⌊min/8⌋` and
`⌊(max+1)/8⌋`; the same scaled delay is used for both XPath targets (as
the sleep after injecting the character) and CSS-selector targets (as the
delay handed to `page.type`); and a fixed 50 ms settle delay follows the
final character. -/
theorem claim_c9_amended_scaled_delay (tmin tmax : ℤ) (r : ℚ) (c : Char)
    (selX selC : String) (h0 : 0 ≤ r) (h1 : r < 1) (hm : tmin ≤ tmax)
    (hX : isXPathSel selX = true) (hC : isXPathSel selC = false) :
    Int.floor ((tmin : ℚ) / 8) ≤ keystrokeDelay tmin tmax r ∧
    keystrokeDelay tmin tmax r ≤ Int.floor (((tmax : ℚ) + 1) / 8) ∧
    typeHumanLike selX [c] [r] tmin tmax =
      [.clickTarget, .injectChar c (keystrokeDelay tmin tmax r), .settle 50] ∧
    typeHumanLike selC [c] [r] tmin tmax =
      [.clickTarget, .typeChar c (keystrokeDelay tmin tmax r), .settle 50] := by
  have hspan : (0 : ℚ) ≤ (tmax : ℚ) - (tmin : ℚ) + 1 := by
    have : (tmin : ℚ) ≤ (tmax : ℚ) := by exact_mod_cast hm
    linarith
  refine ⟨?_, ?_, ?_, ?_⟩
  · apply Int.floor_le_floor
    apply div_le_div_of_nonneg_right ?_ (by norm_num : (0 : ℚ) ≤ 8)
    nlinarith
  · apply Int.floor_le_floor
    apply div_le_div_of_nonneg_right ?_ (by norm_num : (0 : ℚ) ≤ 8)
    nlinarith
  · simp [typeHumanLike, hX]
  · simp [typeHumanLike, hC]

/-- C9 amended witness: the bounds and both branch traces evaluated at the
default configuration with draw one half. -/
theorem claim_c9_amended_scaled_delay_witness :
    Int.floor ((50 : ℚ) / 8) ≤ keystrokeDelay 50 150 (1 / 2) ∧
    keystrokeDelay 50 150 (1 / 2) ≤ Int.floor (((150 : ℚ) + 1) / 8) ∧
    typeHumanLike "/html/body/input" ['a'] [1 / 2] 50 150 =
      [.clickTarget, .injectChar 'a' (keystrokeDelay 50 150 (1 / 2)), .settle 50] ∧
    typeHumanLike "#search" ['a'] [1 / 2] 50 150 =
      [.clickTarget, .typeChar 'a' (keystrokeDelay 50 150 (1 / 2)), .settle 50] :=
  claim_c9_amended_scaled_delay 50 150 (1 / 2) 'a' "/html/body/input" "#search"
    (by norm_num) (by norm_num) (by norm_num) rfl rfl

/-- C10: `getSuggestions` never fails because the fetched body is not valid
JSON: when the body text is absent the code parses the empty-object
literal, and when the body text does not parse the catch branch substitutes
the empty object, so in both cases the result's `json` field is the empty
object rather than an error. -/
theorem claim_c10_suggestions_json_fallback
    (parse : String → Option JsonVal) (s url : String)
    (hp : parse "\x7b\x7d" = some emptyJsonObj) (hbad : parse s = none) :
    (getSuggestionsExtract parse none url).json = emptyJsonObj ∧
    (getSuggestionsExtract parse (some s) url).json = emptyJsonObj ∧
    (∀ t j, parse t = some j → ¬ t = "" →
      (getSuggestionsExtract parse (some t) url).json = j) ∧
    (∀ bodyText, (getSuggestionsExtract parse bodyText url).url = url) := by
  refine ⟨?_, ?_, ?_, ?_⟩
  · simp [getSuggestionsExtract, suggestionsBodyJson, hp]
  · by_cases hs : s = ""
    · simp [getSuggestionsExtract, suggestionsBodyJson, hs, hp]
    · simp [getSuggestionsExtract, suggestionsBodyJson, hs, hbad]
  · intro t j hpt ht
    simp [getSuggestionsExtract, suggestionsBodyJson, ht, hpt]
  · intro bodyText
    rfl

/-- C10 witness: the fallback evaluated with a parser that accepts exactly
the empty-object literal, on an absent body, on a non-JSON body, on the
literal itself as a present body, and on the url field. -/
theorem claim_c10_suggestions_json_fallback_witness :
    (getSuggestionsExtract
        (fun t => if t = "\x7b\x7d" then some emptyJsonObj else none)
        none "https://www.northdata.de/suggest.json").json = emptyJsonObj ∧
    (getSuggestionsExtract
        (fun t => if t = "\x7b\x7d" then some emptyJsonObj else none)
        (some "not json") "https://www.northdata.de/suggest.json").json =
      emptyJsonObj ∧
    (getSuggestionsExtract
        (fun t => if t = "\x7b\x7d" then some emptyJsonObj else none)
        (some "\x7b\x7d") "https://www.northdata.de/suggest.json").json =
      emptyJsonObj ∧
    (getSuggestionsExtract
        (fun t => if t = "\x7b\x7d" then some emptyJsonObj else none)
        none "https://www.northdata.de/suggest.json").url =
      "https://www.northdata.de/suggest.json" := by
  obtain ⟨h1, h2, h3, h4⟩ := claim_c10_suggestions_json_fallback
    (fun t => if t = "\x7b\x7d" then some emptyJsonObj else none)
    "not json" "https://www.northdata.de/suggest.json" rfl rfl
  exact ⟨h1, h2, h3 "\x7b\x7d" emptyJsonObj rfl (by decide), h4 none⟩

end NorthData
